import Mathlib

/-!
# ttlcache: a shallow embedding of the cache, its expiration queue and its items

The Go sources embedded here are `item.go`, `expiration_queue.go` and
`cache.go`, together with the functions of the standard library package
`container/heap` that `expiration_queue.go` calls.

Modelling decisions.

* A `*ttlItem` is an address: an index into `mem`, the list of all items ever
  allocated.  The map and the queue both hold addresses, so an item reachable
  from both is one object, as in Go.
* `time.Now()` is a parameter `now` of every operation; all the readings of the
  clock inside one operation return that same instant.
* `time.Time` and `time.Duration` are integers (nanoseconds), unbounded.  The
  zero value `time.Time{}` is the integer 0, an instant the clock may show as
  well; the runs that compare a result with it use other instants.
* A run-time panic is the value `Except.error`.  Loops carry a fuel argument;
  a loop that uses up its fuel reports `Fault.outOfFuel`, so that every theorem
  stating a result `Except.ok _` also states that the loop ended by itself.
* The eviction callback is recorded: `calls` lists the invocations in order.
* The operations are the sections of the Go methods that run under `mu`, each
  of them one atomic step.  The scheduler `startExpirationProcessing` appears
  as the step `Op.cleanup`, the call of `cleanup` it makes when its timer
  fires, which a run may take at any instant.
* The wake-up protocol between `Set` and the scheduler (`hasNotified`,
  `waitItem`, the timer) is the state `System` around a `cache`, with the
  steps `Act`: one step is one critical section of `mu` or one operation on a
  channel, and the steps of the goroutines interleave freely.
* A Go map is a list of pairs; `len` is its length.  The keys are compared
  with Go's `==` on `interface{}`, which is the `BEq` instance of the key type
  and is not assumed reflexive: a key that is not equal to itself, such as a
  float NaN, is never found, gets a new entry at every assignment and is never
  deleted.  The theorems assume of `==` only that it is symmetric and
  transitive (`PartialEquivBEq`).  Keys of a type Go cannot hash (slices, maps,
  functions), on which every map access panics, are outside the model.
-/

set_option autoImplicit false
set_option linter.unusedSectionVars false

namespace ttlcache

/-- An instant of `time.Time`. -/
abbrev Time := Int

/-- A `time.Duration`. -/
abbrev Duration := Int

/-- The type `EvictReason int` of `cache.go`. -/
abbrev EvictReason := Int

/-- The constant `Removed` (iota = 0). -/
def Removed : EvictReason := 0

/-- The constant `Expired` (iota = 1). -/
def Expired : EvictReason := 1

/-- The constant `OutOfCapacity` (iota = 2). -/
def OutOfCapacity : EvictReason := 2

/-- The method `EvictReason.String` of `cache.go`. -/
def EvictReason.String (reason : EvictReason) : String :=
  if reason = Removed then "Removed"
  else if reason = Expired then "Expired"
  else if reason = OutOfCapacity then "OutOfCapacity"
  else "Unknown"

/-- The ways an operation can fail to return. -/
inductive Fault where
  /-- Go's run-time panic for a slice index out of range. -/
  | indexOutOfRange
  /-- An address that holds no item was dereferenced. -/
  | badAddress
  /-- A loop of the model used up its fuel. -/
  | outOfFuel
  deriving DecidableEq, Repr

/-- The struct `ttlItem` of `item.go`. -/
structure ttlItem (K V : Type) where
  key : K
  value : V
  ttl : Duration
  createAt : Time
  expireAt : Time
  queueIndex : Int
  deriving DecidableEq, Repr

/-- The function `newTTLItem` of `item.go`; `queueIndex` is not assigned
there, so it has Go's zero value. -/
def newTTLItem {K V : Type} (now : Time) (key : K) (value : V) (ttl : Duration) :
    ttlItem K V :=
  let ttl := if ttl < 0 then 0 else ttl
  { key := key, value := value, ttl := ttl, createAt := now,
    expireAt := now + ttl, queueIndex := 0 }

/-- The method `ttlItem.touch` of `item.go`. -/
def ttlItem.touch {K V : Type} (item : ttlItem K V) (now : Time) : ttlItem K V :=
  { item with expireAt := now + item.ttl }

/-- The method `ttlItem.expired` of `item.go`: `expireAt.Before(now)`. -/
def ttlItem.expired {K V : Type} (item : ttlItem K V) (now : Time) : Bool :=
  decide (item.expireAt < now)

/-- The items allocated so far; the address of an item is its position. -/
abbrev Mem (K V : Type) := List (ttlItem K V)

/-- Read the item at address `p`. -/
def load {K V : Type} (m : Mem K V) (p : Nat) : Except Fault (ttlItem K V) :=
  match m[p]? with
  | some it => .ok it
  | none => .error .badAddress

/-- Allocate a new item: `&ttlItem{...}`. -/
def alloc {K V : Type} (m : Mem K V) (it : ttlItem K V) : Mem K V × Nat :=
  (m ++ [it], m.length)

/-- The slice index expression `l[i]`, which panics outside `0 ≤ i < len(l)`. -/
def index {α : Type} (l : List α) (i : Int) : Except Fault α :=
  if i < 0 then .error .indexOutOfRange
  else
    match l[i.toNat]? with
    | some a => .ok a
    | none => .error .indexOutOfRange

/-- The assignment `p.queueIndex = v` through the address `p`. -/
def setQueueIndex {K V : Type} (m : Mem K V) (p : Nat) (v : Int) :
    Except Fault (Mem K V) :=
  match m[p]? with
  | some it => .ok (m.set p { it with queueIndex := v })
  | none => .error .badAddress

/-- The struct `expirationQueue` of `expiration_queue.go`: the slice `items`
of addresses, carried together with the memory `mem` those addresses point
into, because every method of the queue writes `queueIndex` through them. -/
structure expirationQueue (K V : Type) where
  mem : Mem K V
  items : List Nat
  deriving DecidableEq, Repr

namespace expirationQueue

variable {K V : Type}

/-- The method `Len`. -/
def Len (eq : expirationQueue K V) : Int := eq.items.length

/-- The method `isEmpty`. -/
def isEmpty (eq : expirationQueue K V) : Bool := decide (eq.items.length = 0)

/-- The method `root`: `none` is Go's `nil`. -/
def root (eq : expirationQueue K V) : Option Nat :=
  if eq.items.length = 0 then none else eq.items[0]?

/-- The method `Less`. -/
def Less (eq : expirationQueue K V) (i j : Int) : Except Fault Bool := do
  let pi ← index eq.items i
  let a ← load eq.mem pi
  let pj ← index eq.items j
  let b ← load eq.mem pj
  pure (decide (a.expireAt < b.expireAt))

/-- The method `Swap`. -/
def Swap (eq : expirationQueue K V) (i j : Int) : Except Fault (expirationQueue K V) := do
  let pj ← index eq.items j
  let pi ← index eq.items i
  let items := (eq.items.set i.toNat pj).set j.toNat pi
  let a ← index items i
  let mem ← setQueueIndex eq.mem a i
  let b ← index items j
  let mem ← setQueueIndex mem b j
  pure { mem := mem, items := items }

/-- The method `Push`. -/
def Push (eq : expirationQueue K V) (item : Nat) : Except Fault (expirationQueue K V) := do
  let mem ← setQueueIndex eq.mem item (eq.items.length : Int)
  pure { mem := mem, items := eq.items ++ [item] }

/-- The method `Pop`. -/
def Pop (eq : expirationQueue K V) : Except Fault (expirationQueue K V × Nat) := do
  let n : Int := eq.items.length
  let item ← index eq.items (n - 1)
  let mem ← setQueueIndex eq.mem item (-1)
  pure ({ mem := mem, items := eq.items.take (eq.items.length - 1) }, item)

end expirationQueue

/-! ### `container/heap` of the Go standard library, on an `expirationQueue` -/

namespace heap

variable {K V : Type}

/-- The loop of `heap.up(h, j)`. -/
def up : Nat → expirationQueue K V → Int → Except Fault (expirationQueue K V)
  | 0, _, _ => .error .outOfFuel
  | fuel + 1, h, j =>
    let i := (j - 1).tdiv 2
    if i = j then .ok h
    else do
      let lt ← h.Less j i
      if !lt then .ok h
      else do
        let h ← h.Swap i j
        up fuel h i

/-- The loop of `heap.down(h, i0, n)`, at the current `i`; the result carries
the returned `i > i0`. -/
def down : Nat → expirationQueue K V → Int → Int → Int →
    Except Fault (expirationQueue K V × Bool)
  | 0, _, _, _, _ => .error .outOfFuel
  | fuel + 1, h, i0, i, n =>
    let j1 := 2 * i + 1
    if j1 ≥ n ∨ j1 < 0 then .ok (h, decide (i > i0))
    else do
      let j2 := j1 + 1
      let lt ← if j2 < n then h.Less j2 j1 else pure false
      let j := if lt then j2 else j1
      let lt2 ← h.Less j i
      if !lt2 then .ok (h, decide (i > i0))
      else do
        let h ← h.Swap i j
        down fuel h i0 j n

/-- The loop `for i := n/2 - 1; i >= 0; i--` of `heap.Init`. -/
def initLoop : Nat → expirationQueue K V → Int → Int → Except Fault (expirationQueue K V)
  | 0, h, i, _ => if i ≥ 0 then .error .outOfFuel else .ok h
  | fuel + 1, h, i, n =>
    if i ≥ 0 then do
      let r ← down (h.items.length + 1) h i i n
      initLoop fuel r.1 (i - 1) n
    else .ok h

/-- The function `heap.Init`. -/
def Init (h : expirationQueue K V) : Except Fault (expirationQueue K V) :=
  let n := h.Len
  initLoop h.items.length h (n.tdiv 2 - 1) n

/-- The function `heap.Push`. -/
def Push (h : expirationQueue K V) (x : Nat) : Except Fault (expirationQueue K V) := do
  let h ← h.Push x
  up (h.items.length + 1) h (h.Len - 1)

/-- The function `heap.Pop`. -/
def Pop (h : expirationQueue K V) : Except Fault (expirationQueue K V × Nat) := do
  let n := h.Len - 1
  let h ← h.Swap 0 n
  let r ← down (h.items.length + 1) h 0 0 n
  r.1.Pop

/-- The function `heap.Remove`. -/
def Remove (h : expirationQueue K V) (i : Int) : Except Fault (expirationQueue K V × Nat) := do
  let n := h.Len - 1
  let h ← if n ≠ i then do
      let h ← h.Swap i n
      let r ← down (h.items.length + 1) h i i n
      if !r.2 then up (h.items.length + 1) r.1 i else pure r.1
    else pure h
  h.Pop

/-- The function `heap.Fix`. -/
def Fix (h : expirationQueue K V) (i : Int) : Except Fault (expirationQueue K V) := do
  let r ← down (h.items.length + 1) h i i h.Len
  if !r.2 then up (h.items.length + 1) r.1 i else pure r.1

end heap

/-- The function `newExpirationQueue`, in a memory `m`. -/
def newExpirationQueue {K V : Type} (m : Mem K V) : Except Fault (expirationQueue K V) :=
  heap.Init { mem := m, items := [] }

namespace expirationQueue

variable {K V : Type}

/-- The method `update`. -/
def update (eq : expirationQueue K V) (item : Nat) : Except Fault (expirationQueue K V) := do
  let it ← load eq.mem item
  heap.Fix eq it.queueIndex

/-- The method `push`. -/
def push (eq : expirationQueue K V) (item : Nat) : Except Fault (expirationQueue K V) :=
  heap.Push eq item

/-- The method `pop`: the address is `none` for Go's `nil`. -/
def pop (eq : expirationQueue K V) : Except Fault (expirationQueue K V × Option Nat) :=
  if eq.Len = 0 then .ok (eq, none)
  else do
    let r ← heap.Pop eq
    pure (r.1, some r.2)

/-- The method `remove`. -/
def remove (eq : expirationQueue K V) (item : Nat) : Except Fault (expirationQueue K V) := do
  let it ← load eq.mem item
  let r ← heap.Remove eq it.queueIndex
  pure r.1

end expirationQueue

/-! ### The map `map[interface{}]*ttlItem` -/

/-- The map index expression `m[key]` with its `ok` result: the entry whose
key is `==` to `key`.  A key that is not `==` to itself is never found. -/
def mapGet {K : Type} [BEq K] (key : K) : List (K × Nat) → Option Nat
  | [] => none
  | (k, p) :: rest => if k == key then some p else mapGet key rest

/-- The map assignment `m[key] = p`: the entry whose key is `==` to `key` is
overwritten, and a new entry is added when there is none, which is always so
for a key that is not `==` to itself. -/
def mapSet {K : Type} [BEq K] (key : K) (p : Nat) : List (K × Nat) → List (K × Nat)
  | [] => [(key, p)]
  | (k, q) :: rest => if k == key then (key, p) :: rest else (k, q) :: mapSet key p rest

/-- The builtin `delete(m, key)`: the entry whose key is `==` to `key` goes.
Nothing is deleted for a key that is not `==` to itself. -/
def mapDelete {K : Type} [BEq K] (key : K) : List (K × Nat) → List (K × Nat)
  | [] => []
  | (k, q) :: rest => if k == key then mapDelete key rest else (k, q) :: mapDelete key rest

/-- The struct `Config` of `cache.go`, without the logging fields and with
the callback left to the record `calls`. -/
structure Config where
  Capacity : Int
  TTL : Duration
  deriving DecidableEq, Repr

/-- The struct `cache` of `cache.go`.  `calls` records the invocations of
`evictCallback`, oldest first. -/
structure cache (K V : Type) where
  ttl : Duration
  items : List (K × Nat)
  queue : expirationQueue K V
  capacity : Int
  calls : List (K × V × EvictReason)
  deriving DecidableEq, Repr

/-- The function `NewCache`. -/
def NewCache (K V : Type) (cfg : Config) : Except Fault (cache K V) := do
  let ttl := if cfg.TTL < 0 then 0 else cfg.TTL
  let capacity := if cfg.Capacity < 0 then 0 else cfg.Capacity
  let queue ← newExpirationQueue []
  pure { ttl := ttl, items := [], queue := queue, capacity := capacity, calls := [] }

namespace cache

variable {K V : Type} [BEq K]

/-- The method `getItem`: `none` is the result `(nil, false)`. -/
def getItem (c : cache K V) (now : Time) (key : K) : Except Fault (cache K V × Option Nat) :=
  match mapGet key c.items with
  | none => .ok (c, none)
  | some item => do
    let it ← load c.queue.mem item
    if it.expired now then .ok (c, none)
    else do
      let q ← ({ c.queue with mem := c.queue.mem.set item (it.touch now) }).update item
      pure ({ c with queue := q }, some item)

/-- The method `removeItem`. -/
def removeItem (c : cache K V) (item : Nat) (reason : EvictReason) :
    Except Fault (cache K V) := do
  let q ← c.queue.remove item
  let it ← load q.mem item
  pure { c with queue := q, items := mapDelete it.key c.items,
                calls := c.calls ++ [(it.key, it.value, reason)] }

/-- The method `Set`, up to `c.mu.Unlock()`. -/
def Set (c : cache K V) (now : Time) (key : K) (value : V) : Except Fault (cache K V) := do
  let r ← c.getItem now key
  let c := r.1
  match r.2 with
  | some item => do
    let it ← load c.queue.mem item
    let it := { it with value := value }
    let q ← ({ c.queue with mem := c.queue.mem.set item (it.touch now) }).update item
    pure { c with queue := q }
  | none => do
    let c ← if (c.items.length : Int) ≥ c.capacity then do
        let head ← index c.queue.items 0
        c.removeItem head OutOfCapacity
      else pure c
    let a := alloc c.queue.mem (newTTLItem now key value c.ttl)
    let q ← ({ c.queue with mem := a.1 }).push a.2
    pure { c with items := mapSet key a.2 c.items, queue := q }

/-- The method `Get`: the result `(nil, false)` is `(none, false)`. -/
def Get (c : cache K V) (now : Time) (key : K) :
    Except Fault (cache K V × Option V × Bool) := do
  let r ← c.getItem now key
  match r.2 with
  | none => pure (r.1, none, false)
  | some item => do
    let it ← load r.1.queue.mem item
    pure (r.1, some it.value, true)

/-- The method `Remove`. -/
def Remove (c : cache K V) (key : K) : Except Fault (cache K V) :=
  match mapGet key c.items with
  | none => .ok c
  | some object => c.removeItem object Removed

/-- The method `Count`. -/
def Count (c : cache K V) : Int := c.items.length

/-- The zero value `time.Time{}`. -/
def zeroTime : Time := 0

/-- The method `OldestTime`. -/
def OldestTime (c : cache K V) : Except Fault Time :=
  match c.queue.root with
  | none => .ok zeroTime
  | some root => do
    let it ← load c.queue.mem root
    pure it.createAt

/-- The loop of the method `cleanup`. -/
def cleanupLoop : Nat → cache K V → Time → Except Fault (cache K V)
  | 0, _, _ => .error .outOfFuel
  | fuel + 1, c, now =>
    if c.queue.Len > 0 then do
      let head ← index c.queue.items 0
      let it ← load c.queue.mem head
      if it.expired now then do
        let c ← c.removeItem head Expired
        cleanupLoop fuel c now
      else .ok c
    else .ok c

/-- The method `cleanup`, which the scheduler runs when its timer fires. -/
def cleanup (c : cache K V) (now : Time) : Except Fault (cache K V) :=
  cleanupLoop (c.queue.items.length + 1) c now

end cache

/-- One step of a client or of the scheduler. -/
inductive Op (K V : Type) where
  | Set (key : K) (value : V)
  | Get (key : K)
  | Remove (key : K)
  | cleanup
  deriving DecidableEq, Repr

/-- Run one step at the instant `now`. -/
def cache.step {K V : Type} [BEq K] (c : cache K V) (now : Time) :
    Op K V → Except Fault (cache K V)
  | .Set key value => c.Set now key value
  | .Get key => do
    let r ← c.Get now key
    pure r.1
  | .Remove key => c.Remove key
  | .cleanup => c.cleanup now

/-- Run a list of timed steps, first to last. -/
def cache.run {K V : Type} [BEq K] (c : cache K V) :
    List (Time × Op K V) → Except Fault (cache K V)
  | [] => .ok c
  | (now, op) :: rest => do
    let c ← c.step now op
    c.run rest

/-- The instants of a list of timed steps never go back. -/
def nonDecreasing {K V : Type} : List (Time × Op K V) → Bool
  | [] => true
  | [_] => true
  | a :: b :: rest => decide (a.1 ≤ b.1) && nonDecreasing (b :: rest)

/-- The states a cache built by `NewCache cfg` can be in. -/
def Reachable {K V : Type} [BEq K] (cfg : Config) (c : cache K V) : Prop :=
  ∃ (c0 : cache K V) (steps : List (Time × Op K V)),
    NewCache K V cfg = .ok c0 ∧ nonDecreasing steps = true ∧ c0.run steps = .ok c

/-! ### Predicates used to state the properties -/

section Predicates

variable {K V : Type}

/-- An item without its `queueIndex`. -/
def ttlItem.core (it : ttlItem K V) : K × V × Duration × Time × Time :=
  (it.key, it.value, it.ttl, it.createAt, it.expireAt)

/-- Index bookkeeping: the item queued at position `i` records `queueIndex = i`. -/
def QWF (eq : expirationQueue K V) : Prop :=
  ∀ (i p : Nat), eq.items[i]? = some p →
    ∃ it, eq.mem[p]? = some it ∧ it.queueIndex = (i : Int)

/-- The queue `eq'` holds the items of `eq` in another order, the positions from
`n` on untouched, and the memory differs in `queueIndex` fields of queued items
only. -/
structure Rearr (n : Nat) (eq eq' : expirationQueue K V) : Prop where
  mem_iff : ∀ p : Nat, p ∈ eq'.items ↔ p ∈ eq.items
  length : eq'.items.length = eq.items.length
  high : ∀ i : Nat, n ≤ i → eq'.items[i]? = eq.items[i]?
  len : eq'.mem.length = eq.mem.length
  core : ∀ p : Nat, (eq'.mem[p]?).map ttlItem.core = (eq.mem[p]?).map ttlItem.core
  frame : ∀ p : Nat, p ∉ eq.items → eq'.mem[p]? = eq.mem[p]?
  wf : QWF eq'

/-- What every queue operation keeps of the memory. -/
structure Frame (eq eq' : expirationQueue K V) : Prop where
  len : eq'.mem.length = eq.mem.length
  core : ∀ p : Nat, (eq'.mem[p]?).map ttlItem.core = (eq.mem[p]?).map ttlItem.core
  frame : ∀ p : Nat, p ∉ eq.items → p ∉ eq'.items → eq'.mem[p]? = eq.mem[p]?
  wf : QWF eq'

/-- The queue `q'` is `q` after the item at address `p` was overwritten by
`it'` (same `queueIndex`) and the queue put in order again. -/
structure Upd (q q' : expirationQueue K V) (p : Nat) (it' : ttlItem K V) : Prop where
  mem_iff : ∀ a : Nat, a ∈ q'.items ↔ a ∈ q.items
  length : q'.items.length = q.items.length
  len : q'.mem.length = q.mem.length
  other : ∀ a : Nat, a ≠ p → (q'.mem[a]?).map ttlItem.core = (q.mem[a]?).map ttlItem.core
  self : (q'.mem[p]?).map ttlItem.core = some it'.core
  frame : ∀ a : Nat, a ∉ q.items → q'.mem[a]? = q.mem[a]?
  wf : QWF q'

end Predicates

section CachePredicates

variable {K V : Type} [BEq K]

/-- The structural invariant of the cache: the queue records its positions; an
entry of the map points to an item of the entry's key; it points to a queued
item when its key is `==` to itself (the entry of any other key stays when its
item leaves the queue, because `delete` does not find it); no two entries have
keys that are `==`. -/
structure CWF (c : cache K V) : Prop where
  qwf : QWF c.queue
  map_at : ∀ (k : K) (p : Nat), (k, p) ∈ c.items →
    ∃ it, c.queue.mem[p]? = some it ∧ it.key = k
  map_in : ∀ (k : K) (p : Nat), (k, p) ∈ c.items → (k == k) = true → p ∈ c.queue.items
  keys : c.items.Pairwise (fun a b => (a.1 == b.1) = false)
  ttl_nonneg : 0 ≤ c.ttl
  ttl_eq : ∀ (p : Nat) (it : ttlItem K V), c.queue.mem[p]? = some it → it.ttl = c.ttl
  cap_nonneg : 0 ≤ c.capacity

/-- The first statement of the `else` branch of `Set`: evict the root of the
queue when the map is at capacity. -/
def cache.evictIfFull (c : cache K V) : Except Fault (cache K V) :=
  if (c.items.length : Int) ≥ c.capacity then do
    let head ← index c.queue.items 0
    c.removeItem head OutOfCapacity
  else pure c

/-- The rest of the `else` branch of `Set`: allocate the new item, store it in
the map and push it on the queue. -/
def cache.insertNew (c : cache K V) (now : Time) (key : K) (value : V) :
    Except Fault (cache K V) := do
  let a := alloc c.queue.mem (newTTLItem now key value c.ttl)
  let q ← ({ c.queue with mem := a.1 }).push a.2
  pure { c with items := mapSet key a.2 c.items, queue := q }

end CachePredicates

/-! ### Definitions used to state the properties of the cache -/

section Statements

variable {K V : Type} [BEq K]

/-- The item the map holds for `key`, if any. -/
def cache.itemOf (c : cache K V) (key : K) : Option (ttlItem K V) :=
  match mapGet key c.items with
  | none => none
  | some p => c.queue.mem[p]?

/-- The map and the queue hold the same items, each of them once. -/
def Corresponds (c : cache K V) : Prop := (c.items.map Prod.snd).Perm c.queue.items

/-- The loop `for { item := queue.pop(); if item == nil { break }; ... }` of the
tests: the addresses in the order `pop` returns them. -/
def expirationQueue.drain : Nat → expirationQueue K V → Except Fault (List Nat)
  | 0, _ => .error .outOfFuel
  | fuel + 1, eq => do
    let r ← eq.pop
    match r.2 with
    | none => pure []
    | some p => do
      let rest ← drain fuel r.1
      pure (p :: rest)

/-- The keys of the items obtained by draining the queue. -/
def cache.drainKeys (c : cache K V) : Except Fault (List K) := do
  let ps ← c.queue.drain (c.queue.items.length + 1)
  pure (ps.filterMap fun p => (c.queue.mem[p]?).map ttlItem.key)

/-- Run timed steps on the cache that `NewCache cfg` builds. -/
def runNew (K V : Type) [BEq K] (cfg : Config) (steps : List (Time × Op K V)) :
    Except Fault (cache K V) := do
  let c ← NewCache K V cfg
  c.run steps

end Statements

/-! ### The elementary transitions of a step -/

section Transitions

variable {K V : Type} [BEq K]

/-- The step does not name the key `k`, nor a key `==` to it. -/
def Op.avoids (k : K) : Op K V → Bool
  | .Set key _ => !(key == k)
  | .Get key => !(key == k)
  | .Remove key => !(key == k)
  | .cleanup => true

/-- No item with a key `==` to `k` is queued but the one the map holds for
`k`. -/
def Sole (c : cache K V) (k : K) : Prop :=
  ∀ a ∈ c.queue.items, (c.queue.mem[a]?).map (fun it => it.key == k) = some true →
    mapGet k c.items = some a

/-- The callback was invoked for a key `==` to `k` with reason `OutOfCapacity`
after the first `n` invocations. -/
def EvictedFor (c : cache K V) (k : K) (n : Nat) : Prop :=
  ∃ x ∈ c.calls.drop n, (x.1 == k) = true ∧ x.2.2 = OutOfCapacity

/-- The state `c2` is `c` after `getItem`, or the update branch of `Set`,
rewrote the item at `a`, the address the map holds for `key`. -/
structure Refresh (c c2 : cache K V) (key : K) (a : Nat) : Prop where
  held : mapGet key c.items = some a
  items : c2.items = c.items
  calls : c2.calls = c.calls
  ttl : c2.ttl = c.ttl
  capacity : c2.capacity = c.capacity
  mem_iff : ∀ p : Nat, p ∈ c2.queue.items ↔ p ∈ c.queue.items
  other : ∀ p : Nat, p ≠ a →
    (c2.queue.mem[p]?).map ttlItem.core = (c.queue.mem[p]?).map ttlItem.core
  key_eq : (c2.queue.mem[a]?).map (fun it => it.key == key) = some true
  wf : CWF c2

/-- The state `c2` is `c` after `removeItem(a, reason)`, where `it` is the item
at the address `a`. -/
structure Removal (c c2 : cache K V) (a : Nat) (it : ttlItem K V) (reason : EvictReason) :
    Prop where
  queued : a ∈ c.queue.items
  item : c.queue.mem[a]? = some it
  items : c2.items = mapDelete it.key c.items
  calls : c2.calls = c.calls ++ [(it.key, it.value, reason)]
  ttl : c2.ttl = c.ttl
  capacity : c2.capacity = c.capacity
  mem_iff : ∀ p : Nat, p ∈ c2.queue.items ↔ p ∈ c.queue.items ∧ p ≠ a
  core : ∀ p : Nat, (c2.queue.mem[p]?).map ttlItem.core = (c.queue.mem[p]?).map ttlItem.core
  wf : CWF c2

/-- The state `c2` is `c` after the insertion of a new item for `key`. -/
structure Insertion (c c2 : cache K V) (now : Time) (key : K) (value : V) : Prop where
  items : c2.items = mapSet key c.queue.mem.length c.items
  calls : c2.calls = c.calls
  ttl : c2.ttl = c.ttl
  capacity : c2.capacity = c.capacity
  mem_iff : ∀ p : Nat, p ∈ c2.queue.items ↔ p ∈ c.queue.items ∨ p = c.queue.mem.length
  old : ∀ p : Nat, p < c.queue.mem.length →
    (c2.queue.mem[p]?).map ttlItem.core = (c.queue.mem[p]?).map ttlItem.core
  new : (c2.queue.mem[c.queue.mem.length]?).map ttlItem.core =
    some (key, value, c.ttl, now, now + c.ttl)
  wf : CWF c2

/-- The elementary transitions a step at the instant `now` that names no key
`==` to `k` is made of. -/
inductive Prim (k : K) (now : Time) : cache K V → cache K V → Prop where
  | refresh (c c2 : cache K V) (key : K) (a : Nat) :
      (key == k) = false → Refresh c c2 key a → Prim k now c c2
  | evict (c c2 : cache K V) (a : Nat) (it : ttlItem K V) :
      c.queue.items[0]? = some a → Removal c c2 a it OutOfCapacity → Prim k now c c2
  | expire (c c2 : cache K V) (a : Nat) (it : ttlItem K V) :
      c.queue.items[0]? = some a → it.expired now = true → Removal c c2 a it Expired →
      Prim k now c c2
  | remove (c c2 : cache K V) (a : Nat) (it : ttlItem K V) :
      (it.key == k) = false → mapGet it.key c.items = some a → Removal c c2 a it Removed →
      Prim k now c c2
  | insert (c c2 : cache K V) (key : K) (value : V) :
      (key == k) = false → Insertion c c2 now key value → Prim k now c c2

/-- The entry of `k`, if it is still there, has the deadline `e`. -/
def DeadlineOf (k : K) (e : Time) (c : cache K V) : Prop :=
  mapGet k c.items = none ∨
    ∃ p it, mapGet k c.items = some p ∧ c.queue.mem[p]? = some it ∧ it.expireAt = e

/-- Either the callback was invoked for `k` with reason `OutOfCapacity` after its
first `n` invocations, or the map holds for `k` the item at `p`, with value `v`
and deadline `e`, and no other item of key `k` is queued. -/
def Kept (k : K) (p : Nat) (v : V) (e : Time) (n : Nat) (c : cache K V) : Prop :=
  n ≤ c.calls.length ∧
  ((Sole c k ∧ mapGet k c.items = some p ∧
      ∃ it, c.queue.mem[p]? = some it ∧ it.value = v ∧ it.expireAt = e) ∨
    EvictedFor c k n)

end Transitions

/-! ### The heap invariant -/

section HeapOrder

variable {K V : Type}

/-- The `expireAt` of the item at the address `p` (0 when nothing is there). -/
def addrKey (m : Mem K V) (p : Nat) : Time :=
  match m[p]? with
  | none => 0
  | some it => it.expireAt

/-- The `expireAt` of the item queued at position `i` (0 outside the queue). -/
def expirationQueue.keyAt (eq : expirationQueue K V) (i : Nat) : Time :=
  match eq.items[i]? with
  | none => 0
  | some p => addrKey eq.mem p

/-- The heap invariant on the first `n` positions of the queue: no item
expires before its parent. -/
def HeapOrd (n : Nat) (eq : expirationQueue K V) : Prop :=
  ∀ c : Nat, 0 < c → c < n → eq.keyAt ((c - 1) / 2) ≤ eq.keyAt c

/-- The heap invariant holds on the first `n` positions but possibly between
position `j` and its parent. -/
def UpInv (n j : Nat) (eq : expirationQueue K V) : Prop :=
  (∀ c : Nat, 0 < c → c < n → c ≠ j → eq.keyAt ((c - 1) / 2) ≤ eq.keyAt c) ∧
  (∀ c : Nat, 0 < c → c < n → (c - 1) / 2 = j → 0 < j →
    eq.keyAt ((j - 1) / 2) ≤ eq.keyAt c)

/-- The heap invariant holds on the first `n` positions but possibly between
position `i` and its children, and between position `i0` and its parent. -/
def DownInv (n i0 i : Nat) (eq : expirationQueue K V) : Prop :=
  (∀ c : Nat, 0 < c → c < n → (c - 1) / 2 ≠ i → c ≠ i0 →
    eq.keyAt ((c - 1) / 2) ≤ eq.keyAt c) ∧
  (∀ c : Nat, 0 < c → c < n → (c - 1) / 2 = i → 0 < i →
    eq.keyAt ((i - 1) / 2) ≤ eq.keyAt c)

end HeapOrder

/-! ### Runs of the queue -/

section QueueRuns

variable {K V : Type}

/-- The item queued at position `i`. -/
def expirationQueue.itemAt (eq : expirationQueue K V) (i : Nat) : Option (ttlItem K V) :=
  match eq.items[i]? with
  | none => none
  | some p => eq.mem[p]?

/-- The queues obtained from the empty queue by allocating items, by `push` of
an item that is not queued, by `pop`, by `remove` of a queued item, and by
`update` of a queued item right after fields of it other than `queueIndex`
were assigned. -/
inductive QReach : expirationQueue K V → Prop where
  | new (m : Mem K V) (eq : expirationQueue K V) :
      newExpirationQueue m = .ok eq → QReach eq
  | alloc (eq : expirationQueue K V) (it : ttlItem K V) :
      QReach eq → QReach { eq with mem := eq.mem ++ [it] }
  | push (eq eq2 : expirationQueue K V) (item : Nat) :
      QReach eq → item < eq.mem.length → item ∉ eq.items → eq.push item = .ok eq2 → QReach eq2
  | pop (eq eq2 : expirationQueue K V) (r : Option Nat) :
      QReach eq → eq.pop = .ok (eq2, r) → QReach eq2
  | remove (eq eq2 : expirationQueue K V) (item : Nat) :
      QReach eq → item ∈ eq.items → eq.remove item = .ok eq2 → QReach eq2
  | update (eq eq2 : expirationQueue K V) (item : Nat) (it it2 : ttlItem K V) :
      QReach eq → item ∈ eq.items → eq.mem[item]? = some it →
      it2.queueIndex = it.queueIndex →
      ({ eq with mem := eq.mem.set item it2 } : expirationQueue K V).update item = .ok eq2 →
      QReach eq2

/-- Push the items at the addresses of a list, first to last. -/
def expirationQueue.pushAll : List Nat → expirationQueue K V → Except Fault (expirationQueue K V)
  | [], eq => .ok eq
  | p :: ps, eq => do
    let eq ← eq.push p
    pushAll ps eq

/-- Call `pop` until it returns `nil`: the addresses returned, in order, and
the queue that is left. -/
def expirationQueue.popAll : Nat → expirationQueue K V →
    Except Fault (List Nat × expirationQueue K V)
  | 0, _ => .error .outOfFuel
  | fuel + 1, eq => do
    let r ← eq.pop
    match r.2 with
    | none => pure ([], r.1)
    | some p => do
      let rest ← popAll fuel r.1
      pure (p :: rest.1, rest.2)

end QueueRuns

section CacheOrder

variable {K V : Type}

/-- The queue of the cache satisfies the heap invariant. -/
def COrd (c : cache K V) : Prop := HeapOrd c.queue.items.length c.queue

end CacheOrder

/-! ### The scheduler: `notifyExpiration` and `startExpirationProcessing`

The cache together with the fields and goroutines the protocol of the wake
signal uses.  Every step is one critical section of `c.mu`, or one operation
on a channel; steps of different goroutines interleave freely.  The timer is
the timer of Go 1.23: `Reset` leaves no stale value in `timer.C`. -/

section Scheduler

variable {K V : Type} [BEq K]

/-- The timer of `startExpirationProcessing`. -/
inductive Timer where
  /-- Stopped, or fired and its value received. -/
  | stopped
  /-- Set by `Reset` to fire at the instant `at_`. -/
  | armed (at_ : Time)
  /-- Fired: a value waits in `timer.C`. -/
  | fired
  deriving DecidableEq, Repr

/-- Where the goroutine of `startExpirationProcessing` stands. -/
inductive Pc where
  /-- Blocked in the `select`. -/
  | select
  /-- Took `case <-timer.C`, about to lock. -/
  | timerCase
  /-- Took `case <-c.waitItem`, about to lock. -/
  | waitItemCase
  deriving DecidableEq, Repr

/-- The cache with its scheduler.  `waitItem` is the number of values buffered
in the channel of capacity 1; `toNotify` counts the calls of `Set` that
inserted a new item, unlocked, and have not yet locked in `notifyExpiration`;
`toSend` counts the calls of `notifyExpiration` that have set `hasNotified`,
unlocked, and have not yet sent. -/
structure System (K V : Type) where
  c : cache K V
  hasNotified : Bool
  waitItem : Nat
  timer : Timer
  pc : Pc
  toNotify : Nat
  toSend : Nat
  deriving DecidableEq, Repr

/-- The steps of the goroutines. -/
inductive Act (K V : Type) where
  /-- The critical section of `Set`. -/
  | Set (now : Time) (key : K) (value : V)
  /-- The method `Get`. -/
  | Get (now : Time) (key : K)
  /-- The method `Remove`. -/
  | Remove (key : K)
  /-- The critical section of `notifyExpiration`, in a call of `Set` that
  inserted. -/
  | notify
  /-- The send `c.waitItem <- struct{}{}`. -/
  | send
  /-- The armed timer reaches its instant and sends on `timer.C`. -/
  | timerFires (now : Time)
  /-- The `select` takes `case <-timer.C`. -/
  | recvTimer
  /-- The `select` takes `case <-c.waitItem`. -/
  | recvWaitItem
  /-- The critical section of the case the `select` took. -/
  | handle (now : Time)
  deriving DecidableEq, Repr

/-- The state `NewCache` returns, the goroutine of `startExpirationProcessing`
in its `select` with the timer stopped. -/
def System.init (c : cache K V) : System K V :=
  { c := c, hasNotified := false, waitItem := 0, timer := .stopped, pc := .select,
    toNotify := 0, toSend := 0 }

/-- The closure `updateTimer` of `startExpirationProcessing`. -/
def System.updateTimer (s : System K V) : Except Fault (System K V × Bool) :=
  if s.c.queue.Len > 0 then
    match s.c.queue.root with
    | none => .error .badAddress
    | some root => do
      let it ← load s.c.queue.mem root
      pure ({ s with timer := .armed it.expireAt }, true)
  else pure (s, false)

/-- The critical section of `notifyExpiration`: `true` when the caller goes on
to send. -/
def System.notifyExpiration (s : System K V) : System K V × Bool :=
  if s.hasNotified then (s, false)
  else ({ s with hasNotified := true }, true)

/-- Whether a goroutine can take the step: a send needs room in the channel, a
receive needs a value, the timer fires no earlier than its instant. -/
def System.enabled (s : System K V) : Act K V → Bool
  | .Set _ _ _ => true
  | .Get _ _ => true
  | .Remove _ => true
  | .notify => decide (0 < s.toNotify)
  | .send => decide (0 < s.toSend) && decide (s.waitItem < 1)
  | .timerFires now =>
    match s.timer with
    | .armed at_ => decide (at_ ≤ now)
    | _ => false
  | .recvTimer => decide (s.pc = .select) && decide (s.timer = .fired)
  | .recvWaitItem => decide (s.pc = .select) && decide (0 < s.waitItem)
  | .handle _ => decide (s.pc ≠ .select)

/-- Take the step. -/
def System.step (s : System K V) : Act K V → Except Fault (System K V)
  | .Set now key value => do
    let r ← s.c.getItem now key
    let c ← s.c.Set now key value
    pure { s with c := c, toNotify := if r.2.isSome then s.toNotify else s.toNotify + 1 }
  | .Get now key => do
    let r ← s.c.Get now key
    pure { s with c := r.1 }
  | .Remove key => do
    let c ← s.c.Remove key
    pure { s with c := c }
  | .notify =>
    let r := s.notifyExpiration
    pure { r.1 with toNotify := s.toNotify - 1,
                    toSend := if r.2 then s.toSend + 1 else s.toSend }
  | .send => pure { s with toSend := s.toSend - 1, waitItem := s.waitItem + 1 }
  | .timerFires _ => pure { s with timer := .fired }
  | .recvTimer => pure { s with timer := .stopped, pc := .timerCase }
  | .recvWaitItem => pure { s with waitItem := s.waitItem - 1, pc := .waitItemCase }
  | .handle now =>
    match s.pc with
    | .select => pure s
    | .timerCase => do
      let c ← s.c.cleanup now
      let r ← ({ s with c := c } : System K V).updateTimer
      pure { r.1 with hasNotified := if r.2 then r.1.hasNotified else false, pc := .select }
    | .waitItemCase => do
      let r ← s.updateTimer
      pure { r.1 with pc := .select }

/-- Take the steps of a list, first to last; `none` when one of them cannot be
taken. -/
def System.run (s : System K V) : List (Act K V) → Option (Except Fault (System K V))
  | [] => some (.ok s)
  | a :: rest =>
    if s.enabled a then
      match s.step a with
      | .ok s2 => s2.run rest
      | .error e => some (.error e)
    else none

/-- The states the cache built by `NewCache cfg` and its scheduler can be in. -/
inductive SReach (cfg : Config) : System K V → Prop where
  | init (c : cache K V) : NewCache K V cfg = .ok c → SReach cfg (System.init c)
  | step (s s2 : System K V) (a : Act K V) :
      SReach cfg s → s.enabled a = true → s.step a = .ok s2 → SReach cfg s2

/-- The scheduler will run again without a further `Set`: its timer is armed
or has fired, or it stands in a case of its `select`, or a wake signal is
buffered or about to be sent, or a `Set` that inserted has yet to notify. -/
def System.awake (s : System K V) : Bool :=
  decide (s.timer ≠ .stopped) || decide (s.pc ≠ .select) || decide (0 < s.waitItem) ||
    decide (0 < s.toSend) || decide (0 < s.toNotify)

/-- The scheduler sleeps for good: `hasNotified` is set, so that no `Set`
sends, and nothing is left that wakes the scheduler. -/
def System.dead (s : System K V) : Bool :=
  s.hasNotified && decide (s.timer = .stopped) && decide (s.pc = .select) &&
    decide (s.waitItem = 0) && decide (s.toSend = 0)

/-- The invariant of the wake signal. -/
structure SInv (s : System K V) : Prop where
  one : s.waitItem + s.toSend ≤ 1
  idle : s.hasNotified = false →
    s.waitItem = 0 ∧ s.toSend = 0 ∧ s.timer = .stopped ∧ s.pc = .select
  busy : s.timer ≠ .stopped ∨ s.pc ≠ .select → s.waitItem = 0 ∧ s.toSend = 0
  case_ : s.pc ≠ .select → s.timer = .stopped

end Scheduler

/-! ### Concrete runs -/

/-- An item, for the concrete states below. -/
def mkItem (key value : Nat) (createAt expireAt : Time) (queueIndex : Int) : ttlItem Nat Nat :=
  { key := key, value := value, ttl := 10, createAt := createAt, expireAt := expireAt,
    queueIndex := queueIndex }

/-- Capacity 2, TTL 10. -/
def cfg2 : Config := { Capacity := 2, TTL := 10 }

/-- One key set at 0. -/
def stateA : cache Nat Nat :=
  { ttl := 10, items := [(1, 0)],
    queue := { mem := [mkItem 1 7 0 10 0], items := [0] },
    capacity := 2, calls := [] }

/-- Two keys, set at 0 and at 1. -/
def stateB : cache Nat Nat :=
  { ttl := 10, items := [(1, 0), (2, 1)],
    queue := { mem := [mkItem 1 7 0 10 0, mkItem 2 8 1 11 1], items := [0, 1] },
    capacity := 2, calls := [] }

/-- The state `stateB` after `Get(1)` at 3 and a cleanup at 4. -/
def stateC : cache Nat Nat :=
  { ttl := 10, items := [(1, 0), (2, 1)],
    queue := { mem := [mkItem 1 7 0 13 1, mkItem 2 8 1 11 0], items := [1, 0] },
    capacity := 2, calls := [] }

/-- Key 1 set at 0 and, after it expired and before the scheduler ran, set
again at 20. -/
def stateG : cache Nat Nat :=
  { ttl := 10, items := [(1, 1)],
    queue := { mem := [mkItem 1 7 0 10 0, mkItem 1 8 20 30 1], items := [0, 1] },
    capacity := 2, calls := [] }

/-- The state `stateG` after a cleanup at 25. -/
def stateGC : cache Nat Nat :=
  { ttl := 10, items := [],
    queue := { mem := [mkItem 1 7 0 10 (-1), mkItem 1 8 20 30 0], items := [1] },
    capacity := 2, calls := [(1, 7, Expired)] }

/-- The state `stateG` after `Remove(1)`. -/
def stateGR : cache Nat Nat :=
  { ttl := 10, items := [],
    queue := { mem := [mkItem 1 7 0 10 0, mkItem 1 8 20 30 (-1)], items := [0] },
    capacity := 2, calls := [(1, 8, Removed)] }

/-- The state `stateG` after keys 2 and 3 were set at 21 and 22. -/
def stateH : cache Nat Nat :=
  { ttl := 10, items := [(2, 2), (3, 3)],
    queue := { mem := [mkItem 1 7 0 10 (-1), mkItem 1 8 20 30 0, mkItem 2 9 21 31 1,
                       mkItem 3 10 22 32 2],
               items := [1, 2, 3] },
    capacity := 2, calls := [(1, 7, OutOfCapacity)] }

/-- The state `stateH` after key 4 was set at 23. -/
def stateI : cache Nat Nat :=
  { ttl := 10, items := [(2, 2), (3, 3), (4, 4)],
    queue := { mem := [mkItem 1 7 0 10 (-1), mkItem 1 8 20 30 (-1), mkItem 2 9 21 31 0,
                       mkItem 3 10 22 32 1, mkItem 4 11 23 33 2],
               items := [2, 3, 4] },
    capacity := 2, calls := [(1, 7, OutOfCapacity), (1, 8, OutOfCapacity)] }

/-- The steps that lead to `stateA`. -/
def traceA : List (Time × Op Nat Nat) := [(0, .Set 1 7)]

/-- The steps that lead to `stateB`. -/
def traceB : List (Time × Op Nat Nat) := [(0, .Set 1 7), (1, .Set 2 8)]

/-- The steps that lead to `stateG`. -/
def traceG : List (Time × Op Nat Nat) := [(0, .Set 1 7), (20, .Set 1 8)]

/-- The steps that lead to `stateH`. -/
def traceH : List (Time × Op Nat Nat) :=
  [(0, .Set 1 7), (20, .Set 1 8), (21, .Set 2 9), (22, .Set 3 10)]

/-- The steps that lead to `stateI`. -/
def traceI : List (Time × Op Nat Nat) :=
  [(0, .Set 1 7), (20, .Set 1 8), (21, .Set 2 9), (22, .Set 3 10), (23, .Set 4 11)]

/-- The items of `TestExpirationQueueCheckOrder_CaseTest`: the item at address
`a` has key `10 - a` and TTL `10 - a`. -/
def memOrder : Mem Nat Nat :=
  (List.range 10).map fun a => newTTLItem 0 (10 - a) 0 ((10 - a : Nat) : Int)

/-- The items of `TestExpirationQueueRemove_CaseTest`: the item at address `a`
has key `a` and TTL `a`. -/
def memRemove : Mem Nat Nat :=
  (List.range 5).map fun a => newTTLItem 0 a 0 (a : Int)

/-- The queue of `TestExpirationQueueRemove_CaseTest` after its five calls of
`push`. -/
def queueRemove : expirationQueue Nat Nat :=
  { mem := (List.range 5).map fun a =>
      { key := a, value := 0, ttl := (a : Int), createAt := 0, expireAt := (a : Int),
        queueIndex := (a : Int) },
    items := [0, 1, 2, 3, 4] }

/-- A queue that holds the item at address 0; the item at address 1 is as
`newTTLItem` returned it and was never pushed. -/
def queueFresh : expirationQueue Nat Nat :=
  { mem := [{ key := 1, value := 7, ttl := 10, createAt := 0, expireAt := 10, queueIndex := 0 },
            newTTLItem 5 2 8 10],
    items := [0] }

/-- Three items that expire at 30, 10 and 20. -/
def memThree : Mem Nat Nat := [newTTLItem 0 1 0 30, newTTLItem 0 2 0 10, newTTLItem 0 3 0 20]

/-- The queue after the items of `memThree` were pushed in the order of their
addresses. -/
def queueThree : expirationQueue Nat Nat :=
  { mem := [{ key := 1, value := 0, ttl := 30, createAt := 0, expireAt := 30, queueIndex := 1 },
            { key := 2, value := 0, ttl := 10, createAt := 0, expireAt := 10, queueIndex := 0 },
            { key := 3, value := 0, ttl := 20, createAt := 0, expireAt := 20, queueIndex := 2 }],
    items := [1, 0, 2] }

/-- Key 1 set at 5 and, after it expired and before the scheduler ran, set
again at 20 and removed at 21. -/
def stateK : cache Nat Nat :=
  { ttl := 10, items := [],
    queue := { mem := [mkItem 1 7 5 15 0, mkItem 1 8 20 30 (-1)], items := [0] },
    capacity := 2, calls := [(1, 8, Removed)] }

/-- Keys 1 and 2 set at 0 and 1, key 1 read at 2. -/
def stateL : cache Nat Nat :=
  { ttl := 10, items := [(1, 0), (2, 1)],
    queue := { mem := [mkItem 1 7 0 12 1, mkItem 2 8 1 11 0], items := [1, 0] },
    capacity := 2, calls := [] }

/-- The steps that lead to `stateK`. -/
def traceK : List (Time × Op Nat Nat) := [(5, .Set 1 7), (20, .Set 1 8), (21, .Remove 1)]

/-- The steps that lead to `stateL`. -/
def traceL : List (Time × Op Nat Nat) := [(0, .Set 1 7), (1, .Set 2 8), (2, .Get 1)]

/-- `Set(1)`, its notification and its send; `Remove(1)`; the scheduler takes
the signal and finds the queue empty; `Set(2)` and its notification. -/
def traceS : List (Act Nat Nat) :=
  [.Set 0 1 7, .notify, .send, .Remove 1, .recvWaitItem, .handle 1, .Set 2 2 8, .notify]

/-- The state at the end of `traceS`. -/
def stateS : System Nat Nat :=
  { c := { ttl := 10, items := [(2, 1)],
           queue := { mem := [mkItem 1 7 0 10 (-1), mkItem 2 8 2 12 0], items := [1] },
           capacity := 2, calls := [(1, 7, Removed)] },
    hasNotified := true, waitItem := 0, timer := .stopped, pc := .select,
    toNotify := 0, toSend := 0 }

/-- Keys 1 and 2, both set at 0. -/
def stateU : cache Nat Nat :=
  { ttl := 10, items := [(1, 0), (2, 1)],
    queue := { mem := [mkItem 1 7 0 10 0, mkItem 2 8 0 10 1], items := [0, 1] },
    capacity := 2, calls := [] }

/-- Two calls of `Set` that inserted, and their notifications: the first one
stands at its send, the second one returned. -/
def traceT : List (Act Nat Nat) := [.Set 0 1 7, .Set 0 2 8, .notify, .notify]

/-- The state at the end of `traceT`. -/
def stateT : System Nat Nat :=
  { c := stateU, hasNotified := true, waitItem := 0, timer := .stopped, pc := .select,
    toNotify := 0, toSend := 1 }

/-- Keys for the runs that need a key not equal to itself: a number, or a
float NaN. -/
inductive Key where
  | num (n : Nat)
  | nan

/-- Go's `==` on these keys: numbers are compared, a NaN is equal to nothing,
itself included. -/
def Key.eq : Key → Key → Bool
  | .num a, .num b => a == b
  | _, _ => false

instance instBEqKey : BEq Key := ⟨Key.eq⟩

/-- Capacity 1, TTL 10. -/
def cfg1 : Config := { Capacity := 1, TTL := 10 }

/-- With capacity 1: `Set(NaN, 1)`, `Set(1, 2)` and `Remove(1)`. -/
def traceN : List (Time × Op Key Nat) :=
  [(0, .Set .nan 1), (1, .Set (.num 1) 2), (2, .Remove (.num 1))]

/-- The state at the end of `traceN`. -/
def stateN : cache Key Nat :=
  { ttl := 10, items := [(.nan, 0)],
    queue := { mem := [{ key := .nan, value := 1, ttl := 10, createAt := 0, expireAt := 10,
                         queueIndex := -1 },
                       { key := .num 1, value := 2, ttl := 10, createAt := 1, expireAt := 11,
                         queueIndex := -1 }],
               items := [] },
    capacity := 1, calls := [(.nan, 1, OutOfCapacity), (.num 1, 2, Removed)] }

/-- Two items that expire at 10 and 20. -/
def memTwo : Mem Nat Nat := [newTTLItem 0 1 0 10, newTTLItem 0 2 0 20]

/-- The queue after `push` of the item at address 0, of the item at address 1
and again of the item at address 0. -/
def queueTwice : expirationQueue Nat Nat :=
  { mem := [mkItem 1 0 0 10 2, { key := 2, value := 0, ttl := 20, createAt := 0, expireAt := 20,
                                 queueIndex := 1 }],
    items := [0, 1, 0] }

/-- The queue `queueTwice` after `expireAt` of the item at address 0 was set to
30 and `update` called. -/
def queueBroken : expirationQueue Nat Nat :=
  { mem := [mkItem 1 0 0 30 2, { key := 2, value := 0, ttl := 20, createAt := 0, expireAt := 20,
                                 queueIndex := 1 }],
    items := [0, 1, 0] }

/-! ### The queue: index bookkeeping through `container/heap` -/

section QueueLemmas

variable {K V : Type}

theorem index_ofNat {α : Type} (l : List α) (n : Nat) (a : α) (h : l[n]? = some a) :
    index l (n : Int) = .ok a := by
  simp [index, h]

theorem setQueueIndex_ok (m : Mem K V) (p : Nat) (v : Int) (it : ttlItem K V)
    (h : m[p]? = some it) :
    setQueueIndex m p v = .ok (m.set p { it with queueIndex := v }) := by
  simp [setQueueIndex, h]

theorem QWF.inj {eq : expirationQueue K V} (h : QWF eq) {i j p : Nat}
    (hi : eq.items[i]? = some p) (hj : eq.items[j]? = some p) : i = j := by
  obtain ⟨a, ha, hai⟩ := h i p hi
  obtain ⟨b, hb, hbj⟩ := h j p hj
  rw [ha] at hb
  cases hb
  omega

theorem QWF.nodup {eq : expirationQueue K V} (h : QWF eq) : eq.items.Nodup := by
  rw [List.nodup_iff_injective_get]
  intro a b hab
  apply Fin.ext
  apply h.inj (p := eq.items.get a)
  · simp [List.getElem?_eq_getElem a.2]
  · rw [hab]; simp [List.getElem?_eq_getElem b.2]

theorem Rearr.refl {eq : expirationQueue K V} (n : Nat) (h : QWF eq) : Rearr n eq eq :=
  ⟨fun _ => Iff.rfl, rfl, fun _ _ => rfl, rfl, fun _ => rfl, fun _ _ => rfl, h⟩

theorem Rearr.trans {n : Nat} {a b c : expirationQueue K V} (h1 : Rearr n a b) (h2 : Rearr n b c) :
    Rearr n a c where
  mem_iff := fun p => (h2.mem_iff p).trans (h1.mem_iff p)
  length := h2.length.trans h1.length
  high := fun i hi => (h2.high i hi).trans (h1.high i hi)
  len := h2.len.trans h1.len
  core := fun p => (h2.core p).trans (h1.core p)
  frame := fun p hp => by
    rw [h2.frame p (fun hm => hp ((h1.mem_iff p).mp hm)), h1.frame p hp]
  wf := h2.wf

theorem getElem?_set_lt {α : Type} (l : List α) (a p : Nat) (x : α) (h : a < l.length) :
    (l.set a x)[p]? = if p = a then some x else l[p]? := by
  rw [List.getElem?_set]
  by_cases hp : p = a
  · subst hp; simp [h]
  · have : ¬ a = p := fun e => hp e.symm
    simp [hp, this]

theorem Swap_spec (eq : expirationQueue K V) (n i j : Nat) (pi pj : Nat) (hwf : QWF eq)
    (hi : eq.items[i]? = some pi) (hj : eq.items[j]? = some pj) (hin : i < n) (hjn : j < n) :
    ∃ eq', eq.Swap i j = .ok eq' ∧ Rearr n eq eq' ∧
      eq'.items = (eq.items.set i pj).set j pi := by
  obtain ⟨iti, hmi, hqi⟩ := hwf i pi hi
  obtain ⟨itj, hmj, hqj⟩ := hwf j pj hj
  have hil : i < eq.items.length := (List.getElem?_eq_some.mp hi).1
  have hjl : j < eq.items.length := (List.getElem?_eq_some.mp hj).1
  have hpl : pi < eq.mem.length := (List.getElem?_eq_some.mp hmi).1
  have hql : pj < eq.mem.length := (List.getElem?_eq_some.mp hmj).1
  have hit : ∀ k : Nat, ((eq.items.set i pj).set j pi)[k]? =
      if k = j then some pi else if k = i then some pj else eq.items[k]? := by
    intro k
    rw [getElem?_set_lt _ _ _ _ (by simpa using hjl), getElem?_set_lt _ _ _ _ hil]
  have e1 : ((eq.items.set i pj).set j pi)[i]? = some pj := by
    rw [hit]
    by_cases hij : i = j
    · subst hij; rw [hi] at hj; cases hj; simp
    · simp [hij]
  have e2 : ((eq.items.set i pj).set j pi)[j]? = some pi := by
    rw [hit]; simp
  obtain ⟨x, hx, hxc⟩ : ∃ x, (eq.mem.set pj { itj with queueIndex := (i : Int) })[pi]? = some x
      ∧ x.core = iti.core := by
    rw [getElem?_set_lt _ _ _ _ hql]
    by_cases h : pi = pj
    · refine ⟨{ itj with queueIndex := (i : Int) }, by simp [h], ?_⟩
      rw [← h, hmi] at hmj; cases hmj; rfl
    · exact ⟨iti, by simp [h, hmi], rfl⟩
  have hmem : ∀ p : Nat, ((eq.mem.set pj { itj with queueIndex := (i : Int) }).set pi
        { x with queueIndex := (j : Int) })[p]? =
      if p = pi then some { x with queueIndex := (j : Int) }
      else if p = pj then some { itj with queueIndex := (i : Int) } else eq.mem[p]? := by
    intro p
    rw [getElem?_set_lt _ _ _ _ (by simpa using hpl), getElem?_set_lt _ _ _ _ hql]
  refine ⟨⟨(eq.mem.set pj { itj with queueIndex := (i : Int) }).set pi
      { x with queueIndex := (j : Int) }, (eq.items.set i pj).set j pi⟩, ?_, ?_, rfl⟩
  · simp only [expirationQueue.Swap, bind, Except.bind, index_ofNat _ _ _ hi, index_ofNat _ _ _ hj,
      Int.toNat_ofNat, index_ofNat _ _ _ e1, index_ofNat _ _ _ e2, setQueueIndex_ok _ _ _ _ hmj,
      setQueueIndex_ok _ _ _ _ hx, pure, Except.pure]
  · constructor
    · intro a
      simp only [List.mem_iff_getElem?]
      constructor
      · rintro ⟨k, hk⟩
        rw [hit] at hk
        by_cases h1 : k = j
        · rw [if_pos h1] at hk; exact ⟨i, hk ▸ hi⟩
        · rw [if_neg h1] at hk
          by_cases h2 : k = i
          · rw [if_pos h2] at hk; exact ⟨j, hk ▸ hj⟩
          · rw [if_neg h2] at hk; exact ⟨k, hk⟩
      · rintro ⟨k, hk⟩
        by_cases h1 : k = i
        · subst h1; rw [hi] at hk; exact ⟨j, hk ▸ e2⟩
        · by_cases h2 : k = j
          · subst h2; rw [hj] at hk; exact ⟨i, hk ▸ e1⟩
          · refine ⟨k, ?_⟩
            rw [hit, if_neg h2, if_neg h1]; exact hk
    · simp
    · intro k hk
      show ((eq.items.set i pj).set j pi)[k]? = _
      rw [hit, if_neg (by omega), if_neg (by omega)]
    · simp
    · intro p
      show Option.map ttlItem.core (((eq.mem.set pj _).set pi _)[p]?) = _
      rw [hmem]
      by_cases h1 : p = pi
      · subst h1; rw [if_pos rfl, hmi]; simp only [Option.map_some']
        exact congrArg some hxc
      · rw [if_neg h1]
        by_cases h2 : p = pj
        · subst h2; rw [if_pos rfl, hmj]; rfl
        · rw [if_neg h2]
    · intro p hp
      show ((eq.mem.set pj _).set pi _)[p]? = _
      rw [hmem]
      have h1 : p ≠ pi := fun h => hp (h ▸ List.getElem?_mem hi)
      have h2 : p ≠ pj := fun h => hp (h ▸ List.getElem?_mem hj)
      rw [if_neg h1, if_neg h2]
    · intro k p hk
      show ∃ it, ((eq.mem.set pj _).set pi _)[p]? = some it ∧ _
      rw [hmem]
      rw [show (expirationQueue.mk _ ((eq.items.set i pj).set j pi) : expirationQueue K V).items
        = (eq.items.set i pj).set j pi from rfl, hit] at hk
      by_cases hkj : k = j
      · rw [if_pos hkj] at hk
        cases hk; subst hkj
        exact ⟨_, if_pos rfl, rfl⟩
      · rw [if_neg hkj] at hk
        by_cases hki : k = i
        · rw [if_pos hki] at hk
          cases hk; subst hki
          have hne : pj ≠ pi := fun h => hkj (hwf.inj (h ▸ hi) hj)
          rw [if_neg hne, if_pos rfl]
          exact ⟨_, rfl, rfl⟩
        · rw [if_neg hki] at hk
          have h1 : p ≠ pi := fun h => hki (hwf.inj hk (h ▸ hi))
          have h2 : p ≠ pj := fun h => hkj (hwf.inj hk (h ▸ hj))
          rw [if_neg h1, if_neg h2]
          exact hwf k p hk

theorem Less_spec (eq : expirationQueue K V) (i j pi pj : Nat) (a b : ttlItem K V)
    (hi : eq.items[i]? = some pi) (hj : eq.items[j]? = some pj)
    (ha : eq.mem[pi]? = some a) (hb : eq.mem[pj]? = some b) :
    eq.Less i j = .ok (decide (a.expireAt < b.expireAt)) := by
  simp only [expirationQueue.Less, bind, Except.bind, index_ofNat _ _ _ hi, index_ofNat _ _ _ hj,
    load, ha, hb, pure, Except.pure]

theorem Less_ok (eq : expirationQueue K V) (hwf : QWF eq) (i j : Nat)
    (hi : i < eq.items.length) (hj : j < eq.items.length) :
    ∃ b, eq.Less i j = .ok b := by
  obtain ⟨a, ha, -⟩ := hwf i _ (List.getElem?_eq_getElem hi)
  obtain ⟨b, hb, -⟩ := hwf j _ (List.getElem?_eq_getElem hj)
  exact ⟨_, Less_spec eq i j _ _ a b (List.getElem?_eq_getElem hi) (List.getElem?_eq_getElem hj) ha hb⟩

theorem Swap_ok (eq : expirationQueue K V) (n i j : Nat) (hwf : QWF eq)
    (hi : i < eq.items.length) (hj : j < eq.items.length) (hin : i < n) (hjn : j < n) :
    ∃ eq', eq.Swap i j = .ok eq' ∧ Rearr n eq eq' := by
  obtain ⟨eq', h1, h2, -⟩ := Swap_spec eq n i j _ _ hwf (List.getElem?_eq_getElem hi)
    (List.getElem?_eq_getElem hj) hin hjn
  exact ⟨eq', h1, h2⟩

theorem parent_ofNat (j : Nat) : ((j : Int) - 1).tdiv 2 = (((j - 1) / 2 : Nat) : Int) := by
  rcases Nat.eq_zero_or_pos j with h | h
  · subst h; decide
  · rw [Int.tdiv_eq_ediv] <;> omega

theorem up_ok (n : Nat) : ∀ (fuel : Nat) (eq : expirationQueue K V) (j : Nat),
    QWF eq → j < eq.items.length → j < n → j < fuel →
    ∃ eq', heap.up fuel eq j = .ok eq' ∧ Rearr n eq eq' := by
  intro fuel
  induction fuel with
  | zero => intro eq j _ _ _ h; omega
  | succ fuel ih =>
    intro eq j hwf hj hjn hf
    unfold heap.up
    simp only [parent_ofNat]
    by_cases h0 : (((j - 1) / 2 : Nat) : Int) = (j : Int)
    · rw [if_pos h0]; exact ⟨eq, rfl, Rearr.refl n hwf⟩
    · rw [if_neg h0]
      have hlt : (j - 1) / 2 < j := by omega
      obtain ⟨b, hb⟩ := Less_ok eq hwf j ((j - 1) / 2) hj (by omega)
      simp only [bind, Except.bind, hb]
      cases b with
      | false => exact ⟨eq, rfl, Rearr.refl n hwf⟩
      | true =>
        obtain ⟨eq1, h1, r1⟩ := Swap_ok eq n ((j - 1) / 2) j hwf (by omega) hj (by omega) hjn
        simp only [h1, Bool.not_true, Bool.false_eq_true, if_false]
        obtain ⟨eq2, h2, r2⟩ := ih eq1 ((j - 1) / 2) r1.wf (by rw [r1.length]; omega)
          (by omega) (by omega)
        exact ⟨eq2, h2, r1.trans r2⟩

theorem down_ok (n : Nat) : ∀ (fuel : Nat) (eq : expirationQueue K V) (i0 : Int) (i : Nat),
    QWF eq → n ≤ eq.items.length → n - i < fuel →
    ∃ eq' b, heap.down fuel eq i0 i n = .ok (eq', b) ∧ Rearr n eq eq' := by
  intro fuel
  induction fuel with
  | zero => intro eq i0 i _ _ h; omega
  | succ fuel ih =>
    intro eq i0 i hwf hn hf
    unfold heap.down
    by_cases h0 : (2 * (i : Int) + 1 ≥ n ∨ 2 * (i : Int) + 1 < 0)
    · simp only [if_pos h0]; exact ⟨eq, _, rfl, Rearr.refl n hwf⟩
    · simp only [if_neg h0]
      have hj1 : 2 * i + 1 < n := by omega
      have key : ∀ j : Nat, i < j → j < n →
          ∃ eq' b, (do
            let lt2 ← eq.Less (j : Int) (i : Int)
            if (!lt2) = true then Except.ok (eq, decide ((i : Int) > i0))
            else do
              let h ← eq.Swap (i : Int) (j : Int)
              heap.down fuel h i0 (j : Int) (n : Int)) = .ok (eq', b) ∧ Rearr n eq eq' := by
        intro j hij hjn
        obtain ⟨b, hb⟩ := Less_ok eq hwf j i (by omega) (by omega)
        simp only [bind, Except.bind, hb]
        cases b with
        | false => exact ⟨eq, _, rfl, Rearr.refl n hwf⟩
        | true =>
          obtain ⟨eq1, h1, r1⟩ := Swap_ok eq n i j hwf (by omega) (by omega) (by omega) hjn
          simp only [h1, Bool.not_true, Bool.false_eq_true, if_false]
          obtain ⟨eq2, b2, h2, r2⟩ := ih eq1 i0 j r1.wf (by rw [r1.length]; omega) (by omega)
          exact ⟨eq2, b2, h2, r1.trans r2⟩
      by_cases h2 : (2 * (i : Int) + 1 + 1 < n)
      · obtain ⟨b, hb⟩ := Less_ok eq hwf (2 * i + 1 + 1) (2 * i + 1) (by omega) (by omega)
        have hb2 : eq.Less (2 * (i : Int) + 1 + 1) (2 * (i : Int) + 1) = .ok b := by
          exact_mod_cast hb
        simp only [if_pos h2, hb2, bind, Except.bind]
        cases b with
        | true => simpa [bind, Except.bind] using key (2 * i + 1 + 1) (by omega) (by omega)
        | false => simpa [bind, Except.bind] using key (2 * i + 1) (by omega) (by omega)
      · simp only [if_neg h2, bind, Except.bind, pure, Except.pure]
        simpa [bind, Except.bind] using key (2 * i + 1) (by omega) (by omega)

theorem Rearr.mono {n m : Nat} {a b : expirationQueue K V} (h : Rearr n a b) (hnm : n ≤ m) :
    Rearr m a b :=
  { h with high := fun i hi => h.high i (by omega) }

theorem Rearr.toFrame {n : Nat} {a b : expirationQueue K V} (h : Rearr n a b) : Frame a b :=
  ⟨h.len, h.core, fun p hp _ => h.frame p hp, h.wf⟩

theorem Frame.rearr {n : Nat} {a b c : expirationQueue K V} (h1 : Frame a b) (h2 : Rearr n b c) :
    Frame a c where
  len := h2.len.trans h1.len
  core := fun p => (h2.core p).trans (h1.core p)
  frame := fun p hp hp2 => by
    have hb : p ∉ b.items := fun hm => hp2 ((h2.mem_iff p).mpr hm)
    rw [h2.frame p hb, h1.frame p hp hb]
  wf := h2.wf

theorem Rearr.frame_trans {n : Nat} {a b c : expirationQueue K V} (h1 : Rearr n a b)
    (h2 : Frame b c) : Frame a c where
  len := h2.len.trans h1.len
  core := fun p => (h2.core p).trans (h1.core p)
  frame := fun p hp hp2 => by
    have hb : p ∉ b.items := fun hm => hp ((h1.mem_iff p).mp hm)
    rw [h2.frame p hb hp2, h1.frame p hp]
  wf := h2.wf

theorem Push_method_spec (eq : expirationQueue K V) (item : Nat) (it : ttlItem K V)
    (hwf : QWF eq) (hit : eq.mem[item]? = some it) (hni : item ∉ eq.items) :
    ∃ eq', eq.Push item = .ok eq' ∧ Frame eq eq' ∧ eq'.items = eq.items ++ [item] := by
  have hpl : item < eq.mem.length := (List.getElem?_eq_some.mp hit).1
  refine ⟨⟨eq.mem.set item { it with queueIndex := (eq.items.length : Int) },
    eq.items ++ [item]⟩, ?_, ?_, rfl⟩
  · simp only [expirationQueue.Push, bind, Except.bind, setQueueIndex_ok _ _ _ _ hit, pure,
      Except.pure]
  · constructor
    · simp
    · intro p
      show Option.map ttlItem.core ((eq.mem.set item _)[p]?) = _
      rw [getElem?_set_lt _ _ _ _ hpl]
      by_cases h : p = item
      · subst h; rw [if_pos rfl, hit]; rfl
      · rw [if_neg h]
    · intro p _ hp
      show (eq.mem.set item _)[p]? = _
      have h : p ≠ item := fun h => hp (by simp [h])
      rw [getElem?_set_lt _ _ _ _ hpl, if_neg h]
    · intro k p hk
      show ∃ x, (eq.mem.set item _)[p]? = some x ∧ _
      rw [getElem?_set_lt _ _ _ _ hpl]
      have hk2 : (eq.items ++ [item])[k]? = some p := hk
      by_cases hlt : k < eq.items.length
      · rw [List.getElem?_append_left hlt] at hk2
        have h : p ≠ item := fun h => hni (h ▸ List.getElem?_mem hk2)
        rw [if_neg h]
        exact hwf k p hk2
      · rw [List.getElem?_append_right (by omega)] at hk2
        have hkk : k = eq.items.length := by
          by_contra hne
          have : k - eq.items.length ≠ 0 := by omega
          obtain ⟨m, hm⟩ := Nat.exists_eq_succ_of_ne_zero this
          rw [hm] at hk2
          simp at hk2
        subst hkk
        simp at hk2
        subst hk2
        exact ⟨_, if_pos rfl, rfl⟩

theorem heap_Push_spec (eq : expirationQueue K V) (item : Nat) (it : ttlItem K V)
    (hwf : QWF eq) (hit : eq.mem[item]? = some it) (hni : item ∉ eq.items) :
    ∃ eq', heap.Push eq item = .ok eq' ∧ Frame eq eq' ∧
      (∀ p : Nat, p ∈ eq'.items ↔ p ∈ eq.items ∨ p = item) ∧
      eq'.items.length = eq.items.length + 1 := by
  obtain ⟨eq1, h1, f1, hi1⟩ := Push_method_spec eq item it hwf hit hni
  have hlen : eq1.items.length = eq.items.length + 1 := by simp [hi1]
  obtain ⟨eq2, h2, r2⟩ := up_ok (eq.items.length + 1) (eq1.items.length + 1) eq1 eq.items.length
    f1.wf (by omega) (by omega) (by omega)
  refine ⟨eq2, ?_, f1.rearr r2, ?_, by rw [r2.length, hlen]⟩
  · simp only [heap.Push, bind, Except.bind, h1, expirationQueue.Len, hlen]
    rw [show (((eq.items.length + 1 : Nat) : Int) - 1) = (eq.items.length : Int) by omega]
    rw [hlen] at h2
    exact h2
  · intro p
    rw [r2.mem_iff, hi1]; simp

theorem Pop_method_spec (eq : expirationQueue K V) (x : Nat) (hwf : QWF eq)
    (hx : eq.items[eq.items.length - 1]? = some x) :
    ∃ eq', eq.Pop = .ok (eq', x) ∧ Frame eq eq' ∧
      (∀ p : Nat, p ∈ eq'.items ↔ p ∈ eq.items ∧ p ≠ x) ∧
      eq'.items.length + 1 = eq.items.length ∧
      (∃ it, eq'.mem[x]? = some it ∧ it.queueIndex = -1) := by
  obtain ⟨it, hit, -⟩ := hwf _ x hx
  have hpl : x < eq.mem.length := (List.getElem?_eq_some.mp hit).1
  have hlen : eq.items.length - 1 < eq.items.length := (List.getElem?_eq_some.mp hx).1
  have hidx : index eq.items ((eq.items.length : Int) - 1) = .ok x := by
    rw [show ((eq.items.length : Int) - 1) = ((eq.items.length - 1 : Nat) : Int) by omega]
    exact index_ofNat _ _ _ hx
  have hmem : ∀ p : Nat, p ∈ List.take (eq.items.length - 1) eq.items ↔ p ∈ eq.items ∧ p ≠ x := by
    intro p
    simp only [List.mem_iff_getElem?, List.getElem?_take]
    constructor
    · rintro ⟨k, hk⟩
      by_cases hlt : k < eq.items.length - 1
      · rw [if_pos hlt] at hk
        refine ⟨⟨k, hk⟩, fun h => ?_⟩
        have := hwf.inj hk (h ▸ hx)
        omega
      · rw [if_neg hlt] at hk; cases hk
    · rintro ⟨⟨k, hk⟩, hne⟩
      have hkl : k < eq.items.length := (List.getElem?_eq_some.mp hk).1
      have : k ≠ eq.items.length - 1 := fun h => hne (by rw [h, hx] at hk; cases hk; rfl)
      exact ⟨k, by rw [if_pos (by omega)]; exact hk⟩
  refine ⟨⟨eq.mem.set x { it with queueIndex := -1 }, eq.items.take (eq.items.length - 1)⟩,
    ?_, ?_, hmem, ?_, ?_⟩
  · simp only [expirationQueue.Pop, bind, Except.bind, hidx, setQueueIndex_ok _ _ _ _ hit, pure,
      Except.pure]
  · constructor
    · simp
    · intro p
      show Option.map ttlItem.core ((eq.mem.set x _)[p]?) = _
      rw [getElem?_set_lt _ _ _ _ hpl]
      by_cases h : p = x
      · subst h; rw [if_pos rfl, hit]; rfl
      · rw [if_neg h]
    · intro p hp _
      show (eq.mem.set x _)[p]? = _
      have h : p ≠ x := fun h => hp (h ▸ List.getElem?_mem hx)
      rw [getElem?_set_lt _ _ _ _ hpl, if_neg h]
    · intro k p hk
      show ∃ y, (eq.mem.set x _)[p]? = some y ∧ _
      have hk2 : (eq.items.take (eq.items.length - 1))[k]? = some p := hk
      have hp := (hmem p).mp (List.getElem?_mem hk2)
      rw [getElem?_set_lt _ _ _ _ hpl, if_neg hp.2]
      rw [List.getElem?_take] at hk2
      by_cases hlt : k < eq.items.length - 1
      · rw [if_pos hlt] at hk2; exact hwf k p hk2
      · rw [if_neg hlt] at hk2; cases hk2
  · simp; omega
  · exact ⟨_, by show (eq.mem.set x _)[x]? = _; rw [getElem?_set_lt _ _ _ _ hpl, if_pos rfl], rfl⟩

theorem heap_Fix_spec (eq : expirationQueue K V) (i : Nat) (hwf : QWF eq)
    (hi : i < eq.items.length) :
    ∃ eq', heap.Fix eq i = .ok eq' ∧ Rearr eq.items.length eq eq' := by
  obtain ⟨eq1, b, h1, r1⟩ := down_ok eq.items.length (eq.items.length + 1) eq i i hwf
    (le_refl _) (by omega)
  simp only [heap.Fix, bind, Except.bind, expirationQueue.Len, h1]
  cases b with
  | true => exact ⟨eq1, rfl, r1⟩
  | false =>
    obtain ⟨eq2, h2, r2⟩ := up_ok eq.items.length (eq.items.length + 1) eq1 i r1.wf
      (by rw [r1.length]; exact hi) hi (by omega)
    exact ⟨eq2, by simpa using h2, r1.trans r2⟩

theorem heap_Remove_spec (eq : expirationQueue K V) (i x : Nat) (hwf : QWF eq)
    (hi : eq.items[i]? = some x) :
    ∃ eq', heap.Remove eq i = .ok (eq', x) ∧ Frame eq eq' ∧
      (∀ p : Nat, p ∈ eq'.items ↔ p ∈ eq.items ∧ p ≠ x) ∧
      eq'.items.length + 1 = eq.items.length ∧
      (∃ it, eq'.mem[x]? = some it ∧ it.queueIndex = -1) := by
  have hil : i < eq.items.length := (List.getElem?_eq_some.mp hi).1
  have hcast : ((eq.items.length : Int) - 1) = ((eq.items.length - 1 : Nat) : Int) := by omega
  have hpop : ∀ eq3 : expirationQueue K V, Rearr eq.items.length eq eq3 →
      eq3.items[eq.items.length - 1]? = some x →
      ∃ eq', eq3.Pop = .ok (eq', x) ∧ Frame eq eq' ∧
        (∀ p : Nat, p ∈ eq'.items ↔ p ∈ eq.items ∧ p ≠ x) ∧
        eq'.items.length + 1 = eq.items.length ∧
        (∃ it, eq'.mem[x]? = some it ∧ it.queueIndex = -1) := by
    intro eq3 r3 hx3
    rw [← r3.length] at hx3
    obtain ⟨eq4, h4, f4, m4, l4, q4⟩ := Pop_method_spec eq3 x r3.wf hx3
    refine ⟨eq4, h4, r3.frame_trans f4, ?_, by rw [l4, r3.length], q4⟩
    intro p
    rw [m4, r3.mem_iff]
  unfold heap.Remove
  simp only [expirationQueue.Len]
  by_cases hn : ((eq.items.length : Int) - 1) ≠ (i : Int)
  · rw [if_pos hn, hcast]
    have hlt : i < eq.items.length - 1 := by omega
    obtain ⟨eq1, h1, r1, e1⟩ := Swap_spec eq eq.items.length i (eq.items.length - 1) x _ hwf hi
      (List.getElem?_eq_getElem (by omega)) hil (by omega)
    have hx1 : eq1.items[eq.items.length - 1]? = some x := by
      rw [e1, getElem?_set_lt _ _ _ _ (by simp; omega), if_pos rfl]
    obtain ⟨eq2, b, h2, r2⟩ := down_ok (eq.items.length - 1) (eq1.items.length + 1) eq1 i i r1.wf
      (by rw [r1.length]; omega) (by rw [r1.length]; omega)
    have hx2 : eq2.items[eq.items.length - 1]? = some x := by
      rw [r2.high _ (le_refl _)]; exact hx1
    simp only [bind, Except.bind, h1, h2]
    cases b with
    | true =>
      simpa [pure, Except.pure] using hpop eq2 (r1.trans (r2.mono (by omega))) hx2
    | false =>
      obtain ⟨eq3, h3, r3⟩ := up_ok (eq.items.length - 1) (eq1.items.length + 1) eq2 i r2.wf
        (by rw [r2.length, r1.length]; exact hil) hlt (by rw [r1.length]; omega)
      have hx3 : eq3.items[eq.items.length - 1]? = some x := by
        rw [r3.high _ (le_refl _)]; exact hx2
      simpa [h3] using hpop eq3 (r1.trans ((r2.trans r3).mono (by omega))) hx3
  · rw [if_neg hn]
    have : i = eq.items.length - 1 := by omega
    simpa [bind, Except.bind, pure, Except.pure] using hpop eq (Rearr.refl _ hwf) (this ▸ hi)

theorem update_spec (eq : expirationQueue K V) (item : Nat) (hwf : QWF eq)
    (hm : item ∈ eq.items) :
    ∃ eq', eq.update item = .ok eq' ∧ Rearr eq.items.length eq eq' := by
  obtain ⟨i, hi⟩ := List.mem_iff_getElem?.mp hm
  obtain ⟨it, hit, hq⟩ := hwf i item hi
  obtain ⟨eq', h1, r1⟩ := heap_Fix_spec eq i hwf (List.getElem?_eq_some.mp hi).1
  exact ⟨eq', by simp only [expirationQueue.update, load, hit, bind, Except.bind, hq, h1], r1⟩

theorem push_spec (eq : expirationQueue K V) (item : Nat) (it : ttlItem K V)
    (hwf : QWF eq) (hit : eq.mem[item]? = some it) (hni : item ∉ eq.items) :
    ∃ eq', eq.push item = .ok eq' ∧ Frame eq eq' ∧
      (∀ p : Nat, p ∈ eq'.items ↔ p ∈ eq.items ∨ p = item) ∧
      eq'.items.length = eq.items.length + 1 :=
  heap_Push_spec eq item it hwf hit hni

theorem remove_spec (eq : expirationQueue K V) (item : Nat) (hwf : QWF eq)
    (hm : item ∈ eq.items) :
    ∃ eq', eq.remove item = .ok eq' ∧ Frame eq eq' ∧
      (∀ p : Nat, p ∈ eq'.items ↔ p ∈ eq.items ∧ p ≠ item) ∧
      eq'.items.length + 1 = eq.items.length ∧
      (∃ it, eq'.mem[item]? = some it ∧ it.queueIndex = -1) := by
  obtain ⟨i, hi⟩ := List.mem_iff_getElem?.mp hm
  obtain ⟨it, hit, hq⟩ := hwf i item hi
  obtain ⟨eq', h1, r⟩ := heap_Remove_spec eq i item hwf hi
  exact ⟨eq', by simp only [expirationQueue.remove, load, hit, bind, Except.bind, hq, h1, pure,
    Except.pure], r⟩


theorem core_eq_iff (a b : ttlItem K V) :
    a.core = b.core ↔ a.key = b.key ∧ a.value = b.value ∧ a.ttl = b.ttl ∧
      a.createAt = b.createAt ∧ a.expireAt = b.expireAt := by
  simp [ttlItem.core, Prod.ext_iff]

theorem core_some {m m2 : Mem K V} {p : Nat} {it : ttlItem K V}
    (h : (m2[p]?).map ttlItem.core = (m[p]?).map ttlItem.core) (hit : m[p]? = some it) :
    ∃ it2, m2[p]? = some it2 ∧ it2.core = it.core := by
  rw [hit] at h
  cases hm : m2[p]? with
  | none => rw [hm] at h; cases h
  | some it2 => rw [hm] at h; exact ⟨it2, rfl, by simpa using h⟩

theorem core_some_of {m2 : Mem K V} {p : Nat} {x : K × V × Duration × Time × Time}
    (h : (m2[p]?).map ttlItem.core = some x) :
    ∃ it2, m2[p]? = some it2 ∧ it2.core = x := by
  cases hm : m2[p]? with
  | none => rw [hm] at h; cases h
  | some it2 => rw [hm] at h; exact ⟨it2, rfl, by simpa using h⟩

theorem QWF_set (eq : expirationQueue K V) (p : Nat) (it it2 : ttlItem K V) (hwf : QWF eq)
    (h : eq.mem[p]? = some it) (hq : it2.queueIndex = it.queueIndex) :
    QWF { eq with mem := eq.mem.set p it2 } := by
  intro i a hi
  have hpl : p < eq.mem.length := (List.getElem?_eq_some.mp h).1
  show ∃ x, (eq.mem.set p it2)[a]? = some x ∧ _
  rw [getElem?_set_lt _ _ _ _ hpl]
  obtain ⟨x, hx, hxi⟩ := hwf i a hi
  by_cases hap : a = p
  · subst hap
    rw [h] at hx; cases hx
    exact ⟨it2, if_pos rfl, hq.trans hxi⟩
  · rw [if_neg hap]; exact ⟨x, hx, hxi⟩

theorem QWF_append (eq : expirationQueue K V) (x : ttlItem K V) (hwf : QWF eq) :
    QWF { eq with mem := eq.mem ++ [x] } := by
  intro i a hi
  obtain ⟨y, hy, hyi⟩ := hwf i a hi
  refine ⟨y, ?_, hyi⟩
  show (eq.mem ++ [x])[a]? = some y
  rw [List.getElem?_append_left (List.getElem?_eq_some.mp hy).1]; exact hy

theorem update_after_write (q : expirationQueue K V) (p : Nat) (it it2 : ttlItem K V)
    (hwf : QWF q) (hp : p ∈ q.items) (hit : q.mem[p]? = some it)
    (hq : it2.queueIndex = it.queueIndex) :
    ∃ q2, ({ q with mem := q.mem.set p it2 } : expirationQueue K V).update p = .ok q2 ∧
      Upd q q2 p it2 := by
  have hpl : p < q.mem.length := (List.getElem?_eq_some.mp hit).1
  obtain ⟨q2, h2, r2⟩ := update_spec { q with mem := q.mem.set p it2 } p
    (QWF_set q p it it2 hwf hit hq) hp
  refine ⟨q2, h2, ⟨r2.mem_iff, r2.length, by rw [r2.len]; simp, ?_, ?_, ?_, r2.wf⟩⟩
  · intro a ha
    rw [r2.core a]
    show Option.map ttlItem.core ((q.mem.set p it2)[a]?) = _
    rw [getElem?_set_lt _ _ _ _ hpl, if_neg ha]
  · rw [r2.core p]
    show Option.map ttlItem.core ((q.mem.set p it2)[p]?) = _
    rw [getElem?_set_lt _ _ _ _ hpl, if_pos rfl]; rfl
  · intro a ha
    rw [r2.frame a ha]
    show (q.mem.set p it2)[a]? = _
    have : a ≠ p := fun h => ha (h ▸ hp)
    rw [getElem?_set_lt _ _ _ _ hpl, if_neg this]

theorem Upd.chain {q q1 q2 : expirationQueue K V} {p : Nat} {it1 it2 : ttlItem K V}
    (h1 : Upd q q1 p it1) (h2 : Upd q1 q2 p it2) : Upd q q2 p it2 where
  mem_iff := fun a => (h2.mem_iff a).trans (h1.mem_iff a)
  length := h2.length.trans h1.length
  len := h2.len.trans h1.len
  other := fun a ha => (h2.other a ha).trans (h1.other a ha)
  self := h2.self
  frame := fun a ha => by
    rw [h2.frame a (fun h => ha ((h1.mem_iff a).mp h)), h1.frame a ha]
  wf := h2.wf

theorem Upd.congr {q q2 : expirationQueue K V} {p : Nat} {it1 it2 : ttlItem K V}
    (h : Upd q q2 p it1) (hc : it1.core = it2.core) : Upd q q2 p it2 :=
  { h with self := hc ▸ h.self }

theorem core_fields {m m2 : Mem K V} {p : Nat} {it : ttlItem K V}
    (h : (m2[p]?).map ttlItem.core = (m[p]?).map ttlItem.core) (hit : m[p]? = some it) :
    ∃ it2, m2[p]? = some it2 ∧ it2.key = it.key ∧ it2.value = it.value ∧
      it2.expireAt = it.expireAt := by
  obtain ⟨it2, h2, hc2⟩ := core_some h hit
  rw [core_eq_iff] at hc2
  exact ⟨it2, h2, hc2.1, hc2.2.1, hc2.2.2.2.2⟩

theorem key_of_core {m m2 : Mem K V} {p : Nat}
    (h : (m2[p]?).map ttlItem.core = (m[p]?).map ttlItem.core) :
    (m2[p]?).map ttlItem.key = (m[p]?).map ttlItem.key := by
  have := congrArg (Option.map (fun x : K × V × Duration × Time × Time => x.1)) h
  simpa [Option.map_map, Function.comp, ttlItem.core] using this

end QueueLemmas

/-! ### The queue: the heap invariant through `container/heap` -/

section HeapOrderLemmas

variable {K V : Type}

theorem addrKey_of_core {m m2 : Mem K V} {p : Nat}
    (h : (m2[p]?).map ttlItem.core = (m[p]?).map ttlItem.core) : addrKey m2 p = addrKey m p := by
  unfold addrKey
  cases h1 : m[p]? with
  | none =>
    rw [h1] at h
    cases h2 : m2[p]? with
    | none => rfl
    | some y => rw [h2] at h; cases h
  | some x =>
    obtain ⟨y, hy, hc⟩ := core_some h h1
    rw [hy]
    rw [core_eq_iff] at hc
    exact hc.2.2.2.2

theorem keyAt_eq {eq : expirationQueue K V} {i p : Nat} (h : eq.items[i]? = some p) :
    eq.keyAt i = addrKey eq.mem p := by
  simp only [expirationQueue.keyAt, h]

theorem Less_key (eq : expirationQueue K V) (hwf : QWF eq) (i j : Nat)
    (hi : i < eq.items.length) (hj : j < eq.items.length) :
    eq.Less i j = .ok (decide (eq.keyAt i < eq.keyAt j)) := by
  obtain ⟨a, ha, -⟩ := hwf i _ (List.getElem?_eq_getElem hi)
  obtain ⟨b, hb, -⟩ := hwf j _ (List.getElem?_eq_getElem hj)
  rw [Less_spec eq i j _ _ a b (List.getElem?_eq_getElem hi) (List.getElem?_eq_getElem hj) ha hb]
  rw [keyAt_eq (List.getElem?_eq_getElem hi), keyAt_eq (List.getElem?_eq_getElem hj)]
  simp only [addrKey, ha, hb]

theorem Rearr.addrKey_same {n : Nat} {a b : expirationQueue K V} (h : Rearr n a b) (p : Nat) :
    addrKey b.mem p = addrKey a.mem p :=
  addrKey_of_core (h.core p)

theorem Frame.addrKey_keep {a b : expirationQueue K V} (h : Frame a b) (p : Nat) :
    addrKey b.mem p = addrKey a.mem p :=
  addrKey_of_core (h.core p)

theorem Rearr.keyAt_high {n : Nat} {a b : expirationQueue K V} (h : Rearr n a b) (k : Nat)
    (hk : n ≤ k) : b.keyAt k = a.keyAt k := by
  unfold expirationQueue.keyAt
  rw [h.high k hk]
  cases a.items[k]? with
  | none => rfl
  | some p => exact h.addrKey_same p

theorem Swap_key (eq : expirationQueue K V) (n i j : Nat) (hwf : QWF eq)
    (hi : i < eq.items.length) (hj : j < eq.items.length) (hin : i < n) (hjn : j < n) :
    ∃ eq', eq.Swap i j = .ok eq' ∧ Rearr n eq eq' ∧
      ∀ k : Nat, eq'.keyAt k = eq.keyAt (if k = i then j else if k = j then i else k) := by
  obtain ⟨eq', h1, r1, e1⟩ := Swap_spec eq n i j _ _ hwf (List.getElem?_eq_getElem hi)
    (List.getElem?_eq_getElem hj) hin hjn
  refine ⟨eq', h1, r1, ?_⟩
  intro k
  have hit : eq'.items[k]? =
      if k = j then some eq.items[i] else if k = i then some eq.items[j] else eq.items[k]? := by
    rw [e1, getElem?_set_lt _ _ _ _ (by simpa using hj), getElem?_set_lt _ _ _ _ hi]
  by_cases hki : k = i
  · subst hki
    rw [if_pos rfl]
    by_cases hkj : k = j
    · subst hkj
      rw [if_pos rfl] at hit
      rw [keyAt_eq hit, keyAt_eq (List.getElem?_eq_getElem hi), r1.addrKey_same]
    · rw [if_neg hkj, if_pos rfl] at hit
      rw [keyAt_eq hit, keyAt_eq (List.getElem?_eq_getElem hj), r1.addrKey_same]
  · rw [if_neg hki]
    by_cases hkj : k = j
    · subst hkj
      rw [if_pos rfl] at hit
      rw [if_pos rfl, keyAt_eq hit, keyAt_eq (List.getElem?_eq_getElem hi), r1.addrKey_same]
    · rw [if_neg hkj, if_neg hki] at hit
      rw [if_neg hkj]
      unfold expirationQueue.keyAt
      rw [hit]
      cases eq.items[k]? with
      | none => rfl
      | some p => exact r1.addrKey_same p

theorem up_ord (n : Nat) : ∀ (fuel : Nat) (eq : expirationQueue K V) (j : Nat),
    QWF eq → n ≤ eq.items.length → j < n → j < fuel → UpInv n j eq →
    ∃ eq', heap.up fuel eq j = .ok eq' ∧ Rearr n eq eq' ∧ HeapOrd n eq' := by
  intro fuel
  induction fuel with
  | zero => intro eq j _ _ _ h; omega
  | succ fuel ih =>
    intro eq j hwf hn hjn hf hinv
    obtain ⟨h1, h2⟩ := hinv
    unfold heap.up
    simp only [parent_ofNat]
    by_cases h0 : (((j - 1) / 2 : Nat) : Int) = (j : Int)
    · rw [if_pos h0]
      refine ⟨eq, rfl, Rearr.refl n hwf, ?_⟩
      intro c hc hcn
      exact h1 c hc hcn (by omega)
    · rw [if_neg h0]
      have hlt : (j - 1) / 2 < j := by omega
      have hb := Less_key eq hwf j ((j - 1) / 2) (by omega) (by omega)
      simp only [bind, Except.bind, hb]
      by_cases hless : eq.keyAt j < eq.keyAt ((j - 1) / 2)
      · simp only [hless, decide_True, Bool.not_true, Bool.false_eq_true, if_false]
        obtain ⟨eq1, hs, r1, hkey⟩ := Swap_key eq n ((j - 1) / 2) j hwf (by omega) (by omega)
          (by omega) hjn
        simp only [hs]
        have hkp : eq1.keyAt ((j - 1) / 2) = eq.keyAt j := by
          rw [hkey, if_pos rfl]
        have hkj : eq1.keyAt j = eq.keyAt ((j - 1) / 2) := by
          rw [hkey, if_neg (by omega), if_pos rfl]
        have hko : ∀ k : Nat, k ≠ (j - 1) / 2 → k ≠ j → eq1.keyAt k = eq.keyAt k := by
          intro k hk1 hk2
          rw [hkey, if_neg hk1, if_neg hk2]
        have hinv1 : UpInv n ((j - 1) / 2) eq1 := by
          constructor
          · intro c hc hcn hcp
            by_cases hcj : c = j
            · subst hcj
              rw [hkp, hkj]; exact le_of_lt hless
            · rw [hko c hcp hcj]
              by_cases hpc : (c - 1) / 2 = (j - 1) / 2
              · rw [hpc, hkp]
                have := h1 c hc hcn hcj
                rw [hpc] at this
                exact le_trans (le_of_lt hless) this
              · by_cases hpj : (c - 1) / 2 = j
                · rw [hpj, hkj]
                  exact h2 c hc hcn hpj (by omega)
                · rw [hko _ hpc hpj]
                  exact h1 c hc hcn hcj
          · intro c hc hcn hpc hp0
            have hpp : eq1.keyAt (((j - 1) / 2 - 1) / 2) = eq.keyAt (((j - 1) / 2 - 1) / 2) :=
              hko _ (by omega) (by omega)
            have hgp : eq.keyAt (((j - 1) / 2 - 1) / 2) ≤ eq.keyAt ((j - 1) / 2) :=
              h1 ((j - 1) / 2) hp0 (by omega) (by omega)
            rw [hpp]
            by_cases hcj : c = j
            · subst hcj
              rw [hkj]; exact hgp
            · rw [hko c (by omega) hcj]
              have := h1 c hc hcn hcj
              rw [hpc] at this
              exact le_trans hgp this
        obtain ⟨eq2, hu, r2, ho⟩ := ih eq1 ((j - 1) / 2) r1.wf (by rw [r1.length]; exact hn)
          (by omega) (by omega) hinv1
        exact ⟨eq2, hu, r1.trans r2, ho⟩
      · simp only [hless, decide_False, Bool.not_false, if_true]
        refine ⟨eq, rfl, Rearr.refl n hwf, ?_⟩
        intro c hc hcn
        by_cases hcj : c = j
        · subst hcj; exact not_lt.mp hless
        · exact h1 c hc hcn hcj

theorem down_ord (n : Nat) : ∀ (fuel : Nat) (eq : expirationQueue K V) (i0 i : Nat),
    QWF eq → n ≤ eq.items.length → n - i < fuel → i0 ≤ i → DownInv n i0 i eq →
    ∃ eq' b, heap.down fuel eq i0 i n = .ok (eq', b) ∧ Rearr n eq eq' ∧
      (∀ c : Nat, 0 < c → c < n → c ≠ i0 → eq'.keyAt ((c - 1) / 2) ≤ eq'.keyAt c) ∧
      (∀ k : Nat, k < i → eq'.keyAt k = eq.keyAt k) ∧
      (i0 < i → b = true) ∧ (b = false → eq' = eq) ∧
      (b = true → i = i0 → 0 < i0 → eq'.keyAt ((i0 - 1) / 2) ≤ eq'.keyAt i0) := by
  intro fuel
  induction fuel with
  | zero => intro eq i0 i _ _ h; omega
  | succ fuel ih =>
    intro eq i0 i hwf hn hf hi0 hinv
    obtain ⟨h1, h2⟩ := hinv
    unfold heap.down
    by_cases h0 : (2 * (i : Int) + 1 ≥ n ∨ 2 * (i : Int) + 1 < 0)
    · simp only [if_pos h0]
      refine ⟨eq, _, rfl, Rearr.refl n hwf, ?_, fun _ _ => rfl, ?_, fun _ => rfl, ?_⟩
      · intro c hc hcn hci
        exact h1 c hc hcn (by omega) hci
      · intro h; simp; omega
      · intro hb hii; simp at hb; omega
    · simp only [if_neg h0]
      have hj1 : 2 * i + 1 < n := by omega
      have key : ∀ j : Nat, i < j → j < n → (j - 1) / 2 = i →
          (∀ c : Nat, 0 < c → c < n → (c - 1) / 2 = i → eq.keyAt j ≤ eq.keyAt c) →
          ∃ eq' b, (do
            let lt2 ← eq.Less (j : Int) (i : Int)
            if (!lt2) = true then Except.ok (eq, decide ((i : Int) > (i0 : Int)))
            else do
              let h ← eq.Swap (i : Int) (j : Int)
              heap.down fuel h (i0 : Int) (j : Int) (n : Int)) = .ok (eq', b) ∧ Rearr n eq eq' ∧
            (∀ c : Nat, 0 < c → c < n → c ≠ i0 → eq'.keyAt ((c - 1) / 2) ≤ eq'.keyAt c) ∧
            (∀ k : Nat, k < i → eq'.keyAt k = eq.keyAt k) ∧
            (i0 < i → b = true) ∧ (b = false → eq' = eq) ∧
            (b = true → i = i0 → 0 < i0 → eq'.keyAt ((i0 - 1) / 2) ≤ eq'.keyAt i0) := by
        intro j hij hjn hpj hmin
        have hb := Less_key eq hwf j i (by omega) (by omega)
        simp only [bind, Except.bind, hb]
        by_cases hless : eq.keyAt j < eq.keyAt i
        · simp only [hless, decide_True, Bool.not_true, Bool.false_eq_true, if_false]
          obtain ⟨eq1, hs, r1, hkey⟩ := Swap_key eq n i j hwf (by omega) (by omega) (by omega) hjn
          simp only [hs]
          have hki : eq1.keyAt i = eq.keyAt j := by rw [hkey, if_pos rfl]
          have hkj : eq1.keyAt j = eq.keyAt i := by rw [hkey, if_neg (by omega), if_pos rfl]
          have hko : ∀ k : Nat, k ≠ i → k ≠ j → eq1.keyAt k = eq.keyAt k := by
            intro k hk1 hk2
            rw [hkey, if_neg hk1, if_neg hk2]
          have hinv1 : DownInv n i0 j eq1 := by
            constructor
            · intro c hc hcn hpc hci0
              by_cases hcj : c = j
              · subst hcj
                rw [hpj, hki, hkj]; exact le_of_lt hless
              · by_cases hci : c = i
                · subst hci
                  rw [hki, hko _ (by omega) (by omega)]
                  exact h2 j (by omega) hjn hpj (by omega)
                · rw [hko c hci hcj]
                  by_cases hpi : (c - 1) / 2 = i
                  · rw [hpi, hki]; exact hmin c hc hcn hpi
                  · rw [hko _ hpi hpc]
                    exact h1 c hc hcn hpi hci0
            · intro c hc hcn hpc _
              rw [hpj, hki, hko c (by omega) (by omega)]
              have := h1 c hc hcn (by omega) (by omega)
              rw [hpc] at this
              exact this
          obtain ⟨eq2, b2, hd, r2, hA, hB, hC, hD, hE⟩ := ih eq1 i0 j r1.wf
            (by rw [r1.length]; exact hn) (by omega) (by omega) hinv1
          refine ⟨eq2, b2, hd, r1.trans r2, hA, ?_, fun _ => hC (by omega), ?_, ?_⟩
          · intro k hk
            rw [hB k (by omega), hko k (by omega) (by omega)]
          · intro hb2
            have := hC (by omega)
            rw [this] at hb2; cases hb2
          · intro _ hii hi00
            subst hii
            rw [hB _ (by omega), hB i (by omega), hko _ (by omega) (by omega), hki]
            exact h2 j (by omega) hjn hpj hi00
        · simp only [hless, decide_False, Bool.not_false, if_true]
          refine ⟨eq, _, rfl, Rearr.refl n hwf, ?_, fun _ _ => rfl, ?_, fun _ => rfl, ?_⟩
          · intro c hc hcn hci
            by_cases hpi : (c - 1) / 2 = i
            · rw [hpi]
              exact le_trans (not_lt.mp hless) (hmin c hc hcn hpi)
            · exact h1 c hc hcn hpi hci
          · intro h; simp; omega
          · intro hb hii; simp at hb; omega
      by_cases h2' : (2 * (i : Int) + 1 + 1 < n)
      · have hb := Less_key eq hwf (2 * i + 1 + 1) (2 * i + 1) (by omega) (by omega)
        have hb2 : eq.Less (2 * (i : Int) + 1 + 1) (2 * (i : Int) + 1) =
            .ok (decide (eq.keyAt (2 * i + 1 + 1) < eq.keyAt (2 * i + 1))) := by
          exact_mod_cast hb
        simp only [if_pos h2', hb2, bind, Except.bind]
        by_cases hlt : eq.keyAt (2 * i + 1 + 1) < eq.keyAt (2 * i + 1)
        · have := key (2 * i + 1 + 1) (by omega) (by omega) (by omega) (by
            intro c hc hcn hpc
            have : c = 2 * i + 1 ∨ c = 2 * i + 1 + 1 := by omega
            rcases this with rfl | rfl
            · exact le_of_lt hlt
            · exact le_refl _)
          simpa [hlt, bind, Except.bind] using this
        · have := key (2 * i + 1) (by omega) (by omega) (by omega) (by
            intro c hc hcn hpc
            have : c = 2 * i + 1 ∨ c = 2 * i + 1 + 1 := by omega
            rcases this with rfl | rfl
            · exact le_refl _
            · exact not_lt.mp hlt)
          simpa [hlt, bind, Except.bind] using this
      · simp only [if_neg h2', bind, Except.bind, pure, Except.pure]
        have := key (2 * i + 1) (by omega) (by omega) (by omega) (by
            intro c hc hcn hpc
            have : c = 2 * i + 1 := by omega
            subst this
            exact le_refl _)
        simpa [bind, Except.bind] using this

theorem HeapOrd.shorter {n m : Nat} {eq : expirationQueue K V} (h : HeapOrd n eq) (hm : m ≤ n) :
    HeapOrd m eq :=
  fun c hc hcm => h c hc (by omega)

theorem HeapOrd_of_keys {n : Nat} {eq eq2 : expirationQueue K V}
    (hk : ∀ k : Nat, k < n → eq2.keyAt k = eq.keyAt k) (h : HeapOrd n eq) : HeapOrd n eq2 := by
  intro c hc hcn
  rw [hk c hcn, hk _ (by omega)]
  exact h c hc hcn

theorem keyAt_of_items {eq eq2 : expirationQueue K V} {k : Nat}
    (hi : eq2.items[k]? = eq.items[k]?) (hm : ∀ p : Nat, addrKey eq2.mem p = addrKey eq.mem p) :
    eq2.keyAt k = eq.keyAt k := by
  unfold expirationQueue.keyAt
  rw [hi]
  cases eq.items[k]? with
  | none => rfl
  | some p => exact hm p

theorem heap_Fix_ord (eq : expirationQueue K V) (i : Nat) (hwf : QWF eq)
    (hi : i < eq.items.length) (hinv : DownInv eq.items.length i i eq) :
    ∃ eq', heap.Fix eq i = .ok eq' ∧ Rearr eq.items.length eq eq' ∧
      HeapOrd eq.items.length eq' := by
  obtain ⟨eq1, b, h1, r1, hA, -, -, hD, hE⟩ := down_ord eq.items.length (eq.items.length + 1) eq i i
    hwf (le_refl _) (by omega) (le_refl _) hinv
  simp only [heap.Fix, bind, Except.bind, expirationQueue.Len, h1]
  cases b with
  | true =>
    refine ⟨eq1, rfl, r1, ?_⟩
    intro c hc hcn
    by_cases hci : c = i
    · subst hci; exact hE rfl rfl hc
    · exact hA c hc hcn hci
  | false =>
    have he := hD rfl
    subst he
    obtain ⟨eq2, h2, r2, ho⟩ := up_ord eq1.items.length (eq1.items.length + 1) eq1 i hwf
      (le_refl _) hi (by omega) ⟨hA, hinv.2⟩
    exact ⟨eq2, by simpa using h2, r2, ho⟩

theorem Pop_items {eq eq2 : expirationQueue K V} {x : Nat} (h : eq.Pop = .ok (eq2, x)) :
    eq2.items = eq.items.take (eq.items.length - 1) := by
  unfold expirationQueue.Pop at h
  simp only [bind, Except.bind] at h
  split at h
  · cases h
  · split at h
    · cases h
    · simp only [pure, Except.pure] at h
      cases h; rfl

theorem Pop_keys {eq eq2 : expirationQueue K V} {x : Nat} (h : eq.Pop = .ok (eq2, x))
    (hf : Frame eq eq2) (k : Nat) (hk : k < eq.items.length - 1) :
    eq2.keyAt k = eq.keyAt k := by
  apply keyAt_of_items _ hf.addrKey_keep
  rw [Pop_items h, List.getElem?_take, if_pos hk]

theorem heap_Push_ord (eq : expirationQueue K V) (item : Nat) (it : ttlItem K V)
    (hwf : QWF eq) (ho : HeapOrd eq.items.length eq) (hit : eq.mem[item]? = some it)
    (hni : item ∉ eq.items) :
    ∃ eq', heap.Push eq item = .ok eq' ∧ Frame eq eq' ∧
      (∀ p : Nat, p ∈ eq'.items ↔ p ∈ eq.items ∨ p = item) ∧
      eq'.items.length = eq.items.length + 1 ∧ HeapOrd eq'.items.length eq' := by
  obtain ⟨eq1, h1, f1, hi1⟩ := Push_method_spec eq item it hwf hit hni
  have hlen : eq1.items.length = eq.items.length + 1 := by simp [hi1]
  have hkeys : ∀ k : Nat, k < eq.items.length → eq1.keyAt k = eq.keyAt k := by
    intro k hk
    apply keyAt_of_items _ f1.addrKey_keep
    rw [hi1, List.getElem?_append_left hk]
  have hinv : UpInv (eq.items.length + 1) eq.items.length eq1 := by
    constructor
    · intro c hc hcn hne
      rw [hkeys c (by omega), hkeys _ (by omega)]
      exact ho c hc (by omega)
    · intro c hc hcn hpc _
      omega
  obtain ⟨eq2, h2, r2, ho2⟩ := up_ord (eq.items.length + 1) (eq1.items.length + 1) eq1
    eq.items.length f1.wf (by omega) (by omega) (by omega) hinv
  refine ⟨eq2, ?_, f1.rearr r2, ?_, by rw [r2.length, hlen], by rw [r2.length, hlen]; exact ho2⟩
  · simp only [heap.Push, bind, Except.bind, h1, expirationQueue.Len, hlen]
    rw [show (((eq.items.length + 1 : Nat) : Int) - 1) = (eq.items.length : Int) by omega]
    rw [hlen] at h2
    exact h2
  · intro p
    rw [r2.mem_iff, hi1]; simp

/-- The steps of `heap.Remove` and `heap.Pop` before `h.Pop()`: what they leave
when the heap invariant held. -/
theorem pop_tail_ord (eq eq3 : expirationQueue K V) (x : Nat)
    (r3 : Rearr eq.items.length eq eq3) (hx3 : eq3.items[eq.items.length - 1]? = some x)
    (ho3 : HeapOrd (eq.items.length - 1) eq3) :
    ∃ eq', eq3.Pop = .ok (eq', x) ∧ Frame eq eq' ∧
      (∀ p : Nat, p ∈ eq'.items ↔ p ∈ eq.items ∧ p ≠ x) ∧
      eq'.items.length + 1 = eq.items.length ∧
      (∃ it, eq'.mem[x]? = some it ∧ it.queueIndex = -1) ∧
      HeapOrd eq'.items.length eq' := by
  rw [← r3.length] at hx3
  obtain ⟨eq4, h4, f4, m4, l4, q4⟩ := Pop_method_spec eq3 x r3.wf hx3
  have hl : eq4.items.length = eq.items.length - 1 := by rw [← r3.length]; omega
  refine ⟨eq4, h4, r3.frame_trans f4, ?_, by rw [l4, r3.length], q4, ?_⟩
  · intro p
    rw [m4, r3.mem_iff]
  · rw [hl]
    exact HeapOrd_of_keys (fun k hk => Pop_keys h4 f4 k (by rw [r3.length]; exact hk)) ho3

theorem heap_Remove_ord (eq : expirationQueue K V) (i x : Nat) (hwf : QWF eq)
    (ho : HeapOrd eq.items.length eq) (hi : eq.items[i]? = some x) :
    ∃ eq', heap.Remove eq i = .ok (eq', x) ∧ Frame eq eq' ∧
      (∀ p : Nat, p ∈ eq'.items ↔ p ∈ eq.items ∧ p ≠ x) ∧
      eq'.items.length + 1 = eq.items.length ∧
      (∃ it, eq'.mem[x]? = some it ∧ it.queueIndex = -1) ∧
      HeapOrd eq'.items.length eq' := by
  have hil : i < eq.items.length := (List.getElem?_eq_some.mp hi).1
  have hcast : ((eq.items.length : Int) - 1) = ((eq.items.length - 1 : Nat) : Int) := by omega
  unfold heap.Remove
  simp only [expirationQueue.Len]
  by_cases hn : ((eq.items.length : Int) - 1) ≠ (i : Int)
  · rw [if_pos hn, hcast]
    have hlt : i < eq.items.length - 1 := by omega
    obtain ⟨eq1, h1, r1, e1⟩ := Swap_spec eq eq.items.length i (eq.items.length - 1) x _ hwf hi
      (List.getElem?_eq_getElem (by omega)) hil (by omega)
    obtain ⟨eq1', h1', -, hkey⟩ := Swap_key eq eq.items.length i (eq.items.length - 1) hwf hil
      (by omega) hil (by omega)
    rw [h1] at h1'; cases h1'
    have hx1 : eq1.items[eq.items.length - 1]? = some x := by
      rw [e1, getElem?_set_lt _ _ _ _ (by simp; omega), if_pos rfl]
    have hko : ∀ k : Nat, k ≠ i → k < eq.items.length - 1 → eq1.keyAt k = eq.keyAt k := by
      intro k hk1 hk2
      rw [hkey, if_neg hk1, if_neg (by omega)]
    have hinv : DownInv (eq.items.length - 1) i i eq1 := by
      constructor
      · intro c hc hcn hpc hci
        rw [hko c hci hcn, hko _ hpc (by omega)]
        exact ho c hc (by omega)
      · intro c hc hcn hpc hi0
        rw [hko c (by omega) hcn, hko _ (by omega) (by omega)]
        have a1 := ho i hi0 hil
        have a2 := ho c hc (by omega)
        rw [hpc] at a2
        exact le_trans a1 a2
    obtain ⟨eq2, b, h2, r2, hA, -, -, hD, hE⟩ := down_ord (eq.items.length - 1)
      (eq1.items.length + 1) eq1 i i r1.wf (by rw [r1.length]; omega) (by rw [r1.length]; omega)
      (le_refl _) hinv
    have hx2 : eq2.items[eq.items.length - 1]? = some x := by
      rw [r2.high _ (le_refl _)]; exact hx1
    cases b with
    | true =>
      simp only [bind, Except.bind, h1, h2]
      have ho2 : HeapOrd (eq.items.length - 1) eq2 := by
        intro c hc hcn
        by_cases hci : c = i
        · subst hci; exact hE rfl rfl hc
        · exact hA c hc hcn hci
      simpa [pure, Except.pure] using
        pop_tail_ord eq eq2 x (r1.trans (r2.mono (by omega))) hx2 ho2
    | false =>
      have he := hD rfl
      rw [he] at h2 hA
      simp only [bind, Except.bind, h1, h2]
      obtain ⟨eq3, h3, r3, ho3⟩ := up_ord (eq.items.length - 1) (eq1.items.length + 1) eq1 i r1.wf
        (by rw [r1.length]; omega) hlt (by rw [r1.length]; omega) ⟨hA, hinv.2⟩
      have hx3 : eq3.items[eq.items.length - 1]? = some x := by
        rw [r3.high _ (le_refl _)]; exact hx1
      simpa [h3] using pop_tail_ord eq eq3 x (r1.trans (r3.mono (by omega))) hx3 ho3
  · rw [if_neg hn]
    have : i = eq.items.length - 1 := by omega
    simpa [bind, Except.bind, pure, Except.pure] using
      pop_tail_ord eq eq x (Rearr.refl _ hwf) (this ▸ hi) (ho.shorter (by omega))

theorem heap_Pop_ord (eq : expirationQueue K V) (x : Nat) (hwf : QWF eq)
    (ho : HeapOrd eq.items.length eq) (hx : eq.items[0]? = some x) :
    ∃ eq', heap.Pop eq = .ok (eq', x) ∧ Frame eq eq' ∧
      (∀ p : Nat, p ∈ eq'.items ↔ p ∈ eq.items ∧ p ≠ x) ∧
      eq'.items.length + 1 = eq.items.length ∧
      (∃ it, eq'.mem[x]? = some it ∧ it.queueIndex = -1) ∧
      HeapOrd eq'.items.length eq' := by
  have hil : 0 < eq.items.length := (List.getElem?_eq_some.mp hx).1
  have hcast : ((eq.items.length : Int) - 1) = ((eq.items.length - 1 : Nat) : Int) := by omega
  unfold heap.Pop
  simp only [expirationQueue.Len]
  rw [hcast]
  obtain ⟨eq1, h1, r1, e1⟩ := Swap_spec eq eq.items.length 0 (eq.items.length - 1) x _ hwf hx
    (List.getElem?_eq_getElem (by omega)) hil (by omega)
  obtain ⟨eq1', h1', -, hkey⟩ := Swap_key eq eq.items.length 0 (eq.items.length - 1) hwf hil
    (by omega) hil (by omega)
  rw [h1] at h1'; cases h1'
  have hx1 : eq1.items[eq.items.length - 1]? = some x := by
    rw [e1, getElem?_set_lt _ _ _ _ (by simp; omega), if_pos rfl]
  have hko : ∀ k : Nat, k ≠ 0 → k < eq.items.length - 1 → eq1.keyAt k = eq.keyAt k := by
    intro k hk1 hk2
    rw [hkey, if_neg hk1, if_neg (by omega)]
  have hinv : DownInv (eq.items.length - 1) 0 0 eq1 := by
    constructor
    · intro c hc hcn hpc hci
      rw [hko c hci hcn, hko _ hpc (by omega)]
      exact ho c hc (by omega)
    · intro c hc hcn hpc hi0
      omega
  obtain ⟨eq2, b, h2, r2, hA, -, -, -, -⟩ := down_ord (eq.items.length - 1)
    (eq1.items.length + 1) eq1 0 0 r1.wf (by rw [r1.length]; omega) (by rw [r1.length]; omega)
    (le_refl _) hinv
  have hx2 : eq2.items[eq.items.length - 1]? = some x := by
    rw [r2.high _ (le_refl _)]; exact hx1
  have ho2 : HeapOrd (eq.items.length - 1) eq2 := fun c hc hcn => hA c hc hcn (by omega)
  have h1c : eq.Swap 0 ((eq.items.length - 1 : Nat) : Int) = .ok eq1 := by exact_mod_cast h1
  have h2c : heap.down (eq1.items.length + 1) eq1 0 0 ((eq.items.length - 1 : Nat) : Int) =
      .ok (eq2, b) := by exact_mod_cast h2
  simp only [bind, Except.bind, h1c, h2c]
  exact pop_tail_ord eq eq2 x (r1.trans (r2.mono (by omega))) hx2 ho2

theorem HeapOrd.root_le {n : Nat} {eq : expirationQueue K V} (h : HeapOrd n eq) :
    ∀ i : Nat, i < n → eq.keyAt 0 ≤ eq.keyAt i := by
  intro i
  induction i using Nat.strong_induction_on with
  | _ i ih =>
    intro hi
    rcases Nat.eq_zero_or_pos i with rfl | hpos
    · exact le_refl _
    · exact le_trans (ih ((i - 1) / 2) (by omega) (by omega)) (h i hpos hi)

theorem update_after_write_ord (q : expirationQueue K V) (p : Nat) (it it2 : ttlItem K V)
    (hwf : QWF q) (ho : HeapOrd q.items.length q) (hp : p ∈ q.items)
    (hit : q.mem[p]? = some it) (hq : it2.queueIndex = it.queueIndex) :
    ∃ q2, ({ q with mem := q.mem.set p it2 } : expirationQueue K V).update p = .ok q2 ∧
      HeapOrd q2.items.length q2 := by
  have hpl : p < q.mem.length := (List.getElem?_eq_some.mp hit).1
  obtain ⟨i, hi⟩ := List.mem_iff_getElem?.mp hp
  have hil : i < q.items.length := (List.getElem?_eq_some.mp hi).1
  obtain ⟨x, hx, hxi⟩ := hwf i p hi
  rw [hit] at hx; cases hx
  have hwf2 := QWF_set q p it it2 hwf hit hq
  have hkeys : ∀ k : Nat, k ≠ i →
      ({ q with mem := q.mem.set p it2 } : expirationQueue K V).keyAt k = q.keyAt k := by
    intro k hk
    unfold expirationQueue.keyAt
    show (match q.items[k]? with
      | none => 0
      | some a => addrKey (q.mem.set p it2) a) = _
    cases hkk : q.items[k]? with
    | none => rfl
    | some a =>
      have hap : a ≠ p := fun h => hk (hwf.inj (h ▸ hkk) hi)
      simp only [addrKey, getElem?_set_lt _ _ _ _ hpl, if_neg hap]
  have hinv : DownInv q.items.length i i
      ({ q with mem := q.mem.set p it2 } : expirationQueue K V) := by
    constructor
    · intro c hc hcn hpc hci
      rw [hkeys c hci, hkeys _ hpc]
      exact ho c hc hcn
    · intro c hc hcn hpc hi0
      rw [hkeys c (by omega), hkeys _ (by omega)]
      have a1 := ho i hi0 hil
      have a2 := ho c hc hcn
      rw [hpc] at a2
      exact le_trans a1 a2
  obtain ⟨q2, h2, r2, ho2⟩ := heap_Fix_ord ({ q with mem := q.mem.set p it2 }) i hwf2 hil hinv
  refine ⟨q2, ?_, by rw [r2.length]; exact ho2⟩
  have hload : (q.mem.set p it2)[p]? = some it2 := by
    rw [getElem?_set_lt _ _ _ _ hpl, if_pos rfl]
  simp only [expirationQueue.update, load, hload, bind, Except.bind, hq, hxi]
  exact h2

theorem push_ord (eq : expirationQueue K V) (item : Nat) (it : ttlItem K V)
    (hwf : QWF eq) (ho : HeapOrd eq.items.length eq) (hit : eq.mem[item]? = some it)
    (hni : item ∉ eq.items) :
    ∃ eq', eq.push item = .ok eq' ∧ Frame eq eq' ∧
      (∀ p : Nat, p ∈ eq'.items ↔ p ∈ eq.items ∨ p = item) ∧
      eq'.items.length = eq.items.length + 1 ∧ HeapOrd eq'.items.length eq' :=
  heap_Push_ord eq item it hwf ho hit hni

theorem remove_ord (eq : expirationQueue K V) (item : Nat) (hwf : QWF eq)
    (ho : HeapOrd eq.items.length eq) (hm : item ∈ eq.items) :
    ∃ eq', eq.remove item = .ok eq' ∧ Frame eq eq' ∧
      (∀ p : Nat, p ∈ eq'.items ↔ p ∈ eq.items ∧ p ≠ item) ∧
      eq'.items.length + 1 = eq.items.length ∧
      (∃ it, eq'.mem[item]? = some it ∧ it.queueIndex = -1) ∧
      HeapOrd eq'.items.length eq' := by
  obtain ⟨i, hi⟩ := List.mem_iff_getElem?.mp hm
  obtain ⟨it, hit, hq⟩ := hwf i item hi
  obtain ⟨eq', h1, r⟩ := heap_Remove_ord eq i item hwf ho hi
  exact ⟨eq', by simp only [expirationQueue.remove, load, hit, bind, Except.bind, hq, h1, pure,
    Except.pure], r⟩

theorem pop_empty (eq : expirationQueue K V) (h : eq.items = []) : eq.pop = .ok (eq, none) := by
  simp [expirationQueue.pop, expirationQueue.Len, h]

theorem pop_ord (eq : expirationQueue K V) (x : Nat) (hwf : QWF eq)
    (ho : HeapOrd eq.items.length eq) (hx : eq.items[0]? = some x) :
    ∃ eq', eq.pop = .ok (eq', some x) ∧ Frame eq eq' ∧
      (∀ p : Nat, p ∈ eq'.items ↔ p ∈ eq.items ∧ p ≠ x) ∧
      eq'.items.length + 1 = eq.items.length ∧
      (∃ it, eq'.mem[x]? = some it ∧ it.queueIndex = -1) ∧
      HeapOrd eq'.items.length eq' := by
  have hil : 0 < eq.items.length := (List.getElem?_eq_some.mp hx).1
  obtain ⟨eq', h1, r⟩ := heap_Pop_ord eq x hwf ho hx
  refine ⟨eq', ?_, r⟩
  have : ¬ ((eq.items.length : Int) = 0) := by omega
  simp only [expirationQueue.pop, expirationQueue.Len, if_neg this, bind, Except.bind, h1, pure,
    Except.pure]

/-- The root of a heap expires first. -/
theorem root_minimal (eq : expirationQueue K V) (r : Nat) (ho : HeapOrd eq.items.length eq)
    (hr : eq.items[0]? = some r) (p : Nat) (hp : p ∈ eq.items) :
    addrKey eq.mem r ≤ addrKey eq.mem p := by
  obtain ⟨i, hi⟩ := List.mem_iff_getElem?.mp hp
  have := ho.root_le i (List.getElem?_eq_some.mp hi).1
  rw [keyAt_eq hr, keyAt_eq hi] at this
  exact this

end HeapOrderLemmas

/-! ### The queue: the invariants hold in every queue built by its operations -/

section QueueRunLemmas
variable {K V : Type}

theorem newExpirationQueue_eq (m : Mem K V) :
    newExpirationQueue m = .ok { mem := m, items := [] } := by
  simp [newExpirationQueue, heap.Init, heap.initLoop, expirationQueue.Len]

theorem addrKey_append (m : Mem K V) (it : ttlItem K V) (p : Nat) (hp : p < m.length) :
    addrKey (m ++ [it]) p = addrKey m p := by
  unfold addrKey
  rw [List.getElem?_append_left hp]

theorem HeapOrd_append (eq : expirationQueue K V) (it : ttlItem K V) (hwf : QWF eq) (n : Nat)
    (ho : HeapOrd n eq) : HeapOrd n { eq with mem := eq.mem ++ [it] } := by
  have hk : ∀ k : Nat,
      ({ eq with mem := eq.mem ++ [it] } : expirationQueue K V).keyAt k = eq.keyAt k := by
    intro k
    unfold expirationQueue.keyAt
    show (match eq.items[k]? with
      | none => 0
      | some a => addrKey (eq.mem ++ [it]) a) = _
    cases hkk : eq.items[k]? with
    | none => rfl
    | some a =>
      obtain ⟨x, hx, -⟩ := hwf k a hkk
      exact addrKey_append _ _ _ (List.getElem?_eq_some.mp hx).1
  exact HeapOrd_of_keys (fun k _ => hk k) ho

theorem QReach_inv (eq : expirationQueue K V) (h : QReach eq) :
    QWF eq ∧ HeapOrd eq.items.length eq := by
  induction h with
  | new m eq h =>
    rw [newExpirationQueue_eq] at h
    cases h
    exact ⟨fun i p hi => by simp at hi, fun c hc hcn => by simp at hcn⟩
  | alloc eq it _ ih => exact ⟨QWF_append eq it ih.1, HeapOrd_append eq it ih.1 _ ih.2⟩
  | push eq eq2 item _ hl hni hp ih =>
    obtain ⟨eq3, h3, f3, -, -, ho3⟩ := push_ord eq item _ ih.1 ih.2
      (List.getElem?_eq_getElem hl) hni
    rw [h3] at hp; cases hp
    exact ⟨f3.wf, ho3⟩
  | pop eq eq2 r _ hp ih =>
    cases hx : eq.items[0]? with
    | none =>
      have : eq.items = [] := by
        cases hl : eq.items with
        | nil => rfl
        | cons a l => rw [hl] at hx; simp at hx
      rw [pop_empty eq this] at hp
      cases hp; exact ih
    | some x =>
      obtain ⟨eq3, h3, f3, -, -, -, ho3⟩ := pop_ord eq x ih.1 ih.2 hx
      rw [h3] at hp; cases hp
      exact ⟨f3.wf, ho3⟩
  | remove eq eq2 item _ hm hr ih =>
    obtain ⟨eq3, h3, f3, -, -, -, ho3⟩ := remove_ord eq item ih.1 ih.2 hm
    rw [h3] at hr; cases hr
    exact ⟨f3.wf, ho3⟩
  | update eq eq2 item it it2 _ hm hit hq hu ih =>
    obtain ⟨q2, h2, u2⟩ := update_after_write eq item it it2 ih.1 hm hit hq
    obtain ⟨q3, h3, ho3⟩ := update_after_write_ord eq item it it2 ih.1 ih.2 hm hit hq
    rw [h2] at hu; cases hu
    rw [h2] at h3; cases h3
    exact ⟨u2.wf, ho3⟩

theorem itemAt_of_QWF {eq : expirationQueue K V} (hwf : QWF eq) {i : Nat}
    (hi : i < eq.items.length) :
    ∃ it, eq.itemAt i = some it ∧ it.queueIndex = (i : Int) ∧ eq.keyAt i = it.expireAt := by
  obtain ⟨it, hit, hq⟩ := hwf i _ (List.getElem?_eq_getElem hi)
  refine ⟨it, ?_, hq, ?_⟩
  · simp only [expirationQueue.itemAt, List.getElem?_eq_getElem hi, hit]
  · simp only [expirationQueue.keyAt, List.getElem?_eq_getElem hi, addrKey, hit]

theorem pushAll_spec : ∀ (ps : List Nat) (eq : expirationQueue K V), QWF eq →
    HeapOrd eq.items.length eq → ps.Nodup → (∀ p ∈ ps, p < eq.mem.length ∧ p ∉ eq.items) →
    ∃ eq2, eq.pushAll ps = .ok eq2 ∧ QWF eq2 ∧ HeapOrd eq2.items.length eq2 ∧
      (∀ p : Nat, p ∈ eq2.items ↔ p ∈ eq.items ∨ p ∈ ps) ∧
      eq2.items.length = eq.items.length + ps.length ∧
      (∀ p : Nat, addrKey eq2.mem p = addrKey eq.mem p) ∧
      (QReach eq → QReach eq2)
  | [], eq, hwf, ho, _, _ =>
    ⟨eq, rfl, hwf, ho, fun p => by simp, by simp, fun _ => rfl, fun h => h⟩
  | a :: ps, eq, hwf, ho, hnd, hv => by
    obtain ⟨ha, hnd2⟩ := List.nodup_cons.mp hnd
    obtain ⟨hal, hani⟩ := hv a (List.mem_cons_self _ _)
    obtain ⟨eq1, h1, f1, m1, l1, ho1⟩ := push_ord eq a _ hwf ho (List.getElem?_eq_getElem hal) hani
    obtain ⟨eq2, h2, w2, ho2, m2, l2, k2, q2⟩ := pushAll_spec ps eq1 f1.wf ho1 hnd2 (by
      intro p hp
      obtain ⟨hpl, hpni⟩ := hv p (List.mem_cons_of_mem _ hp)
      refine ⟨by rw [f1.len]; exact hpl, ?_⟩
      rw [m1]
      rintro (h | h)
      · exact hpni h
      · exact ha (h ▸ hp))
    refine ⟨eq2, ?_, w2, ho2, ?_, by rw [l2, l1]; simp; omega, ?_, ?_⟩
    · simp only [expirationQueue.pushAll, bind, Except.bind, h1, h2]
    · intro p
      rw [m2, m1]; simp [or_assoc]
    · intro p
      rw [k2, f1.addrKey_keep]
    · intro hq
      exact q2 (QReach.push eq eq1 a hq hal hani h1)

theorem popAll_spec : ∀ (fuel : Nat) (eq : expirationQueue K V), QWF eq →
    HeapOrd eq.items.length eq → eq.items.length < fuel →
    ∃ out final, eq.popAll fuel = .ok (out, final) ∧ eq.drain fuel = .ok out ∧
      final.items = [] ∧ out.Perm eq.items ∧
      out.Pairwise (fun a b => addrKey eq.mem a ≤ addrKey eq.mem b) ∧
      (∀ p : Nat, addrKey final.mem p = addrKey eq.mem p) := by
  intro fuel
  induction fuel with
  | zero => intro eq _ _ h; omega
  | succ fuel ih =>
    intro eq hwf ho hf
    cases hx : eq.items[0]? with
    | none =>
      have he : eq.items = [] := by
        cases hl : eq.items with
        | nil => rfl
        | cons a l => rw [hl] at hx; simp at hx
      refine ⟨[], eq, ?_, ?_, he, by rw [he], List.Pairwise.nil, fun _ => rfl⟩
      · simp only [expirationQueue.popAll, bind, Except.bind, pop_empty eq he, pure, Except.pure]
      · simp only [expirationQueue.drain, bind, Except.bind, pop_empty eq he, pure, Except.pure]
    | some x =>
      obtain ⟨eq1, h1, f1, m1, l1, -, ho1⟩ := pop_ord eq x hwf ho hx
      obtain ⟨out, final, hp, hd, hfin, hperm, hsort, hkeys⟩ := ih eq1 f1.wf ho1 (by omega)
      refine ⟨x :: out, final, ?_, ?_, hfin, ?_, ?_, fun p => by rw [hkeys, f1.addrKey_keep]⟩
      · simp only [expirationQueue.popAll, bind, Except.bind, h1, hp, pure, Except.pure]
      · simp only [expirationQueue.drain, bind, Except.bind, h1, hd, pure, Except.pure]
      · have hnd1 : (x :: eq1.items).Nodup :=
          List.nodup_cons.mpr ⟨fun h => ((m1 x).mp h).2 rfl, f1.wf.nodup⟩
        have hx1 : (x :: eq1.items).Perm eq.items := by
          rw [List.perm_ext_iff_of_nodup hnd1 hwf.nodup]
          intro a
          rw [List.mem_cons, m1]
          constructor
          · rintro (rfl | h)
            · exact List.getElem?_mem hx
            · exact h.1
          · intro h
            by_cases hax : a = x
            · exact Or.inl hax
            · exact Or.inr ⟨h, hax⟩
        exact (List.Perm.cons x hperm).trans hx1
      · rw [List.pairwise_cons]
        constructor
        · intro b hb
          have hb1 : b ∈ eq1.items := hperm.mem_iff.mp hb
          exact root_minimal eq x ho hx b ((m1 b).mp hb1).1
        · exact hsort.imp (fun {a b} h => by
            rw [f1.addrKey_keep a, f1.addrKey_keep b] at h; exact h)

end QueueRunLemmas

/-! ### The map -/

section MapLemmas
variable {K : Type} [BEq K] [PartialEquivBEq K]

theorem mapGet_mem {key : K} {p : Nat} : ∀ {l : List (K × Nat)},
    mapGet key l = some p → ∃ k, (k, p) ∈ l ∧ (k == key) = true
  | [], h => by simp [mapGet] at h
  | (k, q) :: rest, h => by
    unfold mapGet at h
    cases hk : k == key with
    | true =>
      rw [hk] at h
      simp only [if_true] at h
      cases h
      exact ⟨k, List.mem_cons_self _ _, hk⟩
    | false =>
      rw [hk] at h
      simp only [Bool.false_eq_true, if_false] at h
      obtain ⟨k2, h2, h3⟩ := mapGet_mem h
      exact ⟨k2, List.mem_cons_of_mem _ h2, h3⟩

theorem mapGet_self_eq {key : K} {p : Nat} {l : List (K × Nat)} (h : mapGet key l = some p) :
    (key == key) = true := by
  obtain ⟨k, -, hk⟩ := mapGet_mem h
  exact BEq.trans (BEq.symm hk) hk

theorem mapGet_congr {k1 k2 : K} (h : (k1 == k2) = true) : ∀ {l : List (K × Nat)},
    mapGet k1 l = mapGet k2 l
  | [] => rfl
  | (k, q) :: rest => by
    unfold mapGet
    cases hk : k == k1 with
    | true =>
      rw [BEq.trans hk h]
      rfl
    | false =>
      have : (k == k2) = false := by
        cases hk2 : k == k2 with
        | false => rfl
        | true => rw [BEq.trans hk2 (BEq.symm h)] at hk; cases hk
      rw [this]
      simp only [Bool.false_eq_true, if_false]
      exact mapGet_congr h

theorem mapGet_of_mem {key : K} {p : Nat} : ∀ {l : List (K × Nat)},
    l.Pairwise (fun a b => (a.1 == b.1) = false) → (key, p) ∈ l → (key == key) = true →
    mapGet key l = some p
  | [], _, h, _ => by simp at h
  | (k, q) :: rest, hnd, h, hs => by
    unfold mapGet
    rw [List.pairwise_cons] at hnd
    rcases List.mem_cons.mp h with h | h
    · cases h; rw [hs]; rfl
    · rw [hnd.1 (key, p) h]
      simp only [Bool.false_eq_true, if_false]
      exact mapGet_of_mem hnd.2 h hs

theorem mapGet_none_of_not_self {key : K} (h : (key == key) = false) : ∀ {l : List (K × Nat)},
    mapGet key l = none := by
  intro l
  cases hg : mapGet key l with
  | none => rfl
  | some p => rw [mapGet_self_eq hg] at h; cases h

theorem mem_mapSet {key : K} {p : Nat} {e : K × Nat} : ∀ {l : List (K × Nat)},
    e ∈ mapSet key p l → e = (key, p) ∨ e ∈ l
  | [], h => by simp [mapSet] at h; exact Or.inl h
  | (k, q) :: rest, h => by
    unfold mapSet at h
    cases hk : k == key with
    | true =>
      rw [hk] at h
      simp only [if_true] at h
      rcases List.mem_cons.mp h with h | h
      · exact Or.inl h
      · exact Or.inr (List.mem_cons_of_mem _ h)
    | false =>
      rw [hk] at h
      simp only [Bool.false_eq_true, if_false] at h
      rcases List.mem_cons.mp h with h | h
      · subst h; exact Or.inr (by simp)
      · rcases mem_mapSet h with h | h
        · exact Or.inl h
        · exact Or.inr (List.mem_cons_of_mem _ h)

theorem mapSet_of_not_self {key : K} {p : Nat} (h : (key == key) = false) :
    ∀ {l : List (K × Nat)}, mapSet key p l = l ++ [(key, p)]
  | [] => rfl
  | (k, q) :: rest => by
    unfold mapSet
    have : (k == key) = false := by
      cases hk : k == key with
      | false => rfl
      | true => rw [BEq.trans (BEq.symm hk) hk] at h; cases h
    rw [this]
    simp only [Bool.false_eq_true, if_false]
    rw [mapSet_of_not_self h]
    rfl

theorem keys_mapSet_pairwise {key : K} {p : Nat} : ∀ {l : List (K × Nat)},
    l.Pairwise (fun a b => (a.1 == b.1) = false) →
    (mapSet key p l).Pairwise (fun a b => (a.1 == b.1) = false)
  | [], _ => by simp [mapSet]
  | (k, q) :: rest, h => by
    rw [List.pairwise_cons] at h
    unfold mapSet
    cases hk : k == key with
    | true =>
      simp only [if_true]
      rw [List.pairwise_cons]
      refine ⟨fun e he => ?_, h.2⟩
      cases hke : key == e.1 with
      | false => rfl
      | true =>
        have h1 := h.1 e he
        have h2 : (k == e.1) = true := BEq.trans hk hke
        rw [h2] at h1
        cases h1
    | false =>
      simp only [Bool.false_eq_true, if_false]
      rw [List.pairwise_cons]
      refine ⟨fun e he => ?_, keys_mapSet_pairwise h.2⟩
      rcases mem_mapSet he with he | he
      · rw [he]; exact hk
      · exact h.1 e he

theorem mapGet_mapSet_self {key : K} {p : Nat} (hs : (key == key) = true) :
    ∀ {l : List (K × Nat)}, mapGet key (mapSet key p l) = some p
  | [] => by simp [mapSet, mapGet, hs]
  | (k, q) :: rest => by
    unfold mapSet
    cases hk : k == key with
    | true => simp [mapGet, hs]
    | false =>
      simp only [Bool.false_eq_true, if_false]
      unfold mapGet
      rw [hk]
      simp only [Bool.false_eq_true, if_false]
      exact mapGet_mapSet_self hs

theorem mapGet_mapSet_ne {key k2 : K} {p : Nat} (hne : (key == k2) = false) :
    ∀ {l : List (K × Nat)}, mapGet k2 (mapSet key p l) = mapGet k2 l
  | [] => by simp [mapSet, mapGet, hne]
  | (k, q) :: rest => by
    unfold mapSet
    cases hk : k == key with
    | true =>
      have : (k == k2) = false := by
        cases hk2 : k == k2 with
        | false => rfl
        | true => rw [BEq.trans (BEq.symm hk) hk2] at hne; cases hne
      simp [mapGet, hne, this]
    | false =>
      simp only [Bool.false_eq_true, if_false]
      unfold mapGet
      cases hk2 : k == k2 with
      | true => rfl
      | false =>
        simp only [Bool.false_eq_true, if_false]
        exact mapGet_mapSet_ne hne

theorem mapDelete_eq_filter {key : K} : ∀ {l : List (K × Nat)},
    mapDelete key l = l.filter (fun e => !(e.1 == key))
  | [] => rfl
  | (k, q) :: rest => by
    unfold mapDelete
    cases hk : k == key with
    | true => simp only [if_true]; rw [mapDelete_eq_filter]; simp [hk]
    | false =>
      simp only [Bool.false_eq_true, if_false]; rw [mapDelete_eq_filter]; simp [hk]

theorem mem_mapDelete {key : K} {e : K × Nat} {l : List (K × Nat)} :
    e ∈ mapDelete key l ↔ e ∈ l ∧ (e.1 == key) = false := by
  rw [mapDelete_eq_filter]; simp

theorem mapDelete_of_not_self {key : K} (h : (key == key) = false) {l : List (K × Nat)} :
    mapDelete key l = l := by
  rw [mapDelete_eq_filter, List.filter_eq_self]
  intro e _
  cases hk : e.1 == key with
  | false => rfl
  | true => rw [BEq.trans (BEq.symm hk) hk] at h; cases h

theorem keys_mapDelete_pairwise {key : K} {l : List (K × Nat)}
    (h : l.Pairwise (fun a b => (a.1 == b.1) = false)) :
    (mapDelete key l).Pairwise (fun a b => (a.1 == b.1) = false) := by
  rw [mapDelete_eq_filter]
  exact h.sublist (List.filter_sublist _)

theorem mapGet_mapDelete_self {key k2 : K} (hk : (key == k2) = true) :
    ∀ {l : List (K × Nat)}, mapGet k2 (mapDelete key l) = none := by
  intro l
  cases hg : mapGet k2 (mapDelete key l) with
  | none => rfl
  | some p =>
    obtain ⟨k, hm, hk2⟩ := mapGet_mem hg
    have := (mem_mapDelete.mp hm).2
    rw [BEq.trans hk2 (BEq.symm hk)] at this
    cases this

theorem mapGet_mapDelete_ne {key k2 : K} (hne : (key == k2) = false) :
    ∀ {l : List (K × Nat)}, mapGet k2 (mapDelete key l) = mapGet k2 l
  | [] => rfl
  | (k, q) :: rest => by
    unfold mapDelete
    cases hk : k == key with
    | true =>
      simp only [if_true]
      rw [mapGet_mapDelete_ne hne]
      have : (k == k2) = false := by
        cases hk2 : k == k2 with
        | false => rfl
        | true => rw [BEq.trans (BEq.symm hk) hk2] at hne; cases hne
      simp [mapGet, this]
    | false =>
      simp only [Bool.false_eq_true, if_false]
      unfold mapGet
      cases hk2 : k == k2 with
      | true => rfl
      | false =>
        simp only [Bool.false_eq_true, if_false]
        exact mapGet_mapDelete_ne hne

end MapLemmas

/-! ### The cache: the structural invariant holds in every reachable state -/

section CacheLemmas

variable {K V : Type} [BEq K] [PartialEquivBEq K]

theorem CWF.found {c : cache K V} (hc : CWF c) {key : K} {p : Nat}
    (h : mapGet key c.items = some p) :
    p ∈ c.queue.items ∧ ∃ it, c.queue.mem[p]? = some it ∧ (it.key == key) = true := by
  obtain ⟨k, hm, hk⟩ := mapGet_mem h
  obtain ⟨it, hit, hkey⟩ := hc.map_at k p hm
  exact ⟨hc.map_in k p hm (BEq.trans hk (BEq.symm hk)), it, hit, by rw [hkey]; exact hk⟩

theorem CWF_of_Upd (c : cache K V) (q2 : expirationQueue K V) (p : Nat) (it it2 : ttlItem K V)
    (hc : CWF c) (hit : c.queue.mem[p]? = some it) (hu : Upd c.queue q2 p it2)
    (hkey : it2.key = it.key) (httl : it2.ttl = it.ttl) :
    CWF { c with queue := q2 } := by
  have hcore : ∀ (a : Nat) (x : ttlItem K V), c.queue.mem[a]? = some x →
      ∃ y, q2.mem[a]? = some y ∧ y.key = x.key ∧ y.ttl = x.ttl := by
    intro a x hx
    by_cases hap : a = p
    · subst hap
      rw [hit] at hx; cases hx
      obtain ⟨y, hy, hyc⟩ := core_some_of hu.self
      rw [core_eq_iff] at hyc
      exact ⟨y, hy, hyc.1.trans hkey, hyc.2.2.1.trans httl⟩
    · obtain ⟨y, hy, hyc⟩ := core_some (hu.other a hap) hx
      rw [core_eq_iff] at hyc
      exact ⟨y, hy, hyc.1, hyc.2.2.1⟩
  refine ⟨hu.wf, ?_, ?_, hc.keys, hc.ttl_nonneg, ?_, hc.cap_nonneg⟩
  · intro k a hka
    obtain ⟨x, hx, hxk⟩ := hc.map_at k a hka
    obtain ⟨y, hy, hyk, -⟩ := hcore a x hx
    exact ⟨y, hy, hyk.trans hxk⟩
  · intro k a hka hs
    exact (hu.mem_iff a).mpr (hc.map_in k a hka hs)
  · intro a y hy
    have hal : a < c.queue.mem.length := by
      rw [← hu.len]; exact (List.getElem?_eq_some.mp hy).1
    obtain ⟨y2, hy2, -, hyt⟩ := hcore a _ (List.getElem?_eq_getElem hal)
    show y.ttl = c.ttl
    rw [hy] at hy2; cases hy2
    rw [hyt]; exact hc.ttl_eq a _ (List.getElem?_eq_getElem hal)

theorem getItem_absent (c : cache K V) (now : Time) (key : K)
    (hk : mapGet key c.items = none) : c.getItem now key = .ok (c, none) := by
  simp [cache.getItem, hk]

theorem getItem_expired (c : cache K V) (now : Time) (key : K) (p : Nat) (it : ttlItem K V)
    (hk : mapGet key c.items = some p) (hit : c.queue.mem[p]? = some it)
    (he : it.expired now = true) : c.getItem now key = .ok (c, none) := by
  simp [cache.getItem, hk, load, hit, bind, Except.bind, he]

theorem getItem_live (c : cache K V) (now : Time) (key : K) (p : Nat) (it : ttlItem K V)
    (hc : CWF c) (hk : mapGet key c.items = some p) (hit : c.queue.mem[p]? = some it)
    (he : it.expired now = false) :
    ∃ q2, c.getItem now key = .ok ({ c with queue := q2 }, some p) ∧
      Upd c.queue q2 p (it.touch now) ∧ CWF { c with queue := q2 } := by
  obtain ⟨hp, -⟩ := hc.found hk
  obtain ⟨q2, h2, u2⟩ := update_after_write c.queue p it (it.touch now) hc.qwf hp hit rfl
  refine ⟨q2, ?_, u2, CWF_of_Upd c q2 p it _ hc hit u2 rfl rfl⟩
  simp only [cache.getItem, hk, load, hit, bind, Except.bind, he, h2, pure, Except.pure]
  simp

theorem removeItem_spec (c : cache K V) (item : Nat) (reason : EvictReason) (hc : CWF c)
    (hm : item ∈ c.queue.items) :
    ∃ (q2 : expirationQueue K V) (it : ttlItem K V), c.queue.mem[item]? = some it ∧
      c.removeItem item reason = .ok { c with queue := q2, items := mapDelete it.key c.items,
                                              calls := c.calls ++ [(it.key, it.value, reason)] } ∧
      Frame c.queue q2 ∧ (∀ p : Nat, p ∈ q2.items ↔ p ∈ c.queue.items ∧ p ≠ item) ∧
      q2.items.length + 1 = c.queue.items.length ∧
      CWF { c with queue := q2, items := mapDelete it.key c.items,
                   calls := c.calls ++ [(it.key, it.value, reason)] } := by
  obtain ⟨q2, h2, f2, m2, l2, -⟩ := remove_spec c.queue item hc.qwf hm
  obtain ⟨i, hi⟩ := List.mem_iff_getElem?.mp hm
  obtain ⟨it, hit, -⟩ := hc.qwf i item hi
  obtain ⟨it2, hit2, hc2⟩ := core_some (f2.core item) hit
  rw [core_eq_iff] at hc2
  refine ⟨q2, it, hit, ?_, f2, m2, l2, ?_⟩
  · simp only [cache.removeItem, bind, Except.bind, h2, load, hit2, pure, Except.pure, hc2.1,
      hc2.2.1]
  · refine ⟨f2.wf, ?_, ?_, keys_mapDelete_pairwise hc.keys, hc.ttl_nonneg, ?_, hc.cap_nonneg⟩
    · intro k p hkp
      rw [mem_mapDelete] at hkp
      obtain ⟨x, hx, hxk⟩ := hc.map_at k p hkp.1
      obtain ⟨y, hy, hyc⟩ := core_some (f2.core p) hx
      rw [core_eq_iff] at hyc
      exact ⟨y, hy, hyc.1.trans hxk⟩
    · intro k p hkp hs
      rw [mem_mapDelete] at hkp
      obtain ⟨x, hx, hxk⟩ := hc.map_at k p hkp.1
      refine (m2 p).mpr ⟨hc.map_in k p hkp.1 hs, ?_⟩
      rintro rfl
      rw [hit] at hx; cases hx
      have h2 : (k == it.key) = false := hkp.2
      rw [hxk, hs] at h2
      cases h2
    · intro a y hy
      have hal : a < c.queue.mem.length := by
        rw [← f2.len]; exact (List.getElem?_eq_some.mp hy).1
      obtain ⟨y2, hy2, hyc⟩ := core_some (f2.core a) (List.getElem?_eq_getElem hal)
      rw [core_eq_iff] at hyc
      show y.ttl = c.ttl
      rw [hy] at hy2; cases hy2
      rw [hyc.2.2.1]; exact hc.ttl_eq a _ (List.getElem?_eq_getElem hal)

theorem insert_spec (c : cache K V) (now : Time) (key : K) (value : V) (hc : CWF c) :
    ∃ q2 : expirationQueue K V,
      ({ c.queue with mem := (alloc c.queue.mem (newTTLItem now key value c.ttl)).1 } :
        expirationQueue K V).push (alloc c.queue.mem (newTTLItem now key value c.ttl)).2 = .ok q2 ∧
      q2.mem.length = c.queue.mem.length + 1 ∧
      (∀ a : Nat, a < c.queue.mem.length →
        (q2.mem[a]?).map ttlItem.core = (c.queue.mem[a]?).map ttlItem.core) ∧
      (q2.mem[c.queue.mem.length]?).map ttlItem.core =
        some (key, value, c.ttl, now, now + c.ttl) ∧
      (∀ a : Nat, a ∉ c.queue.items → a ≠ c.queue.mem.length → q2.mem[a]? = c.queue.mem[a]?) ∧
      (∀ p : Nat, p ∈ q2.items ↔ p ∈ c.queue.items ∨ p = c.queue.mem.length) ∧
      q2.items.length = c.queue.items.length + 1 ∧
      CWF { c with items := mapSet key c.queue.mem.length c.items, queue := q2 } := by
  have httl : (if c.ttl < 0 then 0 else c.ttl) = c.ttl := by
    rw [if_neg (not_lt.mpr hc.ttl_nonneg)]
  have hnew : (c.queue.mem ++ [newTTLItem now key value c.ttl])[c.queue.mem.length]? =
      some (newTTLItem now key value c.ttl) := by
    rw [List.getElem?_append_right (le_refl _)]; simp
  have hni : c.queue.mem.length ∉ c.queue.items := by
    intro hm
    obtain ⟨i, hi⟩ := List.mem_iff_getElem?.mp hm
    obtain ⟨x, hx, -⟩ := hc.qwf i _ hi
    exact absurd (List.getElem?_eq_some.mp hx).1 (lt_irrefl _)
  obtain ⟨q2, h2, f2, m2, l2⟩ := push_spec
    ({ c.queue with mem := c.queue.mem ++ [newTTLItem now key value c.ttl] } : expirationQueue K V)
    c.queue.mem.length _ (QWF_append c.queue _ hc.qwf) hnew hni
  have hlen : q2.mem.length = c.queue.mem.length + 1 := by rw [f2.len]; simp
  have hold : ∀ a : Nat, a < c.queue.mem.length →
      (q2.mem[a]?).map ttlItem.core = (c.queue.mem[a]?).map ttlItem.core := by
    intro a ha
    rw [f2.core a]
    show Option.map ttlItem.core ((c.queue.mem ++ [_])[a]?) = _
    rw [List.getElem?_append_left ha]
  have hself : (q2.mem[c.queue.mem.length]?).map ttlItem.core =
      some (key, value, c.ttl, now, now + c.ttl) := by
    rw [f2.core]
    show Option.map ttlItem.core ((c.queue.mem ++ [_])[c.queue.mem.length]?) = _
    rw [hnew]
    simp [ttlItem.core, newTTLItem, httl]
  refine ⟨q2, h2, hlen, hold, hself, ?_, m2, l2, ?_⟩
  · intro a ha hne
    rw [f2.frame a ha (fun h => by rcases (m2 a).mp h with h | h; exact ha h; exact hne h)]
    show (c.queue.mem ++ [_])[a]? = _
    by_cases hal : a < c.queue.mem.length
    · rw [List.getElem?_append_left hal]
    · rw [List.getElem?_append_right (by omega)]
      have : a - c.queue.mem.length ≠ 0 := by omega
      obtain ⟨m, hm⟩ := Nat.exists_eq_succ_of_ne_zero this
      rw [hm]
      simp
      omega
  · refine ⟨f2.wf, ?_, ?_, keys_mapSet_pairwise hc.keys, hc.ttl_nonneg, ?_, hc.cap_nonneg⟩
    · intro k p hkp
      rcases mem_mapSet hkp with h | h
      · cases h
        obtain ⟨y, hy, hyc⟩ := core_some_of hself
        exact ⟨y, hy, congrArg Prod.fst hyc⟩
      · obtain ⟨x, hx, hxk⟩ := hc.map_at k p h
        obtain ⟨y, hy, hyc⟩ := core_some (hold p (List.getElem?_eq_some.mp hx).1) hx
        rw [core_eq_iff] at hyc
        exact ⟨y, hy, hyc.1.trans hxk⟩
    · intro k p hkp hs
      rcases mem_mapSet hkp with h | h
      · cases h
        exact (m2 _).mpr (Or.inr rfl)
      · exact (m2 p).mpr (Or.inl (hc.map_in k p h hs))
    · intro a y hy
      show y.ttl = c.ttl
      have hal : a < c.queue.mem.length + 1 := by
        rw [← hlen]; exact (List.getElem?_eq_some.mp hy).1
      by_cases hlt : a < c.queue.mem.length
      · obtain ⟨y2, hy2, hyc⟩ := core_some (hold a hlt) (List.getElem?_eq_getElem hlt)
        rw [core_eq_iff] at hyc
        rw [hy] at hy2; cases hy2
        rw [hyc.2.2.1]; exact hc.ttl_eq a _ (List.getElem?_eq_getElem hlt)
      · have : a = c.queue.mem.length := by omega
        subst this
        obtain ⟨y2, hy2, hyc⟩ := core_some_of hself
        rw [hy] at hy2; cases hy2
        exact congrArg (fun x => x.2.2.1) hyc

theorem getItem_cases (c : cache K V) (now : Time) (key : K) (hc : CWF c) :
    (c.getItem now key = .ok (c, none) ∧
      (mapGet key c.items = none ∨ ∃ p it, mapGet key c.items = some p ∧
        c.queue.mem[p]? = some it ∧ it.expired now = true)) ∨
    (∃ p it q2, mapGet key c.items = some p ∧ c.queue.mem[p]? = some it ∧
      it.expired now = false ∧ c.getItem now key = .ok ({ c with queue := q2 }, some p) ∧
      Upd c.queue q2 p (it.touch now) ∧ CWF { c with queue := q2 }) := by
  cases hk : mapGet key c.items with
  | none => exact Or.inl ⟨getItem_absent c now key hk, Or.inl rfl⟩
  | some p =>
    obtain ⟨-, it, hit, -⟩ := hc.found hk
    cases he : it.expired now with
    | true => exact Or.inl ⟨getItem_expired c now key p it hk hit he, Or.inr ⟨p, it, rfl, hit, he⟩⟩
    | false =>
      obtain ⟨q2, h2, u2, c2⟩ := getItem_live c now key p it hc hk hit he
      exact Or.inr ⟨p, it, q2, rfl, hit, he, h2, u2, c2⟩

theorem Set_live (c : cache K V) (now : Time) (key : K) (value : V) (p : Nat)
    (it : ttlItem K V) (hc : CWF c) (hk : mapGet key c.items = some p)
    (hit : c.queue.mem[p]? = some it) (he : it.expired now = false) :
    ∃ q2, c.Set now key value = .ok { c with queue := q2 } ∧
      Upd c.queue q2 p (({ it with value := value } : ttlItem K V).touch now) ∧
      CWF { c with queue := q2 } := by
  obtain ⟨q1, h1, u1, c1⟩ := getItem_live c now key p it hc hk hit he
  obtain ⟨it1, hit1, hc1⟩ := core_some_of u1.self
  have hp1 : p ∈ q1.items := (u1.mem_iff p).mpr (hc.found hk).1
  obtain ⟨q2, h2, u2⟩ := update_after_write q1 p it1
    (({ it1 with value := value } : ttlItem K V).touch now) u1.wf hp1 hit1 rfl
  rw [core_eq_iff] at hc1
  simp only [ttlItem.touch] at hc1
  have hcore : (({ it1 with value := value } : ttlItem K V).touch now).core =
      (({ it with value := value } : ttlItem K V).touch now).core := by
    rw [core_eq_iff]
    simp only [ttlItem.touch]
    refine ⟨hc1.1, trivial, hc1.2.2.1, hc1.2.2.2.1, ?_⟩
    rw [hc1.2.2.1]
  have u := (u1.chain u2).congr hcore
  refine ⟨q2, ?_, u, CWF_of_Upd c q2 p it _ hc hit u rfl rfl⟩
  simp only [cache.Set, bind, Except.bind, h1, load, hit1, pure, Except.pure]
  rw [h2]

theorem Set_fresh (c : cache K V) (now : Time) (key : K) (value : V)
    (hg : c.getItem now key = .ok (c, none)) :
    c.Set now key value = c.evictIfFull >>= fun c1 => c1.insertNew now key value := by
  simp only [cache.Set, cache.evictIfFull, cache.insertNew, bind, Except.bind, hg]
  split
  · cases index c.queue.items 0 with
    | error e => rfl
    | ok v => cases c.removeItem v OutOfCapacity <;> rfl
  · rfl

theorem insertNew_spec (c : cache K V) (now : Time) (key : K) (value : V) (hc : CWF c) :
    ∃ q2 : expirationQueue K V,
      c.insertNew now key value =
        .ok { c with items := mapSet key c.queue.mem.length c.items, queue := q2 } ∧
      q2.mem.length = c.queue.mem.length + 1 ∧
      (∀ a : Nat, a < c.queue.mem.length →
        (q2.mem[a]?).map ttlItem.core = (c.queue.mem[a]?).map ttlItem.core) ∧
      (q2.mem[c.queue.mem.length]?).map ttlItem.core =
        some (key, value, c.ttl, now, now + c.ttl) ∧
      (∀ a : Nat, a ∉ c.queue.items → a ≠ c.queue.mem.length → q2.mem[a]? = c.queue.mem[a]?) ∧
      (∀ p : Nat, p ∈ q2.items ↔ p ∈ c.queue.items ∨ p = c.queue.mem.length) ∧
      q2.items.length = c.queue.items.length + 1 ∧
      CWF { c with items := mapSet key c.queue.mem.length c.items, queue := q2 } := by
  obtain ⟨q2, h2, r⟩ := insert_spec c now key value hc
  refine ⟨q2, ?_, r⟩
  simp only [cache.insertNew, bind, Except.bind, h2, pure, Except.pure]
  rfl

theorem index_zero_mem {l : List Nat} {head : Nat} (h : index l 0 = .ok head) : l[0]? = some head := by
  unfold index at h
  simp only [lt_self_iff_false, if_false, Int.toNat_zero] at h
  split at h
  · cases h; assumption
  · cases h

theorem evictIfFull_cwf (c c1 : cache K V) (hc : CWF c) (h : c.evictIfFull = .ok c1) :
    CWF c1 := by
  unfold cache.evictIfFull at h
  by_cases hcap : (c.items.length : Int) ≥ c.capacity
  · rw [if_pos hcap] at h
    cases hidx : index c.queue.items 0 with
    | error e => simp [bind, Except.bind, hidx] at h
    | ok head =>
      have hm : head ∈ c.queue.items := List.getElem?_mem (index_zero_mem hidx)
      obtain ⟨q2, it2, -, h2, -, -, -, hw⟩ := removeItem_spec c head OutOfCapacity hc hm
      simp only [bind, Except.bind, hidx, h2] at h
      cases h; exact hw
  · rw [if_neg hcap] at h
    cases h; exact hc

theorem Set_cwf (c c2 : cache K V) (now : Time) (key : K) (value : V) (hc : CWF c)
    (h : c.Set now key value = .ok c2) : CWF c2 := by
  rcases getItem_cases c now key hc with ⟨hg, -⟩ | ⟨p, it, q2, hk, hit, he, -, -, -⟩
  · rw [Set_fresh c now key value hg] at h
    cases h1 : c.evictIfFull with
    | error e => simp [bind, Except.bind, h1] at h
    | ok c1 =>
      have hc1 := evictIfFull_cwf c c1 hc h1
      obtain ⟨q2, h2, -, -, -, -, -, -, hw⟩ := insertNew_spec c1 now key value hc1
      simp only [bind, Except.bind, h1, h2] at h
      cases h; exact hw
  · obtain ⟨q3, h3, -, hw⟩ := Set_live c now key value p it hc hk hit he
    rw [h3] at h; cases h; exact hw

theorem Get_cwf (c c2 : cache K V) (now : Time) (key : K) (r : Option V × Bool) (hc : CWF c)
    (h : c.Get now key = .ok (c2, r)) : CWF c2 := by
  rcases getItem_cases c now key hc with ⟨hg, -⟩ | ⟨p, it, q2, hk, hit, he, hg, u, hw⟩
  · simp only [cache.Get, bind, Except.bind, hg, pure, Except.pure] at h
    cases h; exact hc
  · obtain ⟨it1, hit1, -⟩ := core_some_of u.self
    simp only [cache.Get, bind, Except.bind, hg, load, hit1, pure, Except.pure] at h
    cases h; exact hw

theorem Remove_cwf (c c2 : cache K V) (key : K) (hc : CWF c)
    (h : c.Remove key = .ok c2) : CWF c2 := by
  unfold cache.Remove at h
  cases hk : mapGet key c.items with
  | none => rw [hk] at h; cases h; exact hc
  | some p =>
    rw [hk] at h
    dsimp only at h
    obtain ⟨q2, it2, -, h2, -, -, -, hw⟩ := removeItem_spec c p Removed hc
      (hc.found hk).1
    rw [h2] at h; cases h; exact hw

theorem cleanupLoop_cwf (now : Time) : ∀ (fuel : Nat) (c c2 : cache K V), CWF c →
    cache.cleanupLoop fuel c now = .ok c2 → CWF c2 := by
  intro fuel
  induction fuel with
  | zero => intro c c2 _ h; cases h
  | succ fuel ih =>
    intro c c2 hc h
    unfold cache.cleanupLoop at h
    by_cases hl : c.queue.Len > 0
    · rw [if_pos hl] at h
      cases hidx : index c.queue.items 0 with
      | error e => simp [bind, Except.bind, hidx] at h
      | ok head =>
        have h0 := index_zero_mem hidx
        obtain ⟨it, hit, -⟩ := hc.qwf 0 head h0
        cases he : it.expired now with
        | false =>
          simp [bind, Except.bind, hidx, load, hit, he] at h
          cases h; exact hc
        | true =>
          obtain ⟨q2, it2, -, h2, -, -, -, hw⟩ := removeItem_spec c head Expired hc
            (List.getElem?_mem h0)
          simp only [bind, Except.bind, hidx, load, hit, he, h2, if_true] at h
          exact ih _ c2 hw h
    · rw [if_neg hl] at h
      cases h; exact hc

theorem step_cwf (c c2 : cache K V) (now : Time) (op : Op K V) (hc : CWF c)
    (h : c.step now op = .ok c2) : CWF c2 := by
  cases op with
  | Set key value => exact Set_cwf c c2 now key value hc h
  | Get key =>
    simp only [cache.step, bind, Except.bind] at h
    cases hg : c.Get now key with
    | error e => rw [hg] at h; cases h
    | ok r =>
      rw [hg] at h
      simp only [pure, Except.pure] at h
      cases h
      exact Get_cwf c r.1 now key r.2 hc hg
  | Remove key => exact Remove_cwf c c2 key hc h
  | cleanup => exact cleanupLoop_cwf now _ c c2 hc h

theorem run_cwf : ∀ (steps : List (Time × Op K V)) (c c2 : cache K V), CWF c →
    c.run steps = .ok c2 → CWF c2
  | [], c, c2, hc, h => by cases h; exact hc
  | (now, op) :: rest, c, c2, hc, h => by
    simp only [cache.run, bind, Except.bind] at h
    cases hs : c.step now op with
    | error e => rw [hs] at h; cases h
    | ok c1 =>
      rw [hs] at h
      exact run_cwf rest c1 c2 (step_cwf c c1 now op hc hs) h

theorem NewCache_eq (cfg : Config) :
    NewCache K V cfg = .ok { ttl := if cfg.TTL < 0 then 0 else cfg.TTL, items := [],
                             queue := { mem := [], items := [] },
                             capacity := if cfg.Capacity < 0 then 0 else cfg.Capacity,
                             calls := [] } := by
  simp [NewCache, newExpirationQueue, heap.Init, heap.initLoop, expirationQueue.Len, bind,
    Except.bind, pure, Except.pure]

theorem NewCache_cwf (cfg : Config) (c : cache K V) (h : NewCache K V cfg = .ok c) : CWF c := by
  rw [NewCache_eq] at h
  cases h
  refine ⟨?_, ?_, ?_, ?_, ?_, ?_, ?_⟩
  · intro i p hi; simp at hi
  · intro k p hkp; simp at hkp
  · intro k p hkp; simp at hkp
  · simp
  · show (0 : Int) ≤ (if cfg.TTL < 0 then 0 else cfg.TTL)
    by_cases h : cfg.TTL < 0
    · rw [if_pos h]
    · rw [if_neg h]; exact not_lt.mp h
  · intro p it hit; simp at hit
  · show (0 : Int) ≤ (if cfg.Capacity < 0 then 0 else cfg.Capacity)
    by_cases h : cfg.Capacity < 0
    · rw [if_pos h]
    · rw [if_neg h]; exact not_lt.mp h

theorem reachable_cwf (cfg : Config) (c : cache K V) (h : Reachable cfg c) : CWF c := by
  obtain ⟨c0, steps, h0, -, hr⟩ := h
  exact run_cwf steps c0 c (NewCache_cwf cfg c0 h0) hr

end CacheLemmas

/-! ### Steps as sequences of elementary transitions -/

section TransitionLemmas

variable {K V : Type} [BEq K] [PartialEquivBEq K]

theorem keyBEq_of_core {m m2 : Mem K V} {p : Nat} (k : K)
    (h : (m2[p]?).map ttlItem.core = (m[p]?).map ttlItem.core) :
    (m2[p]?).map (fun it => it.key == k) = (m[p]?).map (fun it => it.key == k) := by
  have := congrArg (Option.map (fun x : K => x == k)) (key_of_core h)
  simpa [Option.map_map, Function.comp] using this

theorem keyBEq_some {m : Mem K V} {p : Nat} {k : K} {it : ttlItem K V} (h : m[p]? = some it) :
    (m[p]?).map (fun it => it.key == k) = some true ↔ (it.key == k) = true := by
  rw [h]; simp

theorem Refresh_of_Upd (c : cache K V) (q2 : expirationQueue K V) (key : K) (a : Nat)
    (it it2 : ttlItem K V) (hk : mapGet key c.items = some a) (hit : c.queue.mem[a]? = some it)
    (hc : CWF c) (hkey : it2.key = it.key) (hu : Upd c.queue q2 a it2)
    (hw : CWF { c with queue := q2 }) : Refresh c { c with queue := q2 } key a where
  held := hk
  items := rfl
  calls := rfl
  ttl := rfl
  capacity := rfl
  mem_iff := hu.mem_iff
  other := hu.other
  key_eq := by
    obtain ⟨x, hx, hxc⟩ := core_some_of hu.self
    obtain ⟨-, y, hy, hyk⟩ := hc.found hk
    rw [hit] at hy; cases hy
    show Option.map (fun it => it.key == key) q2.mem[a]? = some true
    rw [hx]
    rw [core_eq_iff] at hxc
    simp [hxc.1, hkey, hyk]
  wf := hw

theorem getItem_prim (c : cache K V) (now : Time) (key : K) (hc : CWF c) :
    (c.getItem now key = .ok (c, none)) ∨
    (∃ c2 a, c.getItem now key = .ok (c2, some a) ∧ Refresh c c2 key a) := by
  rcases getItem_cases c now key hc with ⟨hg, -⟩ | ⟨p, it, q2, hk, hit, he, hg, u, hw⟩
  · exact Or.inl hg
  · exact Or.inr ⟨_, p, hg, Refresh_of_Upd c q2 key p it (it.touch now) hk hit hc rfl u hw⟩

theorem removeItem_removal (c : cache K V) (a : Nat) (reason : EvictReason) (hc : CWF c)
    (hm : a ∈ c.queue.items) :
    ∃ c2 it, c.removeItem a reason = .ok c2 ∧ Removal c c2 a it reason := by
  obtain ⟨q2, it, hit, h2, f2, m2, -, hw⟩ := removeItem_spec c a reason hc hm
  exact ⟨_, it, h2, ⟨hm, hit, rfl, rfl, rfl, rfl, m2, f2.core, hw⟩⟩

theorem insertNew_insertion (c : cache K V) (now : Time) (key : K) (value : V) (hc : CWF c) :
    ∃ c2, c.insertNew now key value = .ok c2 ∧ Insertion c c2 now key value := by
  obtain ⟨q2, h2, -, hold, hnew, -, m2, -, hw⟩ := insertNew_spec c now key value hc
  exact ⟨_, h2, ⟨rfl, rfl, rfl, rfl, m2, hold, hnew, hw⟩⟩

theorem evictIfFull_prim (c c1 : cache K V) (hc : CWF c)
    (h : c.evictIfFull = .ok c1) :
    c1 = c ∨ ∃ a it, c.queue.items[0]? = some a ∧ Removal c c1 a it OutOfCapacity := by
  unfold cache.evictIfFull at h
  by_cases hcap : (c.items.length : Int) ≥ c.capacity
  · rw [if_pos hcap] at h
    cases hidx : index c.queue.items 0 with
    | error e => simp [bind, Except.bind, hidx] at h
    | ok head =>
      have h0 := index_zero_mem hidx
      obtain ⟨c2, it, h2, r2⟩ := removeItem_removal c head OutOfCapacity hc (List.getElem?_mem h0)
      simp only [bind, Except.bind, hidx, h2] at h
      cases h
      exact Or.inr ⟨head, it, h0, r2⟩
  · rw [if_neg hcap] at h
    cases h; exact Or.inl rfl

theorem Set_prims (k : K) (c c2 : cache K V) (now : Time) (key : K) (value : V) (hc : CWF c)
    (hne : (key == k) = false) (h : c.Set now key value = .ok c2) :
    Relation.ReflTransGen (Prim k now) c c2 := by
  rcases getItem_cases c now key hc with ⟨hg, -⟩ | ⟨p, it, q2, hk, hit, he, -, -, -⟩
  · rw [Set_fresh c now key value hg] at h
    cases h1 : c.evictIfFull with
    | error e => simp [bind, Except.bind, h1] at h
    | ok c1 =>
      have hc1 := evictIfFull_cwf c c1 hc h1
      obtain ⟨c3, h3, i3⟩ := insertNew_insertion c1 now key value hc1
      simp only [bind, Except.bind, h1, h3] at h
      cases h
      have hlast : Prim k now c1 c2 := Prim.insert c1 c2 key value hne i3
      rcases evictIfFull_prim c c1 hc h1 with rfl | ⟨a, it, h0, r⟩
      · exact Relation.ReflTransGen.single hlast
      · exact (Relation.ReflTransGen.single (Prim.evict c c1 a it h0 r)).tail hlast
  · obtain ⟨q3, h3, u3, hw⟩ := Set_live c now key value p it hc hk hit he
    rw [h3] at h; cases h
    exact Relation.ReflTransGen.single (Prim.refresh c _ key p hne
      (Refresh_of_Upd c q3 key p it (({ it with value := value } : ttlItem K V).touch now)
        hk hit hc rfl u3 hw))

theorem Get_prims (k : K) (c c2 : cache K V) (now : Time) (key : K) (r : Option V × Bool)
    (hc : CWF c) (hne : (key == k) = false) (h : c.Get now key = .ok (c2, r)) :
    Relation.ReflTransGen (Prim k now) c c2 := by
  rcases getItem_prim c now key hc with hg | ⟨c3, a, hg, hr⟩
  · simp only [cache.Get, bind, Except.bind, hg, pure, Except.pure] at h
    cases h; exact Relation.ReflTransGen.refl
  · obtain ⟨-, x, hx, -⟩ := hr.wf.found (hr.items ▸ hr.held)
    simp only [cache.Get, bind, Except.bind, hg, load, hx, pure, Except.pure] at h
    cases h
    exact Relation.ReflTransGen.single (Prim.refresh c _ key a hne hr)

theorem Remove_prims (k : K) (c c2 : cache K V) (now : Time) (key : K) (hc : CWF c)
    (hne : (key == k) = false) (h : c.Remove key = .ok c2) :
    Relation.ReflTransGen (Prim k now) c c2 := by
  unfold cache.Remove at h
  cases hk : mapGet key c.items with
  | none => rw [hk] at h; cases h; exact Relation.ReflTransGen.refl
  | some p =>
    rw [hk] at h
    dsimp only at h
    obtain ⟨hq, x, hx, hxk⟩ := hc.found hk
    obtain ⟨c3, it, h3, r3⟩ := removeItem_removal c p Removed hc hq
    rw [h3] at h; cases h
    have hit := r3.item
    rw [hx] at hit; cases hit
    exact Relation.ReflTransGen.single
      (Prim.remove c _ p x (BEq.neq_of_beq_of_neq hxk hne) (by rw [mapGet_congr hxk]; exact hk) r3)

theorem cleanupLoop_prims (k : K) (now : Time) : ∀ (fuel : Nat) (c c2 : cache K V), CWF c →
    cache.cleanupLoop fuel c now = .ok c2 → Relation.ReflTransGen (Prim k now) c c2 := by
  intro fuel
  induction fuel with
  | zero => intro c c2 _ h; cases h
  | succ fuel ih =>
    intro c c2 hc h
    unfold cache.cleanupLoop at h
    by_cases hl : c.queue.Len > 0
    · rw [if_pos hl] at h
      cases hidx : index c.queue.items 0 with
      | error e => simp [bind, Except.bind, hidx] at h
      | ok head =>
        have h0 := index_zero_mem hidx
        obtain ⟨it, hit, -⟩ := hc.qwf 0 head h0
        cases he : it.expired now with
        | false =>
          simp [bind, Except.bind, hidx, load, hit, he] at h
          cases h; exact Relation.ReflTransGen.refl
        | true =>
          obtain ⟨c3, it3, h3, r3⟩ := removeItem_removal c head Expired hc (List.getElem?_mem h0)
          simp only [bind, Except.bind, hidx, load, hit, he, h3, if_true] at h
          have hit3 := r3.item
          rw [hit] at hit3; cases hit3
          exact Relation.ReflTransGen.head (Prim.expire c c3 head it h0 he r3)
            (ih c3 c2 r3.wf h)
    · rw [if_neg hl] at h
      cases h; exact Relation.ReflTransGen.refl

theorem step_prims (k : K) (c c2 : cache K V) (now : Time) (op : Op K V) (hc : CWF c)
    (ha : op.avoids k = true) (h : c.step now op = .ok c2) :
    Relation.ReflTransGen (Prim k now) c c2 := by
  cases op with
  | Set key value =>
    exact Set_prims k c c2 now key value hc (by simpa [Op.avoids] using ha) h
  | Get key =>
    simp only [cache.step, bind, Except.bind] at h
    cases hg : c.Get now key with
    | error e => rw [hg] at h; cases h
    | ok r =>
      rw [hg] at h
      simp only [pure, Except.pure] at h
      cases h
      exact Get_prims k c r.1 now key r.2 hc (by simpa [Op.avoids] using ha) hg
  | Remove key => exact Remove_prims k c c2 now key hc (by simpa [Op.avoids] using ha) h
  | cleanup => exact cleanupLoop_prims k now _ c c2 hc h

theorem Prim.cwf {k : K} {now : Time} {c c2 : cache K V} (h : Prim k now c c2) : CWF c2 := by
  cases h with
  | refresh _ _ _ r => exact r.wf
  | evict _ _ _ r => exact r.wf
  | expire _ _ _ _ r => exact r.wf
  | remove _ _ _ _ r => exact r.wf
  | insert _ _ _ r => exact r.wf

theorem prims_induction {k : K} {now : Time} {I : cache K V → Prop}
    (hI : ∀ c c2 : cache K V, CWF c → I c → Prim k now c c2 → I c2)
    {c c2 : cache K V} (h : Relation.ReflTransGen (Prim k now) c c2) (hc : CWF c) (hi : I c) :
    CWF c2 ∧ I c2 := by
  induction h with
  | refl => exact ⟨hc, hi⟩
  | tail _ hp ih => exact ⟨hp.cwf, hI _ _ ih.1 ih.2 hp⟩

theorem run_induction {k : K} {P : Time → Prop} {I : cache K V → Prop}
    (hI : ∀ (now : Time) (c c2 : cache K V), P now → CWF c → I c → Prim k now c c2 → I c2) :
    ∀ (steps : List (Time × Op K V)) (c c2 : cache K V), CWF c → I c →
      (∀ s ∈ steps, s.2.avoids k = true ∧ P s.1) → c.run steps = .ok c2 → CWF c2 ∧ I c2
  | [], c, c2, hc, hi, _, h => by cases h; exact ⟨hc, hi⟩
  | (now, op) :: rest, c, c2, hc, hi, hs, h => by
    simp only [cache.run, bind, Except.bind] at h
    cases h1 : c.step now op with
    | error e => rw [h1] at h; cases h
    | ok c1 =>
      rw [h1] at h
      have hhead := hs (now, op) (List.mem_cons_self _ _)
      obtain ⟨hc1, hi1⟩ := prims_induction (hI now · · hhead.2) (step_prims k c c1 now op hc hhead.1 h1)
        hc hi
      exact run_induction hI rest c1 c2 hc1 hi1 (fun s hm => hs s (List.mem_cons_of_mem _ hm)) h

theorem key_at {c : cache K V} (hc : CWF c) {key : K} {a : Nat} (h : mapGet key c.items = some a) :
    (c.queue.mem[a]?).map (fun it => it.key == key) = some true := by
  obtain ⟨-, x, hx, hxk⟩ := hc.found h
  rw [hx]; simp [hxk]

theorem key_clash {m : Mem K V} {a : Nat} {k1 k2 : K}
    (h1 : (m[a]?).map (fun it => it.key == k1) = some true)
    (h2 : (m[a]?).map (fun it => it.key == k2) = some true) : (k1 == k2) = true := by
  cases hm : m[a]? with
  | none => rw [hm] at h1; cases h1
  | some it =>
    rw [keyBEq_some hm] at h1 h2
    exact BEq.trans (BEq.symm h1) h2

theorem DeadlineOf_prim (k : K) (e : Time) (now : Time) (c c2 : cache K V) (hc : CWF c)
    (hi : DeadlineOf k e c) (h : Prim k now c c2) : DeadlineOf k e c2 := by
  have hrem : ∀ (a : Nat) (it : ttlItem K V) (reason : EvictReason),
      Removal c c2 a it reason → DeadlineOf k e c2 := by
    intro a it reason r
    cases hk : it.key == k with
    | true => left; rw [r.items]; exact mapGet_mapDelete_self hk
    | false =>
      have hm : mapGet k c2.items = mapGet k c.items := by
        rw [r.items]; exact mapGet_mapDelete_ne hk
      rcases hi with hi | ⟨p, x, hp, hx, hxe⟩
      · left; rw [hm]; exact hi
      · right
        obtain ⟨y, hy, -, -, hye⟩ := core_fields (r.core p) hx
        exact ⟨p, y, hm ▸ hp, hy, hye.trans hxe⟩
  cases h with
  | refresh key a hne r =>
    rcases hi with hi | ⟨p, x, hp, hx, hxe⟩
    · left; rw [r.items]; exact hi
    · right
      have hpa : p ≠ a := by
        rintro rfl
        have h3 := key_clash (key_at hc r.held) (key_at hc hp)
        rw [hne] at h3
        cases h3
      obtain ⟨y, hy, -, -, hye⟩ := core_fields (r.other p hpa) hx
      exact ⟨p, y, r.items ▸ hp, hy, hye.trans hxe⟩
  | evict a it _ r => exact hrem a it _ r
  | expire a it _ _ r => exact hrem a it _ r
  | remove a it _ _ r => exact hrem a it _ r
  | insert key value hne r =>
    have hm : mapGet k c2.items = mapGet k c.items := by
      rw [r.items]; exact mapGet_mapSet_ne hne
    rcases hi with hi | ⟨p, x, hp, hx, hxe⟩
    · left; rw [hm]; exact hi
    · right
      obtain ⟨y, hy, -, -, hye⟩ := core_fields (r.old p (List.getElem?_eq_some.mp hx).1) hx
      exact ⟨p, y, hm ▸ hp, hy, hye.trans hxe⟩

theorem Kept_prim (k : K) (p : Nat) (v : V) (e : Time) (n : Nat) (now : Time)
    (c c2 : cache K V) (hnow : now ≤ e) (hc : CWF c) (hi : Kept k p v e n c)
    (h : Prim k now c c2) : Kept k p v e n c2 := by
  obtain ⟨hn, hi⟩ := hi
  -- the record of invocations only grows
  have hcalls : ∃ l, c2.calls = c.calls ++ l := by
    cases h with
    | refresh key a hne r => exact ⟨[], by rw [r.calls]; simp⟩
    | evict a it _ r => exact ⟨_, r.calls⟩
    | expire a it _ _ r => exact ⟨_, r.calls⟩
    | remove a it _ _ r => exact ⟨_, r.calls⟩
    | insert key value hne r => exact ⟨[], by rw [r.calls]; simp⟩
  obtain ⟨l, hl⟩ := hcalls
  have hn2 : n ≤ c2.calls.length := by rw [hl]; simp; omega
  refine ⟨hn2, ?_⟩
  rcases hi with ⟨hsole, hp, x, hx, hxv, hxe⟩ | hev
  swap
  · right
    obtain ⟨y, hy, hyk⟩ := hev
    refine ⟨y, ?_, hyk⟩
    rw [hl, List.drop_append_of_le_length hn]
    exact List.mem_append_left _ hy
  have hkp : (c.queue.mem[p]?).map (fun it => it.key == k) = some true := key_at hc hp
  have hxk : (x.key == k) = true := (keyBEq_some hx).mp hkp
  -- a transition that keeps the entry of `k` and queues no new item of key `k`
  have keep : mapGet k c2.items = mapGet k c.items →
      (c2.queue.mem[p]?).map ttlItem.core = (c.queue.mem[p]?).map ttlItem.core →
      (∀ q ∈ c2.queue.items, (c2.queue.mem[q]?).map (fun it => it.key == k) = some true →
        q ∈ c.queue.items ∧ (c.queue.mem[q]?).map (fun it => it.key == k) = some true) →
      (Sole c2 k ∧ mapGet k c2.items = some p ∧
        ∃ it, c2.queue.mem[p]? = some it ∧ it.value = v ∧ it.expireAt = e) := by
    intro hm hcore hq
    obtain ⟨y, hy, -, hyv, hye⟩ := core_fields hcore hx
    refine ⟨?_, hm ▸ hp, y, hy, hyv.trans hxv, hye.trans hxe⟩
    intro q hq2 hqk
    obtain ⟨h1, h2⟩ := hq q hq2 hqk
    rw [hm]; exact hsole q h1 h2
  -- the removal of an item other than the one at `p`
  have hrem : ∀ (a : Nat) (it : ttlItem K V) (reason : EvictReason),
      Removal c c2 a it reason → a ≠ p →
      (Sole c2 k ∧ mapGet k c2.items = some p ∧
        ∃ it, c2.queue.mem[p]? = some it ∧ it.value = v ∧ it.expireAt = e) := by
    intro a it reason r hap
    have hk : (it.key == k) = false := by
      cases hk : it.key == k with
      | false => rfl
      | true =>
        have := hsole a r.queued (by rw [r.item]; simp [hk])
        rw [hp] at this
        exact absurd (Option.some.inj this).symm hap
    refine keep (by rw [r.items]; exact mapGet_mapDelete_ne hk) (r.core p) ?_
    intro q hq2 hqk
    exact ⟨((r.mem_iff q).mp hq2).1, (keyBEq_of_core k (r.core q)) ▸ hqk⟩
  cases h with
  | refresh key a hne r =>
    left
    have hpa : p ≠ a := by
      rintro rfl
      have h3 := key_clash (key_at hc r.held) hkp
      rw [hne] at h3
      cases h3
    refine keep (by rw [r.items]) (r.other p hpa) ?_
    intro q hq2 hqk
    have hqa : q ≠ a := by
      rintro rfl
      have h3 := key_clash r.key_eq hqk
      rw [hne] at h3
      cases h3
    exact ⟨(r.mem_iff q).mp hq2, (keyBEq_of_core k (r.other q hqa)) ▸ hqk⟩
  | evict a it _ r =>
    by_cases hap : a = p
    · right
      subst hap
      have hit := r.item
      rw [hx] at hit; cases hit
      refine ⟨(x.key, x.value, OutOfCapacity), ?_, hxk, rfl⟩
      rw [r.calls, List.drop_append_of_le_length hn]
      exact List.mem_append_right _ (List.mem_singleton_self _)
    · exact Or.inl (hrem a it _ r hap)
  | expire a it _ hexp r =>
    have hap : a ≠ p := by
      rintro rfl
      have hit := r.item
      rw [hx] at hit; cases hit
      simp only [ttlItem.expired, decide_eq_true_eq] at hexp
      rw [hxe] at hexp
      exact absurd hexp (not_lt.mpr hnow)
    exact Or.inl (hrem a it _ r hap)
  | remove a it hk _ r =>
    have hap : a ≠ p := by
      rintro rfl
      have hit := r.item
      rw [hx] at hit; cases hit
      rw [hxk] at hk
      cases hk
    exact Or.inl (hrem a it _ r hap)
  | insert key value hne r =>
    left
    have hpl : p < c.queue.mem.length := (List.getElem?_eq_some.mp hx).1
    refine keep (by rw [r.items]; exact mapGet_mapSet_ne hne) (r.old p hpl) ?_
    intro q hq2 hqk
    rcases (r.mem_iff q).mp hq2 with hq | rfl
    · obtain ⟨i, hi⟩ := List.mem_iff_getElem?.mp hq
      obtain ⟨y, hy, -⟩ := hc.qwf i q hi
      exact ⟨hq, (keyBEq_of_core k (r.old q (List.getElem?_eq_some.mp hy).1)) ▸ hqk⟩
    · exfalso
      obtain ⟨y, hy, hyc⟩ := core_some_of r.new
      have hyk : y.key = key := congrArg Prod.fst hyc
      rw [keyBEq_some hy, hyk, hne] at hqk
      cases hqk

theorem Set_result (c c1 : cache K V) (now : Time) (k : K) (v : V) (hc : CWF c)
    (hs : (k == k) = true) (h : c.Set now k v = .ok c1) :
    ∃ p it, mapGet k c1.items = some p ∧ c1.queue.mem[p]? = some it ∧ it.value = v ∧
      it.expireAt = now + c.ttl := by
  rcases getItem_cases c now k hc with ⟨hg, -⟩ | ⟨p, it, q2, hk, hit, he, -, -, -⟩
  · rw [Set_fresh c now k v hg] at h
    cases h1 : c.evictIfFull with
    | error e => simp [bind, Except.bind, h1] at h
    | ok c2 =>
      have hc2 := evictIfFull_cwf c c2 hc h1
      have httl : c2.ttl = c.ttl := by
        rcases evictIfFull_prim c c2 hc h1 with rfl | ⟨a, it, -, r⟩
        · rfl
        · exact r.ttl
      obtain ⟨c3, h3, i3⟩ := insertNew_insertion c2 now k v hc2
      simp only [bind, Except.bind, h1, h3] at h
      cases h
      obtain ⟨y, hy, hyc⟩ := core_some_of i3.new
      refine ⟨c2.queue.mem.length, y, by rw [i3.items]; exact mapGet_mapSet_self hs, hy, ?_, ?_⟩
      · exact congrArg (fun x : K × V × Duration × Time × Time => x.2.1) hyc
      · rw [← httl]
        exact congrArg (fun x : K × V × Duration × Time × Time => x.2.2.2.2) hyc
  · obtain ⟨q3, h3, u3, hw⟩ := Set_live c now k v p it hc hk hit he
    rw [h3] at h; cases h
    obtain ⟨y, hy, hyc⟩ := core_some_of u3.self
    rw [core_eq_iff] at hyc
    simp only [ttlItem.touch] at hyc
    exact ⟨p, y, hk, hy, hyc.2.1, by rw [hyc.2.2.2.2, hc.ttl_eq p it hit]⟩

theorem Get_miss (c : cache K V) (k : K) (now : Time)
    (h : mapGet k c.items = none ∨
      ∃ p it, mapGet k c.items = some p ∧ c.queue.mem[p]? = some it ∧ it.expired now = true) :
    c.Get now k = .ok (c, none, false) := by
  have hg : c.getItem now k = .ok (c, none) := by
    rcases h with h | ⟨p, it, hp, hit, he⟩
    · exact getItem_absent c now k h
    · exact getItem_expired c now k p it hp hit he
  simp only [cache.Get, bind, Except.bind, hg, pure, Except.pure]

theorem Set_config (c c2 : cache K V) (now : Time) (key : K) (value : V) (hc : CWF c)
    (h : c.Set now key value = .ok c2) : c2.ttl = c.ttl ∧ c2.capacity = c.capacity := by
  rcases getItem_cases c now key hc with ⟨hg, -⟩ | ⟨p, it, q2, hk, hit, he, -, -, -⟩
  · rw [Set_fresh c now key value hg] at h
    cases h1 : c.evictIfFull with
    | error e => simp [bind, Except.bind, h1] at h
    | ok c1 =>
      have hc1 := evictIfFull_cwf c c1 hc h1
      obtain ⟨c3, h3, i3⟩ := insertNew_insertion c1 now key value hc1
      simp only [bind, Except.bind, h1, h3] at h
      cases h
      rcases evictIfFull_prim c c1 hc h1 with rfl | ⟨a, it, -, r⟩
      · exact ⟨i3.ttl, i3.capacity⟩
      · exact ⟨i3.ttl.trans r.ttl, i3.capacity.trans r.capacity⟩
  · obtain ⟨q3, h3, -, -⟩ := Set_live c now key value p it hc hk hit he
    rw [h3] at h; cases h
    exact ⟨rfl, rfl⟩

theorem Get_config (c c2 : cache K V) (now : Time) (key : K) (r : Option V × Bool) (hc : CWF c)
    (h : c.Get now key = .ok (c2, r)) : c2.ttl = c.ttl ∧ c2.capacity = c.capacity := by
  rcases getItem_prim c now key hc with hg | ⟨c3, a, hg, hr⟩
  · simp only [cache.Get, bind, Except.bind, hg, pure, Except.pure] at h
    cases h; exact ⟨rfl, rfl⟩
  · obtain ⟨-, x, hx, -⟩ := hr.wf.found (hr.items ▸ hr.held)
    simp only [cache.Get, bind, Except.bind, hg, load, hx, pure, Except.pure] at h
    cases h
    exact ⟨hr.ttl, hr.capacity⟩

theorem Remove_config (c c2 : cache K V) (key : K) (hc : CWF c)
    (h : c.Remove key = .ok c2) : c2.ttl = c.ttl ∧ c2.capacity = c.capacity := by
  unfold cache.Remove at h
  cases hk : mapGet key c.items with
  | none => rw [hk] at h; cases h; exact ⟨rfl, rfl⟩
  | some p =>
    rw [hk] at h
    dsimp only at h
    obtain ⟨c3, it, h3, r3⟩ := removeItem_removal c p Removed hc
      (hc.found hk).1
    rw [h3] at h; cases h
    exact ⟨r3.ttl, r3.capacity⟩

theorem cleanupLoop_config (now : Time) : ∀ (fuel : Nat) (c c2 : cache K V), CWF c →
    cache.cleanupLoop fuel c now = .ok c2 → c2.ttl = c.ttl ∧ c2.capacity = c.capacity := by
  intro fuel
  induction fuel with
  | zero => intro c c2 _ h; cases h
  | succ fuel ih =>
    intro c c2 hc h
    unfold cache.cleanupLoop at h
    by_cases hl : c.queue.Len > 0
    · rw [if_pos hl] at h
      cases hidx : index c.queue.items 0 with
      | error e => simp [bind, Except.bind, hidx] at h
      | ok head =>
        have h0 := index_zero_mem hidx
        obtain ⟨it, hit, -⟩ := hc.qwf 0 head h0
        cases he : it.expired now with
        | false =>
          simp [bind, Except.bind, hidx, load, hit, he] at h
          cases h; exact ⟨rfl, rfl⟩
        | true =>
          obtain ⟨c3, it3, h3, r3⟩ := removeItem_removal c head Expired hc (List.getElem?_mem h0)
          simp only [bind, Except.bind, hidx, load, hit, he, h3, if_true] at h
          obtain ⟨e1, e2⟩ := ih c3 c2 r3.wf h
          exact ⟨e1.trans r3.ttl, e2.trans r3.capacity⟩
    · rw [if_neg hl] at h
      cases h; exact ⟨rfl, rfl⟩

theorem step_config (c c2 : cache K V) (now : Time) (op : Op K V) (hc : CWF c)
    (h : c.step now op = .ok c2) : c2.ttl = c.ttl ∧ c2.capacity = c.capacity := by
  cases op with
  | Set key value => exact Set_config c c2 now key value hc h
  | Get key =>
    simp only [cache.step, bind, Except.bind] at h
    cases hg : c.Get now key with
    | error e => rw [hg] at h; cases h
    | ok r =>
      rw [hg] at h
      simp only [pure, Except.pure] at h
      cases h
      exact Get_config c r.1 now key r.2 hc hg
  | Remove key => exact Remove_config c c2 key hc h
  | cleanup => exact cleanupLoop_config now _ c c2 hc h

theorem run_config : ∀ (steps : List (Time × Op K V)) (c c2 : cache K V), CWF c →
    c.run steps = .ok c2 → c2.ttl = c.ttl ∧ c2.capacity = c.capacity
  | [], c, c2, _, h => by cases h; exact ⟨rfl, rfl⟩
  | (now, op) :: rest, c, c2, hc, h => by
    simp only [cache.run, bind, Except.bind] at h
    cases hs : c.step now op with
    | error e => rw [hs] at h; cases h
    | ok c1 =>
      rw [hs] at h
      obtain ⟨e1, e2⟩ := step_config c c1 now op hc hs
      obtain ⟨e3, e4⟩ := run_config rest c1 c2 (step_cwf c c1 now op hc hs) h
      exact ⟨e3.trans e1, e4.trans e2⟩

/-- A reachable state has the TTL and the capacity of its configuration, negative
values replaced by 0. -/
theorem reachable_config (cfg : Config) (c : cache K V) (h : Reachable cfg c) :
    c.ttl = (if cfg.TTL < 0 then 0 else cfg.TTL) ∧
    c.capacity = (if cfg.Capacity < 0 then 0 else cfg.Capacity) := by
  obtain ⟨c0, steps, h0, -, hr⟩ := h
  obtain ⟨e1, e2⟩ := run_config steps c0 c (NewCache_cwf cfg c0 h0) hr
  rw [NewCache_eq] at h0
  cases h0
  exact ⟨e1, e2⟩

end TransitionLemmas

/-! ### The keys of the concrete runs: `==` is symmetric and transitive -/

section KeyLemmas

theorem Key.eq_symm : ∀ {a b : Key}, Key.eq a b = true → Key.eq b a = true
  | .num a, .num b, h => by
    have hab : a = b := by simpa [Key.eq] using h
    subst hab
    exact h
  | .num _, .nan, h => by cases h
  | .nan, .num _, h => by cases h
  | .nan, .nan, h => by cases h

theorem Key.eq_trans : ∀ {a b c : Key}, Key.eq a b = true → Key.eq b c = true →
    Key.eq a c = true
  | .num a, .num b, .num c, h1, h2 => by
    have hab : a = b := by simpa [Key.eq] using h1
    subst hab
    exact h2
  | .num _, .num _, .nan, _, h2 => by cases h2
  | .num _, .nan, _, h1, _ => by cases h1
  | .nan, .num _, _, h1, _ => by cases h1
  | .nan, .nan, _, h1, _ => by cases h1

instance instPartialEquivBEqKey : PartialEquivBEq Key :=
  ⟨fun h => Key.eq_symm h, fun h1 h2 => Key.eq_trans h1 h2⟩

end KeyLemmas

/-! ### Properties of the cache -/

section Claims

variable {K V : Type} [BEq K] [PartialEquivBEq K]

theorem reachable_of_runNew (cfg : Config) (steps : List (Time × Op K V)) (c : cache K V)
    (hn : nonDecreasing steps = true) (h : runNew K V cfg steps = .ok c) : Reachable cfg c := by
  unfold runNew at h
  cases h0 : NewCache K V cfg with
  | error e => simp [h0, bind, Except.bind] at h
  | ok c0 =>
    simp only [h0, bind, Except.bind] at h
    exact ⟨c0, steps, h0, hn, h⟩

theorem itemOf_some {c : cache K V} {key : K} {it : ttlItem K V} (h : c.itemOf key = some it) :
    ∃ p, mapGet key c.items = some p ∧ c.queue.mem[p]? = some it := by
  unfold cache.itemOf at h
  cases hk : mapGet key c.items with
  | none => rw [hk] at h; cases h
  | some p => rw [hk] at h; exact ⟨p, rfl, h⟩

theorem Get_live (c : cache K V) (now : Time) (key : K) (p : Nat) (it : ttlItem K V)
    (hc : CWF c) (hk : mapGet key c.items = some p) (hit : c.queue.mem[p]? = some it)
    (he : it.expired now = false) :
    ∃ q2, c.Get now key = .ok ({ c with queue := q2 }, some it.value, true) ∧
      Upd c.queue q2 p (it.touch now) ∧ CWF { c with queue := q2 } := by
  obtain ⟨q2, h2, u2, c2⟩ := getItem_live c now key p it hc hk hit he
  obtain ⟨it1, hit1, hc1⟩ := core_some_of u2.self
  rw [core_eq_iff] at hc1
  refine ⟨q2, ?_, u2, c2⟩
  simp only [cache.Get, bind, Except.bind, h2, load, hit1, pure, Except.pure]
  rw [hc1.2.1]; rfl

/-- After the item at `p` was rewritten to `it2`, a `Get` of its key at an
instant not after `it2.expireAt` finds `it2.value`. -/
theorem Get_after_Upd (c : cache K V) (q2 : expirationQueue K V) (key : K) (p : Nat)
    (it2 : ttlItem K V) (t : Time) (hc2 : CWF { c with queue := q2 })
    (hk : mapGet key c.items = some p) (hu : Upd c.queue q2 p it2) (ht : t ≤ it2.expireAt) :
    ∃ c3, ({ c with queue := q2 } : cache K V).Get t key = .ok (c3, some it2.value, true) := by
  obtain ⟨it1, hit1, hc1⟩ := core_some_of hu.self
  rw [core_eq_iff] at hc1
  have he : it1.expired t = false := by
    simp only [ttlItem.expired, decide_eq_false_iff_not, not_lt]
    rw [hc1.2.2.2.2]; exact ht
  obtain ⟨q3, h3, -, -⟩ := Get_live { c with queue := q2 } t key p it1 hc2 hk hit1 he
  rw [hc1.2.1] at h3
  exact ⟨_, h3⟩

theorem run_traceA : runNew Nat Nat cfg2 traceA = .ok stateA := rfl

theorem run_traceB : runNew Nat Nat cfg2 traceB = .ok stateB := rfl

theorem run_traceG : runNew Nat Nat cfg2 traceG = .ok stateG := rfl

theorem run_traceH : runNew Nat Nat cfg2 traceH = .ok stateH := rfl

theorem run_traceI : runNew Nat Nat cfg2 traceI = .ok stateI := rfl

theorem reach_stateA : Reachable cfg2 stateA :=
  reachable_of_runNew cfg2 traceA stateA rfl run_traceA

theorem reach_stateB : Reachable cfg2 stateB :=
  reachable_of_runNew cfg2 traceB stateB rfl run_traceB

theorem reach_stateG : Reachable cfg2 stateG :=
  reachable_of_runNew cfg2 traceG stateG rfl run_traceG

theorem reach_stateH : Reachable cfg2 stateH :=
  reachable_of_runNew cfg2 traceH stateH rfl run_traceH

theorem reach_stateI : Reachable cfg2 stateI :=
  reachable_of_runNew cfg2 traceI stateI rfl run_traceI

/-- C1, evaluated on the code.  Key 1 is set at 0 with TTL 10 and set again at
20, after it expired and before the scheduler ran: the state reached has one
key in the map and two items in the queue; draining the queue yields key 1
twice, and the map and the queue do not hold the same items. -/
theorem C1_set_on_expired_key_breaks_correspondence :
    runNew Nat Nat cfg2 [(0, .Set 1 7), (20, .Set 1 8)] = .ok stateG ∧
    Reachable cfg2 stateG ∧
    stateG.items.map Prod.fst = [1] ∧
    stateG.drainKeys = .ok [1, 1] ∧
    ¬ Corresponds stateG := by
  refine ⟨run_traceG, reach_stateG, rfl, rfl, ?_⟩
  unfold Corresponds
  decide

/-- C2, evaluated on the code.  With capacity 2, after key 1 was set at 0 and
again at 20 (expired, not yet reaped) and keys 2, 3 and 4 were set at 21, 22
and 23, `Count()` is 3. -/
theorem C2_count_exceeds_capacity :
    runNew Nat Nat cfg2
      [(0, .Set 1 7), (20, .Set 1 8), (21, .Set 2 9), (22, .Set 3 10), (23, .Set 4 11)]
      = .ok stateI ∧
    Reachable cfg2 stateI ∧ stateI.capacity = 2 ∧ stateI.Count = 3 := by
  exact ⟨run_traceI, reach_stateI, rfl, rfl⟩

/-- C3 as stated fails at `t = T + D`: key 1 is set at `T = 0` with TTL
`D = 10`, and `Get` at 10 finds it. -/
theorem C3_found_at_deadline :
    runNew Nat Nat cfg2 [(0, .Set 1 7)] = .ok stateA ∧
    (stateA.Get 10 1).map Prod.snd = .ok (some 7, true) := by
  exact ⟨run_traceA, rfl⟩

/-- C3, amended.  Let `Set(k, v)` return at the instant `T` in a reachable
state, and let steps that name no key `==` to `k` follow, none of them after
the instant `t`.  A `Get(k)` at `t` then returns `(nil, false)` when
`T + ttl < t`.  When `t ≤ T + ttl` it returns `(v, true)`, provided that `k` is
`==` to itself (a float NaN is not, and is never found), that no item with a
key `==` to `k` other than the one in the map was queued when `Set` returned,
and that the callback was not invoked for such a key with reason
`OutOfCapacity` since. -/
theorem C3_ttl_correctness (cfg : Config) (c0 c1 c2 : cache K V) (k : K) (v : V) (T t : Time)
    (steps : List (Time × Op K V)) (hr : Reachable cfg c0) (hset : c0.Set T k v = .ok c1)
    (hrun : c1.run steps = .ok c2)
    (hquiet : ∀ s ∈ steps, s.2.avoids k = true ∧ s.1 ≤ t) :
    (T + c0.ttl < t → c2.Get t k = .ok (c2, none, false)) ∧
    (t ≤ T + c0.ttl → (k == k) = true → Sole c1 k → ¬ EvictedFor c2 k c1.calls.length →
      ∃ c3, c2.Get t k = .ok (c3, some v, true)) := by
  have hc0 := reachable_cwf cfg c0 hr
  have hc1 := Set_cwf c0 c1 T k v hc0 hset
  constructor
  · intro ht
    cases hs : k == k with
    | false => exact Get_miss c2 k t (Or.inl (mapGet_none_of_not_self hs))
    | true =>
      obtain ⟨p, it, hp, hit, hv, he⟩ := Set_result c0 c1 T k v hc0 hs hset
      obtain ⟨-, hd⟩ := run_induction (k := k) (P := fun _ => True)
        (I := DeadlineOf k (T + c0.ttl))
        (fun now c c2 _ hc hi hprim => DeadlineOf_prim k _ now c c2 hc hi hprim)
        steps c1 c2 hc1 (Or.inr ⟨p, it, hp, hit, he⟩) (fun s hs => ⟨(hquiet s hs).1, trivial⟩) hrun
      apply Get_miss
      rcases hd with hd | ⟨q, y, hq, hy, hye⟩
      · exact Or.inl hd
      · refine Or.inr ⟨q, y, hq, hy, ?_⟩
        simp only [ttlItem.expired, decide_eq_true_eq]
        rw [hye]; exact ht
  · intro ht hs hsole hnev
    obtain ⟨p, it, hp, hit, hv, he⟩ := Set_result c0 c1 T k v hc0 hs hset
    obtain ⟨hc2, -, hk⟩ := run_induction (k := k) (P := fun now => now ≤ T + c0.ttl)
      (I := Kept k p v (T + c0.ttl) c1.calls.length)
      (fun now c c2 hnow hc hi hprim => Kept_prim k p v _ _ now c c2 hnow hc hi hprim)
      steps c1 c2 hc1 ⟨le_refl _, Or.inl ⟨hsole, hp, it, hit, hv, he⟩⟩
      (fun s hs => ⟨(hquiet s hs).1, le_trans (hquiet s hs).2 ht⟩) hrun
    rcases hk with ⟨-, hq, y, hy, hyv, hye⟩ | hev
    · have hlive : y.expired t = false := by
        simp only [ttlItem.expired, decide_eq_false_iff_not, not_lt]
        rw [hye]; exact ht
      obtain ⟨q2, h2, -, -⟩ := Get_live c2 t k p y hc2 hq hy hlive
      rw [hyv] at h2
      exact ⟨_, h2⟩
    · exact absurd hev hnev

/-- C3 at a concrete run: key 2 is set at 1 with TTL 10, key 1 is read at 3 and
the scheduler cleans up at 4; `Get(2)` at 11 finds the value, and at 12 it does
not.  A key that is not `==` to itself is not found right after `Set`. -/
theorem C3_ttl_correctness_witness :
    Reachable cfg2 stateA ∧ stateA.Set 1 2 8 = .ok stateB ∧
    stateB.run [(3, .Get 1), (4, .cleanup)] = .ok stateC ∧
    (∀ s ∈ [((3 : Time), (Op.Get 1 : Op Nat Nat)), (4, .cleanup)],
      s.2.avoids 2 = true ∧ s.1 ≤ 11) ∧
    ((2 : Nat) == 2) = true ∧
    Sole stateB 2 ∧ ¬ EvictedFor stateC 2 stateB.calls.length ∧
    (∃ c3, stateC.Get 11 2 = .ok (c3, some 8, true)) ∧
    stateC.Get 12 2 = .ok (stateC, none, false) ∧
    (runNew Key Nat cfg2 [(0, .Set .nan 7)]).bind (fun c => (c.Get 0 .nan).map Prod.snd)
      = .ok (none, false) :=
  ⟨reach_stateA, rfl, rfl, by decide, rfl, by unfold Sole; decide,
    by unfold EvictedFor; decide,
    (C3_ttl_correctness cfg2 stateA stateB stateC 2 8 1 11 [(3, .Get 1), (4, .cleanup)]
      reach_stateA rfl rfl (by decide)).2 (by decide) rfl (by unfold Sole; decide)
      (by unfold EvictedFor; decide),
    (C3_ttl_correctness cfg2 stateA stateB stateC 2 8 1 12 [(3, .Get 1), (4, .cleanup)]
      reach_stateA rfl rfl (by decide)).1 (by decide),
    rfl⟩

/-- Without the proviso of C3 on queued items of the same key: key 1 is set at
20 with TTL 10 while its expired item of time 0 is still queued; the cleanup
at 25 reaps that old item and deletes key 1 from the map, so `Get(1)` at 25
does not find the value set at 20. -/
theorem stale_item_takes_live_key_along :
    runNew Nat Nat cfg2 [(0, .Set 1 7), (20, .Set 1 8), (25, .cleanup)] = .ok stateGC ∧
    stateGC.calls = [(1, 7, Expired)] ∧
    stateGC.Get 25 1 = .ok (stateGC, none, false) :=
  ⟨rfl, rfl, rfl⟩

/-- C4.  In a reachable state, let `it` be the item of key `k`, not expired at
`now`.  `Get(k)` at `now` succeeds, and so does `Set(k, v)`; each leaves the
item of `k` with `expireAt = now + ttl` and its `createAt` unchanged, whatever
`createAt` is, and a `Get(k)` at any instant before `now + ttl` then finds it. -/
theorem C4_sliding_refresh (cfg : Config) (c : cache K V) (k : K) (v : V) (now : Time)
    (it : ttlItem K V) (hr : Reachable cfg c) (hk : c.itemOf k = some it)
    (hl : it.expired now = false) :
    (∃ c1 it1, c.Get now k = .ok (c1, some it.value, true) ∧ c1.itemOf k = some it1 ∧
      it1.expireAt = now + c.ttl ∧ it1.createAt = it.createAt ∧
      ∀ t : Time, t < now + c.ttl → ∃ c2, c1.Get t k = .ok (c2, some it.value, true)) ∧
    (∃ c1 it1, c.Set now k v = .ok c1 ∧ c1.itemOf k = some it1 ∧
      it1.expireAt = now + c.ttl ∧ it1.createAt = it.createAt ∧
      ∀ t : Time, t < now + c.ttl → ∃ c2, c1.Get t k = .ok (c2, some v, true)) := by
  have hc := reachable_cwf cfg c hr
  obtain ⟨p, hp, hit⟩ := itemOf_some hk
  have httl := hc.ttl_eq p it hit
  constructor
  · obtain ⟨q2, h2, u2, c2⟩ := Get_live c now k p it hc hp hit hl
    obtain ⟨it1, hit1, hc1⟩ := core_some_of u2.self
    rw [core_eq_iff] at hc1
    simp only [ttlItem.touch] at hc1
    refine ⟨_, it1, h2, ?_, by rw [hc1.2.2.2.2, httl], hc1.2.2.2.1, ?_⟩
    · simp only [cache.itemOf, hp]; exact hit1
    · intro t ht
      exact Get_after_Upd c q2 k p (it.touch now) t c2 hp u2
        (by simp only [ttlItem.touch]; rw [httl]; exact le_of_lt ht)
  · obtain ⟨q2, h2, u2, c2⟩ := Set_live c now k v p it hc hp hit hl
    obtain ⟨it1, hit1, hc1⟩ := core_some_of u2.self
    rw [core_eq_iff] at hc1
    simp only [ttlItem.touch] at hc1
    refine ⟨_, it1, h2, ?_, by rw [hc1.2.2.2.2, httl], hc1.2.2.2.1, ?_⟩
    · simp only [cache.itemOf, hp]; exact hit1
    · intro t ht
      exact Get_after_Upd c q2 k p (({ it with value := v } : ttlItem K V).touch now) t c2 hp u2
        (by simp only [ttlItem.touch]; rw [httl]; exact le_of_lt ht)

/-- C4 at a concrete state: keys 1 and 2 set at 0 and 1, key 1 refreshed at 5. -/
theorem C4_sliding_refresh_witness :
    Reachable cfg2 stateB ∧ stateB.itemOf 1 = some (mkItem 1 7 0 10 0) ∧
    (mkItem 1 7 0 10 0).expired 5 = false ∧
    ((∃ c1 it1, stateB.Get 5 1 = .ok (c1, some (mkItem 1 7 0 10 0).value, true) ∧
      c1.itemOf 1 = some it1 ∧
      it1.expireAt = 5 + stateB.ttl ∧ it1.createAt = (mkItem 1 7 0 10 0).createAt ∧
      ∀ t : Time, t < 5 + stateB.ttl →
        ∃ c2, c1.Get t 1 = .ok (c2, some (mkItem 1 7 0 10 0).value, true)) ∧
    (∃ c1 it1, stateB.Set 5 1 9 = .ok c1 ∧ c1.itemOf 1 = some it1 ∧
      it1.expireAt = 5 + stateB.ttl ∧ it1.createAt = (mkItem 1 7 0 10 0).createAt ∧
      ∀ t : Time, t < 5 + stateB.ttl → ∃ c2, c1.Get t 1 = .ok (c2, some 9, true))) :=
  ⟨reach_stateB, rfl, rfl,
    C4_sliding_refresh cfg2 stateB 1 9 5 (mkItem 1 7 0 10 0) reach_stateB rfl rfl⟩

/-- C5, evaluated on the code.  In the reachable state `stateH` the capacity is
2, `Count()` is 2 and key 4 is not in the map.  `Set(4, 11)` evicts the queue
root, an item of key 1 that the map does not hold, and afterwards `Count()`
is 3. -/
theorem C5_eviction_leaves_count_above_capacity :
    runNew Nat Nat cfg2 [(0, .Set 1 7), (20, .Set 1 8), (21, .Set 2 9), (22, .Set 3 10)]
      = .ok stateH ∧
    Reachable cfg2 stateH ∧ stateH.capacity = 2 ∧ stateH.Count = 2 ∧
    mapGet 4 stateH.items = none ∧ mapGet 1 stateH.items = none ∧
    stateH.Set 23 4 11 = .ok stateI ∧
    stateI.calls = stateH.calls ++ [(1, 8, OutOfCapacity)] ∧
    stateI.Count = 3 := by
  exact ⟨run_traceH, reach_stateH, rfl, rfl, rfl, rfl, rfl, rfl, rfl⟩

/-- C6, evaluated on the code.  On the cache that `NewCache` builds from a
capacity that is zero or negative, every `Set` fails with an index out of
range: the map is at capacity and the queue has no root. -/
theorem C6_set_panics_at_capacity_zero (cfg : Config) (now : Time) (k : K) (v : V)
    (hcap : cfg.Capacity ≤ 0) :
    runNew K V cfg [(now, .Set k v)] = .error .indexOutOfRange := by
  have h0 : (if cfg.Capacity < 0 then 0 else cfg.Capacity) = 0 := by
    by_cases h : cfg.Capacity < 0
    · rw [if_pos h]
    · rw [if_neg h]; omega
  simp only [runNew, NewCache_eq, bind, Except.bind, cache.run, cache.step, cache.Set,
    cache.getItem, mapGet, h0]
  rfl

/-- C6 at capacity 0 and at capacity -1. -/
theorem C6_set_panics_at_capacity_zero_witness :
    ((0 : Int) ≤ 0 ∧
      runNew Nat Nat { Capacity := 0, TTL := 10 } [(0, .Set 1 7)] = .error .indexOutOfRange) ∧
    ((-1 : Int) ≤ 0 ∧
      runNew Nat Nat { Capacity := -1, TTL := 10 } [(0, .Set 1 7)] = .error .indexOutOfRange) :=
  ⟨⟨by decide, C6_set_panics_at_capacity_zero { Capacity := 0, TTL := 10 } 0 1 7 (by decide)⟩,
   ⟨by decide, C6_set_panics_at_capacity_zero { Capacity := -1, TTL := 10 } 0 1 7 (by decide)⟩⟩

/-- C7.  In a reachable state, let `p` be the address the map holds for `k`
and `it` the item there, not expired at `now`.  `Set(k, v)` at `now` succeeds,
invokes no callback, leaves the map (hence the keys and `Count()`) as it was,
changes nothing but `queueIndex` in any other item, and a `Get(k)` that follows
at an instant up to `now + ttl` returns `(v, true)`. -/
theorem C7_set_on_live_key_is_update (cfg : Config) (c : cache K V) (k : K) (v : V)
    (now : Time) (p : Nat) (it : ttlItem K V) (hr : Reachable cfg c)
    (hk : mapGet k c.items = some p) (hit : c.queue.mem[p]? = some it)
    (hl : it.expired now = false) :
    ∃ c1, c.Set now k v = .ok c1 ∧ c1.calls = c.calls ∧ c1.items = c.items ∧
      c1.Count = c.Count ∧
      (∀ a : Nat, a ≠ p →
        (c1.queue.mem[a]?).map ttlItem.core = (c.queue.mem[a]?).map ttlItem.core) ∧
      (∀ t : Time, t ≤ now + c.ttl → ∃ c2, c1.Get t k = .ok (c2, some v, true)) := by
  have hc := reachable_cwf cfg c hr
  have httl := hc.ttl_eq p it hit
  obtain ⟨q2, h2, u2, c2⟩ := Set_live c now k v p it hc hk hit hl
  refine ⟨_, h2, rfl, rfl, rfl, u2.other, ?_⟩
  intro t ht
  exact Get_after_Upd c q2 k p (({ it with value := v } : ttlItem K V).touch now) t c2 hk u2
    (by simp only [ttlItem.touch]; rw [httl]; exact ht)

/-- C7 at a concrete state: keys 1 and 2 set at 0 and 1, key 1 set again at 5. -/
theorem C7_set_on_live_key_is_update_witness :
    Reachable cfg2 stateB ∧ mapGet 1 stateB.items = some 0 ∧
    stateB.queue.mem[0]? = some (mkItem 1 7 0 10 0) ∧ (mkItem 1 7 0 10 0).expired 5 = false ∧
    ∃ c1, stateB.Set 5 1 9 = .ok c1 ∧ c1.calls = stateB.calls ∧ c1.items = stateB.items ∧
      c1.Count = stateB.Count ∧
      (∀ a : Nat, a ≠ 0 →
        (c1.queue.mem[a]?).map ttlItem.core = (stateB.queue.mem[a]?).map ttlItem.core) ∧
      (∀ t : Time, t ≤ 5 + stateB.ttl → ∃ c2, c1.Get t 1 = .ok (c2, some 9, true)) :=
  ⟨reach_stateB, rfl, rfl, rfl,
    C7_set_on_live_key_is_update cfg2 stateB 1 9 5 0 (mkItem 1 7 0 10 0) reach_stateB rfl rfl rfl⟩

/-- C10, evaluated on the code.  In the reachable state `stateG` the map holds
key 1 with value 8.  `Remove(1)` invokes the callback once, with
`(1, 8, Removed)`, and empties the map, but the queue still holds an item of
key 1, for which the next cleanup invokes the callback with reason `Expired`. -/
theorem C10_remove_leaves_item_of_key_queued :
    Reachable cfg2 stateG ∧
    stateG.itemOf 1 = some (mkItem 1 8 20 30 1) ∧
    stateG.Remove 1 = .ok stateGR ∧
    stateGR.calls = stateG.calls ++ [(1, 8, Removed)] ∧
    stateGR.Count = 0 ∧
    stateGR.queue.items = [0] ∧
    (stateGR.queue.mem[0]?).map ttlItem.key = some 1 ∧
    (stateGR.cleanup 20).map cache.calls = .ok [(1, 8, Removed), (1, 7, Expired)] := by
  exact ⟨reach_stateG, rfl, rfl, rfl, rfl, rfl, rfl, rfl⟩

end Claims

/-! ### Properties of the queue -/

section QueueClaims

variable {K V : Type}

theorem QReach_of_pushAll (m : Mem K V) (ps : List Nat) (q : expirationQueue K V)
    (hnd : ps.Nodup) (hv : ∀ p ∈ ps, p < m.length)
    (h : ({ mem := m, items := [] } : expirationQueue K V).pushAll ps = .ok q) : QReach q := by
  have hwf : QWF ({ mem := m, items := [] } : expirationQueue K V) :=
    fun i p hi => by simp at hi
  have ho : HeapOrd 0 ({ mem := m, items := [] } : expirationQueue K V) :=
    fun c _ hcn => by omega
  obtain ⟨q2, h2, -, -, -, -, -, hq⟩ := pushAll_spec ps _ hwf ho hnd
    (fun p hp => ⟨hv p hp, by simp⟩)
  rw [h2] at h; cases h
  exact hq (QReach.new m _ (newExpirationQueue_eq m))

theorem reach_queueThree : QReach queueThree :=
  QReach_of_pushAll memThree [0, 1, 2] queueThree (by decide) (by decide) rfl

theorem reach_queueRemove : QReach queueRemove :=
  QReach_of_pushAll memRemove [0, 1, 2, 3, 4] queueRemove (by decide) (by decide) rfl

/-- C11 as stated fails when `push` is given an item that is already queued:
after `push(a)`, `push(b)`, `push(a)` the queue holds `a` at the positions 0
and 2; `a.expireAt` is then set to 30 and `update(a)` called, which leaves `a`
at position 0, above `b` at position 1, which expires at 20. -/
theorem C11_push_of_queued_item_breaks_order :
    (newExpirationQueue memTwo).bind (fun q => q.pushAll [0, 1, 0]) = .ok queueTwice ∧
    (0 : Nat) ∈ queueTwice.items ∧
    queueTwice.mem[0]? = some (mkItem 1 0 0 10 2) ∧
    ({ queueTwice with mem := queueTwice.mem.set 0 (mkItem 1 0 0 30 2) } :
      expirationQueue Nat Nat).update 0 = .ok queueBroken ∧
    (queueBroken.itemAt 0).map ttlItem.expireAt = some 30 ∧
    (queueBroken.itemAt 1).map ttlItem.expireAt = some 20 ∧
    queueBroken.keyAt 1 < queueBroken.keyAt ((1 - 1) / 2) :=
  ⟨rfl, by decide, rfl, rfl, rfl, rfl, by decide⟩

/-- C11, amended.  In every queue obtained from the empty queue by `push` of
items that are not queued, `pop`, `remove` of queued items and `update` of a
queued item right after its `expireAt` (or any field but `queueIndex`) was
assigned, the item at every position `i > 0` expires no earlier than the item
at position `(i - 1) / 2`; `root()` returns `nil` on the empty queue, and on
any other queue it returns the item at position 0, which expires no later than
any queued item. -/
theorem C11_heap_invariant (eq : expirationQueue K V) (h : QReach eq) :
    (∀ i : Nat, 0 < i → i < eq.items.length →
      ∃ a b, eq.itemAt ((i - 1) / 2) = some a ∧ eq.itemAt i = some b ∧
        a.expireAt ≤ b.expireAt) ∧
    (eq.items = [] → eq.root = none) ∧
    (eq.items ≠ [] → ∃ (r : Nat) (a : ttlItem K V), eq.root = some r ∧
      eq.items[0]? = some r ∧ eq.mem[r]? = some a ∧ eq.itemAt 0 = some a ∧
      ∀ (i : Nat) (b : ttlItem K V), eq.itemAt i = some b → a.expireAt ≤ b.expireAt) := by
  obtain ⟨hwf, ho⟩ := QReach_inv eq h
  refine ⟨?_, ?_, ?_⟩
  · intro i hi hil
    obtain ⟨a, ha, -, hka⟩ := itemAt_of_QWF hwf (i := (i - 1) / 2) (by omega)
    obtain ⟨b, hb, -, hkb⟩ := itemAt_of_QWF hwf hil
    refine ⟨a, b, ha, hb, ?_⟩
    rw [← hka, ← hkb]
    exact ho i hi hil
  · intro he
    simp [expirationQueue.root, he]
  · intro hne
    have hl : 0 < eq.items.length := List.length_pos.mpr hne
    have h0 : eq.items[0]? = some (eq.items[0]) := List.getElem?_eq_getElem hl
    obtain ⟨a, ha, -⟩ := hwf 0 _ h0
    have hroot : eq.root = some (eq.items[0]) := by
      unfold expirationQueue.root
      rw [if_neg (by omega)]
      exact h0
    refine ⟨eq.items[0], a, hroot, h0, ha, ?_, ?_⟩
    · simp only [expirationQueue.itemAt, h0]
      exact ha
    · intro i b hb
      unfold expirationQueue.itemAt at hb
      cases hi : eq.items[i]? with
      | none => rw [hi] at hb; cases hb
      | some p =>
        rw [hi] at hb
        have := root_minimal eq _ ho h0 p (List.getElem?_mem hi)
        have hka : addrKey eq.mem (eq.items[0]) = a.expireAt := by simp [addrKey, ha]
        have hkb : addrKey eq.mem p = b.expireAt := by
          have hb2 : eq.mem[p]? = some b := hb
          simp [addrKey, hb2]
        rw [hka, hkb] at this
        exact this

/-- C11 at the queue obtained by pushing items that expire at 30, 10 and 20:
`root()` returns the item that expires at 10. -/
theorem C11_heap_invariant_witness :
    QReach queueThree ∧
    ((∀ i : Nat, 0 < i → i < queueThree.items.length →
      ∃ a b, queueThree.itemAt ((i - 1) / 2) = some a ∧ queueThree.itemAt i = some b ∧
        a.expireAt ≤ b.expireAt) ∧
    (queueThree.items = [] → queueThree.root = none) ∧
    (queueThree.items ≠ [] → ∃ (r : Nat) (a : ttlItem Nat Nat), queueThree.root = some r ∧
      queueThree.items[0]? = some r ∧ queueThree.mem[r]? = some a ∧
      queueThree.itemAt 0 = some a ∧
      ∀ (i : Nat) (b : ttlItem Nat Nat), queueThree.itemAt i = some b →
        a.expireAt ≤ b.expireAt)) ∧
    queueThree.items ≠ [] ∧ queueThree.root = some 1 ∧
    (queueThree.itemAt 0).map ttlItem.expireAt = some 10 :=
  ⟨reach_queueThree, C11_heap_invariant queueThree reach_queueThree, by decide, rfl, rfl⟩

/-- C12.  Let the items at the distinct addresses `ps` be pushed, in the order
of the list, onto the empty queue.  Calling `pop` until it returns `nil`
returns every one of these addresses exactly once, in non-decreasing order of
`expireAt`, and on the queue that is left `pop` returns `nil`. -/
theorem C12_pop_order (m : Mem K V) (ps : List Nat) (hnd : ps.Nodup)
    (hv : ∀ p ∈ ps, p < m.length) :
    ∃ q0 q out final, newExpirationQueue m = .ok q0 ∧ q0.pushAll ps = .ok q ∧
      q.popAll (q.items.length + 1) = .ok (out, final) ∧
      out.Perm ps ∧ out.Pairwise (fun a b => addrKey m a ≤ addrKey m b) ∧
      final.pop = .ok (final, none) := by
  have hwf : QWF ({ mem := m, items := [] } : expirationQueue K V) :=
    fun i p hi => by simp at hi
  have ho : HeapOrd 0 ({ mem := m, items := [] } : expirationQueue K V) :=
    fun c _ hcn => by omega
  obtain ⟨q, h2, w2, ho2, m2, -, k2, -⟩ := pushAll_spec ps _ hwf ho hnd
    (fun p hp => ⟨hv p hp, by simp⟩)
  obtain ⟨out, final, hp, -, hfin, hperm, hsort, -⟩ := popAll_spec (q.items.length + 1) q w2 ho2
    (by omega)
  refine ⟨_, q, out, final, newExpirationQueue_eq m, h2, hp, ?_, ?_, pop_empty final hfin⟩
  · refine hperm.trans ?_
    rw [List.perm_ext_iff_of_nodup w2.nodup hnd]
    intro a
    rw [m2]; simp
  · exact hsort.imp (fun {a b} h => by rw [k2 a, k2 b] at h; exact h)

/-- C12 at the items of `TestExpirationQueueCheckOrder_CaseTest`: pushed with
TTL 10 down to 1, they are popped as key 1 up to key 10. -/
theorem C12_pop_order_witness :
    (List.range 10).Nodup ∧ (∀ p ∈ List.range 10, p < memOrder.length) ∧
    (∃ q0 q out final, newExpirationQueue memOrder = .ok q0 ∧
      q0.pushAll (List.range 10) = .ok q ∧
      q.popAll (q.items.length + 1) = .ok (out, final) ∧
      out.Perm (List.range 10) ∧
      out.Pairwise (fun a b => addrKey memOrder a ≤ addrKey memOrder b) ∧
      final.pop = .ok (final, none)) ∧
    ((({ mem := memOrder, items := [] } : expirationQueue Nat Nat).pushAll (List.range 10)).bind
      (fun q => (q.popAll 11).map (fun r => r.1.filterMap
        (fun p => (memOrder[p]?).map ttlItem.key)))) = .ok [1, 2, 3, 4, 5, 6, 7, 8, 9, 10] :=
  ⟨by decide, by decide, C12_pop_order memOrder (List.range 10) (by decide) (by decide), rfl⟩

/-- C18, evaluated on the code.  An item that `newTTLItem` returns has
`queueIndex = 0`, the index of the root, and not -1.  In `queueFresh`, which
holds one item, `remove` of such an item, never pushed, takes out the queued
item instead. -/
theorem C18_fresh_item_has_index_zero (now : Time) (key : K) (value : V) (ttl : Duration) :
    (newTTLItem now key value ttl).queueIndex = 0 ∧
    (newTTLItem now key value ttl).queueIndex ≠ -1 ∧
    (({ mem := [newTTLItem 0 1 7 10, newTTLItem 5 2 8 10], items := [] } :
      expirationQueue Nat Nat).push 0 = .ok queueFresh ∧
     (1 : Nat) ∉ queueFresh.items ∧ queueFresh.mem[1]? = some (newTTLItem 5 2 8 10) ∧
     (queueFresh.remove 1).map expirationQueue.items = .ok []) := by
  refine ⟨rfl, ?_, rfl, by decide, rfl, rfl⟩
  show (0 : Int) ≠ -1
  decide

/-- C19.  In a queue that satisfies the heap invariant and records every
position in `queueIndex`, `remove(x)` of a queued item returns, takes one off
`Len()`, and leaves the items it found without `x`, each of them once; draining
the queue that is left returns these items and not `x`. -/
theorem C19_remove_takes_out_the_item (eq : expirationQueue K V) (x : Nat) (hwf : QWF eq)
    (ho : HeapOrd eq.items.length eq) (hx : x ∈ eq.items) :
    ∃ eq2, eq.remove x = .ok eq2 ∧ eq2.Len + 1 = eq.Len ∧
      eq2.items.Perm (eq.items.erase x) ∧ eq2.items.Nodup ∧ x ∉ eq2.items ∧
      ∃ out, eq2.drain (eq2.items.length + 1) = .ok out ∧ out.Perm eq2.items ∧ x ∉ out := by
  obtain ⟨eq2, h2, f2, m2, l2, -, ho2⟩ := remove_ord eq x hwf ho hx
  have hni : x ∉ eq2.items := fun h => ((m2 x).mp h).2 rfl
  obtain ⟨out, final, -, hd, -, hperm, -, -⟩ := popAll_spec (eq2.items.length + 1) eq2 f2.wf ho2
    (by omega)
  refine ⟨eq2, h2, ?_, ?_, f2.wf.nodup, hni, out, hd, hperm, fun h => hni (hperm.mem_iff.mp h)⟩
  · simp only [expirationQueue.Len]; omega
  · rw [List.perm_ext_iff_of_nodup f2.wf.nodup (hwf.nodup.erase x)]
    intro a
    rw [m2, hwf.nodup.mem_erase_iff]
    exact ⟨fun h => ⟨h.2, h.1⟩, fun h => ⟨h.2, h.1⟩⟩

/-- C19 at the queue of `TestExpirationQueueRemove_CaseTest`, from which the
item of key 2 is removed. -/
theorem C19_remove_takes_out_the_item_witness :
    QWF queueRemove ∧ HeapOrd queueRemove.items.length queueRemove ∧ 2 ∈ queueRemove.items ∧
    (∃ eq2, queueRemove.remove 2 = .ok eq2 ∧ eq2.Len + 1 = queueRemove.Len ∧
      eq2.items.Perm (queueRemove.items.erase 2) ∧ eq2.items.Nodup ∧ 2 ∉ eq2.items ∧
      ∃ out, eq2.drain (eq2.items.length + 1) = .ok out ∧ out.Perm eq2.items ∧ 2 ∉ out) ∧
    (queueRemove.remove 2).bind (fun q => q.drain 5) = .ok [0, 1, 3, 4] :=
  ⟨(QReach_inv queueRemove reach_queueRemove).1, (QReach_inv queueRemove reach_queueRemove).2,
    by decide,
    C19_remove_takes_out_the_item queueRemove 2 (QReach_inv queueRemove reach_queueRemove).1
      (QReach_inv queueRemove reach_queueRemove).2 (by decide),
    rfl⟩

end QueueClaims

/-! ### The cache: the heap invariant holds in every reachable state -/

section CacheOrderLemmas

variable {K V : Type} [BEq K] [PartialEquivBEq K]

theorem getItem_ord (c c2 : cache K V) (now : Time) (key : K) (r : Option Nat) (hc : CWF c)
    (ho : COrd c) (h : c.getItem now key = .ok (c2, r)) : COrd c2 := by
  rcases getItem_cases c now key hc with ⟨hg, -⟩ | ⟨p, it, q2, hk, hit, he, -, -, -⟩
  · rw [hg] at h; cases h; exact ho
  · obtain ⟨hp, -⟩ := hc.found hk
    obtain ⟨q3, h3, ho3⟩ := update_after_write_ord c.queue p it (it.touch now) hc.qwf ho hp hit rfl
    simp only [cache.getItem, hk, load, hit, bind, Except.bind, he, h3, pure, Except.pure] at h
    simp at h
    obtain ⟨h, -⟩ := h
    rw [← h]
    exact ho3

theorem removeItem_ord (c c2 : cache K V) (item : Nat) (reason : EvictReason) (hc : CWF c)
    (ho : COrd c) (hm : item ∈ c.queue.items) (h : c.removeItem item reason = .ok c2) :
    COrd c2 := by
  obtain ⟨q2, h2, f2, -, -, ⟨it, hit, -⟩, ho2⟩ := remove_ord c.queue item hc.qwf ho hm
  simp only [cache.removeItem, bind, Except.bind, h2, load, hit, pure, Except.pure] at h
  cases h
  exact ho2

theorem evictIfFull_ord (c c1 : cache K V) (hc : CWF c) (ho : COrd c)
    (h : c.evictIfFull = .ok c1) : COrd c1 := by
  unfold cache.evictIfFull at h
  by_cases hcap : (c.items.length : Int) ≥ c.capacity
  · rw [if_pos hcap] at h
    cases hidx : index c.queue.items 0 with
    | error e => simp [bind, Except.bind, hidx] at h
    | ok head =>
      have hm : head ∈ c.queue.items := List.getElem?_mem (index_zero_mem hidx)
      simp only [bind, Except.bind, hidx] at h
      exact removeItem_ord c c1 head OutOfCapacity hc ho hm h
  · rw [if_neg hcap] at h
    cases h; exact ho

theorem insertNew_ord (c c2 : cache K V) (now : Time) (key : K) (value : V) (hc : CWF c)
    (ho : COrd c) (h : c.insertNew now key value = .ok c2) : COrd c2 := by
  have hnew : (c.queue.mem ++ [newTTLItem now key value c.ttl])[c.queue.mem.length]? =
      some (newTTLItem now key value c.ttl) := by
    rw [List.getElem?_append_right (le_refl _)]; simp
  have hni : c.queue.mem.length ∉ c.queue.items := by
    intro hm
    obtain ⟨i, hi⟩ := List.mem_iff_getElem?.mp hm
    obtain ⟨x, hx, -⟩ := hc.qwf i _ hi
    exact absurd (List.getElem?_eq_some.mp hx).1 (lt_irrefl _)
  obtain ⟨q2, h2, -, -, -, ho2⟩ := push_ord
    ({ c.queue with mem := c.queue.mem ++ [newTTLItem now key value c.ttl] } : expirationQueue K V)
    c.queue.mem.length _ (QWF_append c.queue _ hc.qwf)
    (HeapOrd_append c.queue _ hc.qwf _ ho) hnew hni
  have h2' : ({ c.queue with mem := (alloc c.queue.mem (newTTLItem now key value c.ttl)).1 } :
      expirationQueue K V).push (alloc c.queue.mem (newTTLItem now key value c.ttl)).2
      = .ok q2 := h2
  simp only [cache.insertNew, bind, Except.bind, h2', pure, Except.pure] at h
  cases h
  exact ho2

theorem Set_ord (c c2 : cache K V) (now : Time) (key : K) (value : V) (hc : CWF c)
    (ho : COrd c) (h : c.Set now key value = .ok c2) : COrd c2 := by
  rcases getItem_cases c now key hc with ⟨hg, -⟩ | ⟨p, it, q1, hk, hit, he, h1, u1, c1⟩
  · rw [Set_fresh c now key value hg] at h
    cases h1 : c.evictIfFull with
    | error e => simp [bind, Except.bind, h1] at h
    | ok c1 =>
      have hc1 := evictIfFull_cwf c c1 hc h1
      have ho1 := evictIfFull_ord c c1 hc ho h1
      simp only [bind, Except.bind, h1] at h
      exact insertNew_ord c1 c2 now key value hc1 ho1 h
  · have ho1 : COrd ({ c with queue := q1 } : cache K V) := getItem_ord c _ now key _ hc ho h1
    obtain ⟨it1, hit1, -⟩ := core_some_of u1.self
    have hp1 : p ∈ q1.items := (u1.mem_iff p).mpr (hc.found hk).1
    obtain ⟨q2, h2, ho2⟩ := update_after_write_ord q1 p it1
      (({ it1 with value := value } : ttlItem K V).touch now) u1.wf ho1 hp1 hit1 rfl
    simp only [cache.Set, bind, Except.bind, h1, load, hit1, pure, Except.pure] at h
    rw [h2] at h
    cases h
    exact ho2

theorem cleanupLoop_ord (now : Time) : ∀ (fuel : Nat) (c c2 : cache K V), CWF c → COrd c →
    cache.cleanupLoop fuel c now = .ok c2 → COrd c2 := by
  intro fuel
  induction fuel with
  | zero => intro c c2 _ _ h; cases h
  | succ fuel ih =>
    intro c c2 hc ho h
    unfold cache.cleanupLoop at h
    by_cases hl : c.queue.Len > 0
    · rw [if_pos hl] at h
      cases hidx : index c.queue.items 0 with
      | error e => simp [bind, Except.bind, hidx] at h
      | ok head =>
        have h0 := index_zero_mem hidx
        obtain ⟨it, hit, -⟩ := hc.qwf 0 head h0
        cases he : it.expired now with
        | false =>
          simp [bind, Except.bind, hidx, load, hit, he] at h
          cases h; exact ho
        | true =>
          obtain ⟨q2, it2, -, h2, -, -, -, hw⟩ := removeItem_spec c head Expired hc
            (List.getElem?_mem h0)
          have ho2 := removeItem_ord c _ head Expired hc ho (List.getElem?_mem h0) h2
          simp only [bind, Except.bind, hidx, load, hit, he, h2, if_true] at h
          exact ih _ c2 hw ho2 h
    · rw [if_neg hl] at h
      cases h; exact ho

theorem step_ord (c c2 : cache K V) (now : Time) (op : Op K V) (hc : CWF c) (ho : COrd c)
    (h : c.step now op = .ok c2) : COrd c2 := by
  cases op with
  | Set key value => exact Set_ord c c2 now key value hc ho h
  | Get key =>
    simp only [cache.step, bind, Except.bind] at h
    cases hg : c.Get now key with
    | error e => rw [hg] at h; cases h
    | ok r =>
      rw [hg] at h
      simp only [pure, Except.pure] at h
      cases h
      simp only [cache.Get, bind, Except.bind] at hg
      cases h1 : c.getItem now key with
      | error e => rw [h1] at hg; cases hg
      | ok g =>
        rw [h1] at hg
        have hog : COrd g.1 := getItem_ord c g.1 now key g.2 hc ho h1
        simp only at hg
        split at hg
        · simp only [pure, Except.pure] at hg
          cases hg
          exact hog
        · split at hg
          · cases hg
          · simp only [pure, Except.pure] at hg
            cases hg
            exact hog
  | Remove key =>
    simp only [cache.step, cache.Remove] at h
    cases hk : mapGet key c.items with
    | none => rw [hk] at h; cases h; exact ho
    | some p =>
      rw [hk] at h
      exact removeItem_ord c c2 p Removed hc ho (hc.found hk).1 h
  | cleanup => exact cleanupLoop_ord now _ c c2 hc ho h

theorem run_ord : ∀ (steps : List (Time × Op K V)) (c c2 : cache K V), CWF c → COrd c →
    c.run steps = .ok c2 → COrd c2
  | [], c, c2, _, ho, h => by cases h; exact ho
  | (now, op) :: rest, c, c2, hc, ho, h => by
    simp only [cache.run, bind, Except.bind] at h
    cases hs : c.step now op with
    | error e => rw [hs] at h; cases h
    | ok c1 =>
      rw [hs] at h
      exact run_ord rest c1 c2 (step_cwf c c1 now op hc hs) (step_ord c c1 now op hc ho hs) h

theorem reachable_ord (cfg : Config) (c : cache K V) (h : Reachable cfg c) : COrd c := by
  obtain ⟨c0, steps, h0, -, hr⟩ := h
  refine run_ord steps c0 c (NewCache_cwf cfg c0 h0) ?_ hr
  rw [NewCache_eq] at h0
  cases h0
  intro i _ hi
  simp at hi

/-- In every reachable state `OldestTime()` returns: the zero timestamp when
the queue is empty, and otherwise the `createAt` of the root of the queue, which
expires no later than any queued item, hence no later than any item of the
map. -/
theorem OldestTime_spec (cfg : Config) (c : cache K V) (h : Reachable cfg c) :
    (c.queue.items = [] → c.OldestTime = .ok cache.zeroTime) ∧
    (∀ r : Nat, c.queue.items[0]? = some r →
      ∃ a, c.queue.mem[r]? = some a ∧ c.OldestTime = .ok a.createAt ∧
        (∀ (p : Nat) (b : ttlItem K V), p ∈ c.queue.items → c.queue.mem[p]? = some b →
          a.expireAt ≤ b.expireAt) ∧
        (∀ (k : K) (b : ttlItem K V), c.itemOf k = some b → a.expireAt ≤ b.expireAt)) := by
  have hc := reachable_cwf cfg c h
  have ho := reachable_ord cfg c h
  constructor
  · intro he
    simp [cache.OldestTime, expirationQueue.root, expirationQueue.isEmpty, expirationQueue.Len, he]
  · intro r hr
    obtain ⟨a, ha, -⟩ := hc.qwf 0 r hr
    have hmin : ∀ (p : Nat) (b : ttlItem K V), p ∈ c.queue.items → c.queue.mem[p]? = some b →
        a.expireAt ≤ b.expireAt := by
      intro p b hp hb
      have := root_minimal c.queue r ho hr p hp
      have hka : addrKey c.queue.mem r = a.expireAt := by simp [addrKey, ha]
      have hkb : addrKey c.queue.mem p = b.expireAt := by simp [addrKey, hb]
      rw [hka, hkb] at this
      exact this
    refine ⟨a, ha, ?_, hmin, ?_⟩
    · have hne : c.queue.items ≠ [] := by
        intro he
        rw [he] at hr
        cases hr
      have hroot : c.queue.root = some r := by
        unfold expirationQueue.root
        cases hi : c.queue.items with
        | nil => exact absurd hi hne
        | cons x l =>
          rw [hi] at hr
          simp at hr
          simp [expirationQueue.isEmpty, expirationQueue.Len, hi, hr]
      simp only [cache.OldestTime, hroot, load, ha, bind, Except.bind, pure, Except.pure]
    · intro k b hb
      obtain ⟨p, hp, hpb⟩ := itemOf_some hb
      exact hmin p b (hc.found hp).1 hpb

theorem cleanupLoop_spec (now : Time) : ∀ (fuel : Nat) (c : cache K V), CWF c → COrd c →
    c.queue.items.length < fuel →
    ∃ (c2 : cache K V) (ev : List (K × V × EvictReason)),
      cache.cleanupLoop fuel c now = .ok c2 ∧ c2.calls = c.calls ++ ev ∧
      (∀ e ∈ ev, e.2.2 = Expired ∧ ∃ (p : Nat) (it : ttlItem K V), p ∈ c.queue.items ∧
        c.queue.mem[p]? = some it ∧ it.key = e.1 ∧ it.value = e.2.1 ∧ it.expireAt < now) ∧
      (∀ (p : Nat) (b : ttlItem K V), p ∈ c2.queue.items → c2.queue.mem[p]? = some b →
        b.expired now = false) := by
  intro fuel
  induction fuel with
  | zero => intro c _ _ h; omega
  | succ fuel ih =>
    intro c hc ho hf
    unfold cache.cleanupLoop
    by_cases hl : c.queue.Len > 0
    · rw [if_pos hl]
      have hl2 : 0 < c.queue.items.length := by
        simp only [expirationQueue.Len] at hl
        omega
      have h0 : c.queue.items[0]? = some (c.queue.items[0]) := List.getElem?_eq_getElem hl2
      have hidx : index c.queue.items 0 = .ok (c.queue.items[0]) := by
        simp [index, h0]
      obtain ⟨it, hit, -⟩ := hc.qwf 0 _ h0
      cases he : it.expired now with
      | false =>
        refine ⟨c, [], by simp [bind, Except.bind, hidx, load, hit, he], by simp,
          fun e h => (by cases h), ?_⟩
        intro p b hp hb
        have := root_minimal c.queue _ ho h0 p hp
        have hka : addrKey c.queue.mem (c.queue.items[0]) = it.expireAt := by simp [addrKey, hit]
        have hkb : addrKey c.queue.mem p = b.expireAt := by simp [addrKey, hb]
        rw [hka, hkb] at this
        simp only [ttlItem.expired, decide_eq_false_iff_not, not_lt] at he ⊢
        exact le_trans he this
      | true =>
        obtain ⟨q2, it2, hit2, h2, f2, m2, l2, hw⟩ := removeItem_spec c (c.queue.items[0])
          Expired hc (List.getElem?_mem h0)
        rw [hit] at hit2
        cases hit2
        have ho2 := removeItem_ord c _ _ Expired hc ho (List.getElem?_mem h0) h2
        obtain ⟨c2, ev, h3, hcalls, hev, hrest⟩ := ih _ hw ho2
          (by show q2.items.length < fuel; omega)
        refine ⟨c2, (it.key, it.value, Expired) :: ev, ?_, ?_, ?_, hrest⟩
        · simp only [bind, Except.bind, hidx, load, hit, he, h2, if_true]
          exact h3
        · rw [hcalls]
          show (c.calls ++ [(it.key, it.value, Expired)]) ++ ev = _
          simp
        · intro e hmem
          rcases List.mem_cons.mp hmem with h | h
          · subst h
            refine ⟨rfl, c.queue.items[0], it, List.getElem?_mem h0, hit, rfl, rfl, ?_⟩
            simpa [ttlItem.expired] using he
          · obtain ⟨hr, p, x, hp, hx, hk, hv, hlt⟩ := hev e h
            have hp' : p ∈ q2.items := hp
            have hx' : q2.mem[p]? = some x := hx
            have hpc : p ∈ c.queue.items := ((m2 p).mp hp').1
            obtain ⟨y, hy, -⟩ : ∃ y, c.queue.mem[p]? = some y ∧ True := by
              obtain ⟨i, hi⟩ := List.mem_iff_getElem?.mp hpc
              obtain ⟨y, hy, -⟩ := hc.qwf i p hi
              exact ⟨y, hy, trivial⟩
            obtain ⟨x2, hx2, hk2, hv2, he2⟩ := core_fields (f2.core p) hy
            rw [hx'] at hx2
            cases hx2
            exact ⟨hr, p, y, hpc, hy, by rw [← hk2]; exact hk, by rw [← hv2]; exact hv,
              by rw [← he2]; exact hlt⟩
    · rw [if_neg hl]
      refine ⟨c, [], rfl, by simp, fun e h => (by cases h), ?_⟩
      intro p b hp _
      have : c.queue.items = [] := by
        cases hi : c.queue.items with
        | nil => rfl
        | cons a l => simp [expirationQueue.Len, hi] at hl
      rw [this] at hp
      cases hp

/-- In every reachable state the cleanup at `now` returns; it invokes the
callback with reason `Expired` only, each time for a queued item with
`expireAt` before `now`; and it leaves no queued item that is expired at
`now`. -/
theorem cleanup_spec (cfg : Config) (c : cache K V) (now : Time) (h : Reachable cfg c) :
    ∃ (c2 : cache K V) (ev : List (K × V × EvictReason)),
      c.cleanup now = .ok c2 ∧ c2.calls = c.calls ++ ev ∧
      (∀ e ∈ ev, e.2.2 = Expired ∧ ∃ (p : Nat) (it : ttlItem K V), p ∈ c.queue.items ∧
        c.queue.mem[p]? = some it ∧ it.key = e.1 ∧ it.value = e.2.1 ∧ it.expireAt < now) ∧
      (∀ (p : Nat) (b : ttlItem K V), p ∈ c2.queue.items → c2.queue.mem[p]? = some b →
        b.expired now = false) :=
  cleanupLoop_spec now _ c (reachable_cwf cfg c h) (reachable_ord cfg c h) (Nat.lt_succ_self _)

end CacheOrderLemmas

/-! ### Further properties of the cache -/

section CacheClaims

variable {K V : Type} [BEq K] [PartialEquivBEq K]

theorem run_traceK : runNew Nat Nat cfg2 traceK = .ok stateK := rfl

theorem run_traceL : runNew Nat Nat cfg2 traceL = .ok stateL := rfl

theorem reach_stateK : Reachable cfg2 stateK :=
  reachable_of_runNew cfg2 traceK stateK rfl run_traceK

theorem reach_stateL : Reachable cfg2 stateL :=
  reachable_of_runNew cfg2 traceL stateL rfl run_traceL

theorem OldestTime_stateL :
    runNew Nat Nat cfg2 [(0, .Set 1 7), (1, .Set 2 8), (2, .Get 1)] = .ok stateL ∧
    stateL.itemOf 1 = some (mkItem 1 7 0 12 1) ∧ stateL.itemOf 2 = some (mkItem 2 8 1 11 0) ∧
    stateL.OldestTime = .ok 1 :=
  ⟨rfl, rfl, rfl, rfl⟩

theorem evictIfFull_ok (c : cache K V) (hc : CWF c) (hcap : 1 ≤ c.capacity)
    (hrefl : ∀ k : K, (k == k) = true) :
    ∃ c1, c.evictIfFull = .ok c1 ∧ CWF c1 ∧ c1.capacity = c.capacity := by
  unfold cache.evictIfFull
  by_cases hfull : (c.items.length : Int) ≥ c.capacity
  · rw [if_pos hfull]
    have hpos : 0 < c.items.length := by omega
    obtain ⟨e, he⟩ := List.exists_mem_of_length_pos hpos
    have hq := hc.map_in e.1 e.2 he (hrefl e.1)
    have hl : 0 < c.queue.items.length := List.length_pos_of_mem hq
    have h0 : c.queue.items[0]? = some (c.queue.items[0]) := List.getElem?_eq_getElem hl
    have hidx : index c.queue.items 0 = .ok (c.queue.items[0]) := by
      simp [index, h0]
    obtain ⟨q2, it2, -, h2, -, -, -, hw⟩ := removeItem_spec c (c.queue.items[0]) OutOfCapacity hc
      (List.getElem?_mem h0)
    exact ⟨_, by simp only [bind, Except.bind, hidx, h2], hw, rfl⟩
  · rw [if_neg hfull]
    exact ⟨c, rfl, hc, rfl⟩

theorem Set_ok (c : cache K V) (now : Time) (key : K) (value : V) (hc : CWF c)
    (hcap : 1 ≤ c.capacity) (hrefl : ∀ k : K, (k == k) = true) :
    ∃ c2, c.Set now key value = .ok c2 := by
  rcases getItem_cases c now key hc with ⟨hg, -⟩ | ⟨p, it, q2, hk, hit, he, -, -, -⟩
  · rw [Set_fresh c now key value hg]
    obtain ⟨c1, h1, hc1, -⟩ := evictIfFull_ok c hc hcap hrefl
    obtain ⟨q2, h2, -⟩ := insertNew_spec c1 now key value hc1
    rw [h1]
    exact ⟨_, h2⟩
  · obtain ⟨q3, h3, -⟩ := Set_live c now key value p it hc hk hit he
    exact ⟨_, h3⟩

theorem Get_ok (c : cache K V) (now : Time) (key : K) (hc : CWF c) :
    ∃ r, c.Get now key = .ok r := by
  rcases getItem_cases c now key hc with ⟨hg, -⟩ | ⟨p, it, q2, hk, hit, he, -, -, -⟩
  · exact ⟨(c, none, false), by simp only [cache.Get, bind, Except.bind, hg, pure, Except.pure]⟩
  · obtain ⟨q3, h3, -⟩ := Get_live c now key p it hc hk hit he
    exact ⟨_, h3⟩

theorem Remove_ok (c : cache K V) (key : K) (hc : CWF c) : ∃ c2, c.Remove key = .ok c2 := by
  unfold cache.Remove
  cases hk : mapGet key c.items with
  | none => exact ⟨c, rfl⟩
  | some p =>
    obtain ⟨q2, it2, -, h2, -⟩ := removeItem_spec c p Removed hc
      (hc.found hk).1
    exact ⟨_, h2⟩

theorem cleanupLoop_ok (now : Time) : ∀ (fuel : Nat) (c : cache K V), CWF c →
    c.queue.items.length < fuel → ∃ c2, cache.cleanupLoop fuel c now = .ok c2 := by
  intro fuel
  induction fuel with
  | zero => intro c _ h; omega
  | succ fuel ih =>
    intro c hc hf
    unfold cache.cleanupLoop
    by_cases hl : c.queue.Len > 0
    · rw [if_pos hl]
      have hl2 : 0 < c.queue.items.length := by
        simp only [expirationQueue.Len] at hl
        omega
      have h0 : c.queue.items[0]? = some (c.queue.items[0]) := List.getElem?_eq_getElem hl2
      have hidx : index c.queue.items 0 = .ok (c.queue.items[0]) := by
        simp [index, h0]
      obtain ⟨it, hit, -⟩ := hc.qwf 0 _ h0
      cases he : it.expired now with
      | false =>
        exact ⟨c, by simp [bind, Except.bind, hidx, load, hit, he]⟩
      | true =>
        obtain ⟨q2, it2, -, h2, -, -, l2, hw⟩ := removeItem_spec c (c.queue.items[0]) Expired hc
          (List.getElem?_mem h0)
        obtain ⟨c2, h3⟩ := ih _ hw (by show q2.items.length < fuel; omega)
        exact ⟨c2, by simp only [bind, Except.bind, hidx, load, hit, he, h2, if_true]; exact h3⟩
    · rw [if_neg hl]
      exact ⟨c, rfl⟩

theorem step_ok (c : cache K V) (now : Time) (op : Op K V) (hc : CWF c)
    (hcap : 1 ≤ c.capacity) (hrefl : ∀ k : K, (k == k) = true) :
    ∃ c2, c.step now op = .ok c2 := by
  cases op with
  | Set key value => exact Set_ok c now key value hc hcap hrefl
  | Get key =>
    obtain ⟨r, hr⟩ := Get_ok c now key hc
    exact ⟨r.1, by simp only [cache.step, bind, Except.bind, hr, pure, Except.pure]⟩
  | Remove key => exact Remove_ok c key hc
  | cleanup => exact cleanupLoop_ok now _ c hc (Nat.lt_succ_self _)

/-- When every key is `==` to itself: in a state reachable from `NewCache` with
a capacity of at least 1, every item the map holds is queued at the position
its `queueIndex` records; the queue has a root whenever the map is at capacity;
and `Set`, `Get`, `Remove` and the cleanup each return, at any instant. -/
theorem index_safety_of_reflexive_keys (hrefl : ∀ k : K, (k == k) = true) (cfg : Config)
    (c : cache K V) (hr : Reachable cfg c) (hcap : 1 ≤ cfg.Capacity) :
    (∀ (k : K) (p : Nat), mapGet k c.items = some p →
      ∃ it, c.queue.mem[p]? = some it ∧ (it.key == k) = true ∧
        index c.queue.items it.queueIndex = .ok p) ∧
    (∀ (k : K) (p : Nat), (k, p) ∈ c.items → p ∈ c.queue.items) ∧
    ((c.items.length : Int) ≥ c.capacity → ∃ head, index c.queue.items 0 = .ok head) ∧
    (∀ (now : Time) (op : Op K V), ∃ c2, c.step now op = .ok c2) := by
  have hc := reachable_cwf cfg c hr
  have hcap2 : 1 ≤ c.capacity := by
    rw [(reachable_config cfg c hr).2, if_neg (by omega)]
    exact hcap
  refine ⟨?_, fun k p h => hc.map_in k p h (hrefl k), ?_,
    fun now op => step_ok c now op hc hcap2 hrefl⟩
  · intro k p hk
    obtain ⟨hq, it, hit, hkey⟩ := hc.found hk
    obtain ⟨i, hi, hget⟩ := List.getElem_of_mem hq
    have hi2 : c.queue.items[i]? = some p := by rw [List.getElem?_eq_getElem hi, hget]
    obtain ⟨it2, hit2, hidx⟩ := hc.qwf i p hi2
    rw [hit] at hit2
    cases hit2
    refine ⟨it, hit, hkey, ?_⟩
    rw [hidx]
    simp [index, hi2]
  · intro hfull
    have hpos : 0 < c.items.length := by omega
    obtain ⟨e, he⟩ := List.exists_mem_of_length_pos hpos
    have hq := hc.map_in e.1 e.2 he (hrefl e.1)
    have hl : 0 < c.queue.items.length := List.length_pos_of_mem hq
    have h0 : c.queue.items[0]? = some (c.queue.items[0]) := List.getElem?_eq_getElem hl
    exact ⟨c.queue.items[0], by simp [index, h0]⟩

/-- C13, evaluated on the code.  In the reachable state `stateK` the map is
empty and `Count()` is 0, and `OldestTime()` returns 5, which is not the zero
timestamp: it is the creation time of an item of key 1 that the queue still
holds.  In the state before `Remove(1)`, where the only item of the map was
created at 20, `OldestTime()` returns 5 as well. -/
theorem C13_oldest_time_of_item_not_held :
    runNew Nat Nat cfg2 [(5, .Set 1 7), (20, .Set 1 8), (21, .Remove 1)] = .ok stateK ∧
    Reachable cfg2 stateK ∧ stateK.items = [] ∧ stateK.Count = 0 ∧
    stateK.OldestTime = .ok 5 ∧ (5 : Time) ≠ cache.zeroTime ∧
    (runNew Nat Nat cfg2 [(5, .Set 1 7), (20, .Set 1 8)]).map
      (fun c => (c.items, c.itemOf 1, c.OldestTime))
      = .ok ([(1, 1)], some (mkItem 1 8 20 30 1), .ok 5) :=
  ⟨rfl, reach_stateK, rfl, rfl, rfl, by decide, rfl⟩

/-- C16.  `String()` returns "Removed" for `Removed`, which is 0, "Expired" for
`Expired`, which is 1, and "OutOfCapacity" for `OutOfCapacity`, which is 2; the
three strings differ from one another; for every other value, -1 among them,
it returns "Unknown". -/
theorem C16_evict_reason_string :
    EvictReason.String Removed = "Removed" ∧ EvictReason.String Expired = "Expired" ∧
    EvictReason.String OutOfCapacity = "OutOfCapacity" ∧
    Removed = 0 ∧ Expired = 1 ∧ OutOfCapacity = 2 ∧
    EvictReason.String Removed ≠ EvictReason.String Expired ∧
    EvictReason.String Removed ≠ EvictReason.String OutOfCapacity ∧
    EvictReason.String Expired ≠ EvictReason.String OutOfCapacity ∧
    (∀ reason : EvictReason, reason ≠ Removed → reason ≠ Expired → reason ≠ OutOfCapacity →
      EvictReason.String reason = "Unknown") ∧
    EvictReason.String (-1) = "Unknown" := by
  refine ⟨rfl, rfl, rfl, rfl, rfl, rfl, by decide, by decide, by decide, ?_, rfl⟩
  intro reason h0 h1 h2
  simp only [EvictReason.String, if_neg h0, if_neg h1, if_neg h2]

/-- C16 at the values -1 and 3. -/
theorem C16_evict_reason_string_witness :
    ((-1 : EvictReason) ≠ Removed ∧ (-1 : EvictReason) ≠ Expired ∧
      (-1 : EvictReason) ≠ OutOfCapacity ∧ EvictReason.String (-1) = "Unknown") ∧
    ((3 : EvictReason) ≠ Removed ∧ (3 : EvictReason) ≠ Expired ∧
      (3 : EvictReason) ≠ OutOfCapacity ∧ EvictReason.String 3 = "Unknown") :=
  ⟨⟨by decide, by decide, by decide,
     C16_evict_reason_string.2.2.2.2.2.2.2.2.2.1 (-1) (by decide) (by decide) (by decide)⟩,
   ⟨by decide, by decide, by decide,
     C16_evict_reason_string.2.2.2.2.2.2.2.2.2.1 3 (by decide) (by decide) (by decide)⟩⟩

/-- C17, evaluated on the code.  In the reachable state `stateG` the map holds
for key 1 an item of value 8 that expires at 30, so it is not expired at 25 and
`Get(1)` at 25 returns `(8, true)`.  The cleanup at 25 invokes the callback
once, with `(1, 7, Expired)`, for the other item of key 1 that the queue holds,
and deletes key 1 from the map: `Get(1)` at 25 then returns `(nil, false)`,
while the item of value 8 is still queued. -/
theorem C17_cleanup_deletes_live_key :
    Reachable cfg2 stateG ∧
    stateG.itemOf 1 = some (mkItem 1 8 20 30 1) ∧ (mkItem 1 8 20 30 1).expired 25 = false ∧
    (stateG.Get 25 1).map Prod.snd = .ok (some 8, true) ∧
    stateG.cleanup 25 = .ok stateGC ∧
    stateGC.calls = stateG.calls ++ [(1, 7, Expired)] ∧
    mapGet 1 stateGC.items = none ∧
    (stateGC.Get 25 1).map Prod.snd = .ok (none, false) ∧
    stateGC.queue.items = [1] ∧ stateGC.queue.mem[1]? = some (mkItem 1 8 20 30 0) :=
  ⟨reach_stateG, rfl, rfl, rfl, rfl, rfl, rfl, rfl, rfl, rfl⟩

/-- C20, evaluated on the code.  With capacity 1, `Set(NaN, 1)` is followed by
`Set(1, 2)`, which evicts the item of the NaN key from the queue, while
`delete` leaves the entry of that key in the map, since the key is not `==` to
itself; `Remove(1)` then empties the queue.  In the reachable state `stateN`
the map holds one item, which is not queued, the map is at capacity and the
queue has no root: `Set(2, 3)` fails with an index out of range. -/
theorem C20_set_panics_after_nan_key :
    runNew Key Nat cfg1 [(0, .Set .nan 1), (1, .Set (.num 1) 2), (2, .Remove (.num 1))]
      = .ok stateN ∧
    Reachable cfg1 stateN ∧ 1 ≤ cfg1.Capacity ∧
    stateN.items = [(Key.nan, 0)] ∧ stateN.queue.items = [] ∧
    (stateN.items.length : Int) ≥ stateN.capacity ∧
    index stateN.queue.items 0 = .error .indexOutOfRange ∧
    stateN.Set 3 (.num 2) 3 = .error .indexOutOfRange ∧
    runNew Key Nat cfg1
      [(0, .Set .nan 1), (1, .Set (.num 1) 2), (2, .Remove (.num 1)), (3, .Set (.num 2) 3)]
      = .error .indexOutOfRange :=
  ⟨rfl, reachable_of_runNew cfg1 traceN stateN rfl rfl, by decide, rfl, rfl, by decide, rfl,
    rfl, rfl⟩

end CacheClaims

/-! ### Properties of the scheduler -/

section SchedulerLemmas

variable {K V : Type} [BEq K] [PartialEquivBEq K]

theorem SInv_init (c : cache K V) : SInv (System.init c) :=
  { one := by simp [System.init]
    idle := fun _ => ⟨rfl, rfl, rfl, rfl⟩
    busy := fun h => by rcases h with h | h <;> exact absurd rfl h
    case_ := fun h => absurd rfl h }

theorem updateTimer_spec (s : System K V) (r : System K V × Bool)
    (h : s.updateTimer = .ok r) :
    r.1.c = s.c ∧ r.1.hasNotified = s.hasNotified ∧ r.1.waitItem = s.waitItem ∧
    r.1.pc = s.pc ∧ r.1.toNotify = s.toNotify ∧ r.1.toSend = s.toSend ∧
    (r.2 = false → r.1.timer = s.timer) ∧ (r.2 = false ↔ s.c.queue.items = []) := by
  unfold System.updateTimer at h
  by_cases hl : s.c.queue.Len > 0
  · rw [if_pos hl] at h
    have hne : s.c.queue.items ≠ [] := by
      intro he
      simp [expirationQueue.Len, he] at hl
    cases hroot : s.c.queue.root with
    | none => rw [hroot] at h; cases h
    | some root =>
      rw [hroot] at h
      cases hit : load s.c.queue.mem root with
      | error e => simp [bind, Except.bind, hit] at h
      | ok it =>
        simp only [bind, Except.bind, hit, pure, Except.pure] at h
        cases h
        exact ⟨rfl, rfl, rfl, rfl, rfl, rfl, fun h => (by cases h),
          ⟨fun h => (by cases h), fun h => absurd h hne⟩⟩
  · rw [if_neg hl] at h
    cases h
    have he : s.c.queue.items = [] := by
      cases hi : s.c.queue.items with
      | nil => rfl
      | cons a l => simp [expirationQueue.Len, hi] at hl
    exact ⟨rfl, rfl, rfl, rfl, rfl, rfl, fun _ => rfl, ⟨fun _ => he, fun _ => rfl⟩⟩

theorem SInv_step (s s2 : System K V) (a : Act K V) (hs : SInv s)
    (he : s.enabled a = true) (h : s.step a = .ok s2) : SInv s2 := by
  cases a with
  | Set now key value =>
    simp only [System.step, bind, Except.bind] at h
    cases h1 : s.c.getItem now key with
    | error e => rw [h1] at h; cases h
    | ok r =>
      rw [h1] at h
      cases h2 : s.c.Set now key value with
      | error e => rw [h2] at h; cases h
      | ok c =>
        rw [h2] at h
        cases h
        exact ⟨hs.one, hs.idle, hs.busy, hs.case_⟩
  | Get now key =>
    simp only [System.step, bind, Except.bind] at h
    cases h1 : s.c.Get now key with
    | error e => rw [h1] at h; cases h
    | ok r =>
      rw [h1] at h
      cases h
      exact ⟨hs.one, hs.idle, hs.busy, hs.case_⟩
  | Remove key =>
    simp only [System.step, bind, Except.bind] at h
    cases h1 : s.c.Remove key with
    | error e => rw [h1] at h; cases h
    | ok r =>
      rw [h1] at h
      cases h
      exact ⟨hs.one, hs.idle, hs.busy, hs.case_⟩
  | notify =>
    have hone := hs.one
    cases hn : s.hasNotified with
    | true =>
      simp only [System.step, System.notifyExpiration, pure, Except.pure, hn, if_true] at h
      cases h
      refine ⟨?_, fun h => ?_, hs.busy, hs.case_⟩
      · show s.waitItem + (if false = true then s.toSend + 1 else s.toSend) ≤ 1
        simp only [Bool.false_eq_true, if_false]
        exact hone
      · cases h
    | false =>
      simp only [System.step, System.notifyExpiration, pure, Except.pure, hn,
        Bool.false_eq_true, if_false, if_true] at h
      obtain ⟨i1, i2, i3, i4⟩ := hs.idle hn
      cases h
      refine ⟨?_, fun h => ?_, ?_, fun h => absurd i4 h⟩
      · show s.waitItem + (s.toSend + 1) ≤ 1
        omega
      · cases h
      · intro h
        rcases h with h | h
        · exact absurd i3 h
        · exact absurd i4 h
  | send =>
    simp only [System.enabled, Bool.and_eq_true, decide_eq_true_eq] at he
    simp only [System.step, pure, Except.pure] at h
    cases h
    have hn : s.hasNotified = true := by
      cases hn : s.hasNotified with
      | true => rfl
      | false => have := (hs.idle hn).2.1; omega
    have hone := hs.one
    refine ⟨?_, fun h => ?_, fun h => ?_, hs.case_⟩
    · show s.waitItem + 1 + (s.toSend - 1) ≤ 1
      omega
    · rw [hn] at h; cases h
    · have := (hs.busy h).2; omega
  | timerFires now =>
    simp only [System.enabled] at he
    simp only [System.step, pure, Except.pure] at h
    cases h
    cases ht : s.timer with
    | stopped => rw [ht] at he; cases he
    | fired => rw [ht] at he; cases he
    | armed at_ =>
      have hne : s.timer ≠ .stopped := by rw [ht]; intro h; cases h
      have hz := hs.busy (Or.inl hne)
      have hpc : s.pc = .select := by
        by_contra hp
        exact hne (hs.case_ hp)
      refine ⟨hs.one, fun h => ?_, fun _ => hz, fun h => absurd hpc h⟩
      exact absurd (hs.idle h).2.2.1 hne
  | recvTimer =>
    simp only [System.enabled, Bool.and_eq_true, decide_eq_true_eq] at he
    simp only [System.step, pure, Except.pure] at h
    cases h
    have hne : s.timer ≠ .stopped := by rw [he.2]; intro h; cases h
    have hz := hs.busy (Or.inl hne)
    refine ⟨hs.one, fun h => ?_, fun _ => hz, fun _ => rfl⟩
    exact absurd (hs.idle h).2.2.1 hne
  | recvWaitItem =>
    simp only [System.enabled, Bool.and_eq_true, decide_eq_true_eq] at he
    simp only [System.step, pure, Except.pure] at h
    cases h
    have hone := hs.one
    have ht : s.timer = .stopped := by
      by_contra hne
      have := (hs.busy (Or.inl hne)).1
      omega
    have hn : s.hasNotified = true := by
      cases hn : s.hasNotified with
      | true => rfl
      | false => have := (hs.idle hn).1; omega
    refine ⟨?_, fun h => ?_, fun _ => ?_, fun _ => ht⟩
    · show s.waitItem - 1 + s.toSend ≤ 1
      omega
    · rw [hn] at h; cases h
    · constructor
      · show s.waitItem - 1 = 0
        omega
      · show s.toSend = 0
        omega
  | handle now =>
    simp only [System.enabled, decide_eq_true_eq] at he
    have ht := hs.case_ he
    obtain ⟨hw, hts⟩ := hs.busy (Or.inr he)
    have hn : s.hasNotified = true := by
      cases hn : s.hasNotified with
      | true => rfl
      | false => exact absurd (hs.idle hn).2.2.2 he
    have hone := hs.one
    simp only [System.step] at h
    split at h
    · rename_i hpc
      exact absurd hpc he
    · simp only [bind, Except.bind] at h
      split at h
      · cases h
      · split at h
        · cases h
        · rename_i c h1 r h2
          obtain ⟨-, e2, e3, -, -, e6, e7, -⟩ := updateTimer_spec _ r h2
          simp only [pure, Except.pure] at h
          cases h
          have e3' : r.1.waitItem = 0 := by rw [e3]; exact hw
          have e6' : r.1.toSend = 0 := by rw [e6]; exact hts
          refine ⟨?_, fun h => ?_, fun _ => ⟨e3', e6'⟩, fun h => absurd rfl h⟩
          · show r.1.waitItem + r.1.toSend ≤ 1
            omega
          · have hr : r.2 = false := by
              cases hr : r.2 with
              | false => rfl
              | true =>
                have h' : (if r.2 = true then r.1.hasNotified else false) = false := h
                rw [hr, if_pos rfl, e2] at h'
                have h'' : s.hasNotified = false := h'
                rw [hn] at h''
                cases h''
            have e7' : r.1.timer = .stopped := by rw [e7 hr]; exact ht
            exact ⟨e3', e6', e7', rfl⟩
    · simp only [bind, Except.bind] at h
      split at h
      · cases h
      · rename_i r h2
        obtain ⟨-, e2, e3, -, -, e6, e7, -⟩ := updateTimer_spec _ r h2
        simp only [pure, Except.pure] at h
        cases h
        have e3' : r.1.waitItem = 0 := by rw [e3]; exact hw
        have e6' : r.1.toSend = 0 := by rw [e6]; exact hts
        refine ⟨?_, fun h => ?_, fun _ => ⟨e3', e6'⟩, fun h => absurd rfl h⟩
        · show r.1.waitItem + r.1.toSend ≤ 1
          omega
        · have h' : r.1.hasNotified = false := h
          rw [e2, hn] at h'
          cases h'

theorem SReach_inv (cfg : Config) (s : System K V) (h : SReach cfg s) : SInv s := by
  induction h with
  | init c _ => exact SInv_init c
  | step s s2 a _ he hstep ih => exact SInv_step s s2 a ih he hstep

theorem SReach_of_run (cfg : Config) : ∀ (acts : List (Act K V)) (s s2 : System K V),
    SReach cfg s → s.run acts = some (.ok s2) → SReach cfg s2 := by
  intro acts
  induction acts with
  | nil =>
    intro s s2 hs h
    simp only [System.run] at h
    cases h
    exact hs
  | cons a rest ih =>
    intro s s2 hs h
    simp only [System.run] at h
    cases he : s.enabled a with
    | false => rw [he] at h; simp at h
    | true =>
      rw [he] at h
      simp only [if_true] at h
      cases h1 : s.step a with
      | error e => rw [h1] at h; simp at h
      | ok s1 =>
        rw [h1] at h
        exact ih s1 s2 (SReach.step s s1 a hs he h1) h

theorem dead_step (s s2 : System K V) (a : Act K V) (hd : s.dead = true)
    (he : s.enabled a = true) (h : s.step a = .ok s2) :
    s2.dead = true ∧ a ≠ .send ∧ a ≠ .recvTimer ∧ a ≠ .recvWaitItem ∧
    (∀ now, a ≠ .timerFires now) ∧ (∀ now, a ≠ .handle now) := by
  simp only [System.dead, Bool.and_eq_true, decide_eq_true_eq] at hd
  obtain ⟨⟨⟨⟨d1, d2⟩, d3⟩, d4⟩, d5⟩ := hd
  cases a with
  | Set now key value =>
    simp only [System.step, bind, Except.bind] at h
    cases h1 : s.c.getItem now key with
    | error e => rw [h1] at h; cases h
    | ok r =>
      rw [h1] at h
      cases h2 : s.c.Set now key value with
      | error e => rw [h2] at h; cases h
      | ok c =>
        rw [h2] at h
        cases h
        simp [System.dead, d1, d2, d3, d4, d5]
  | Get now key =>
    simp only [System.step, bind, Except.bind] at h
    cases h1 : s.c.Get now key with
    | error e => rw [h1] at h; cases h
    | ok r =>
      rw [h1] at h
      cases h
      simp [System.dead, d1, d2, d3, d4, d5]
  | Remove key =>
    simp only [System.step, bind, Except.bind] at h
    cases h1 : s.c.Remove key with
    | error e => rw [h1] at h; cases h
    | ok r =>
      rw [h1] at h
      cases h
      simp [System.dead, d1, d2, d3, d4, d5]
  | notify =>
    simp only [System.step, System.notifyExpiration, pure, Except.pure, d1, if_true] at h
    cases h
    simp [System.dead, d1, d2, d3, d4, d5]
  | send =>
    simp only [System.enabled, Bool.and_eq_true, decide_eq_true_eq] at he
    omega
  | timerFires now =>
    simp [System.enabled, d2] at he
  | recvTimer =>
    simp [System.enabled, d2] at he
  | recvWaitItem =>
    simp only [System.enabled, Bool.and_eq_true, decide_eq_true_eq] at he
    omega
  | handle now =>
    simp [System.enabled, d3] at he

theorem dead_run : ∀ (acts : List (Act K V)) (s s2 : System K V), s.dead = true →
    s.run acts = some (.ok s2) →
    s2.dead = true ∧ ∀ a ∈ acts, a ≠ .recvTimer ∧ a ≠ .recvWaitItem ∧ ∀ now, a ≠ .handle now := by
  intro acts
  induction acts with
  | nil =>
    intro s s2 hd h
    simp only [System.run] at h
    cases h
    exact ⟨hd, fun a ha => by cases ha⟩
  | cons a rest ih =>
    intro s s2 hd h
    simp only [System.run] at h
    cases he : s.enabled a with
    | false => rw [he] at h; simp at h
    | true =>
      rw [he] at h
      simp only [if_true] at h
      cases h1 : s.step a with
      | error e => rw [h1] at h; simp at h
      | ok s1 =>
        rw [h1] at h
        obtain ⟨d1, -, n2, n3, -, n5⟩ := dead_step s s1 a hd he h1
        obtain ⟨d2, hrest⟩ := ih s1 s2 d1 h
        refine ⟨d2, fun b hb => ?_⟩
        rcases List.mem_cons.mp hb with hb | hb
        · rw [hb]; exact ⟨n2, n3, n5⟩
        · exact hrest b hb

theorem run_traceS :
    (NewCache Nat Nat cfg2).map (fun c => (System.init c).run traceS) = .ok (some (.ok stateS)) :=
  rfl

theorem reach_stateS : SReach cfg2 stateS := by
  obtain ⟨c, hc⟩ : ∃ c, NewCache Nat Nat cfg2 = .ok c := ⟨_, NewCache_eq cfg2⟩
  have h := run_traceS
  rw [hc] at h
  simp only [Except.map] at h
  exact SReach_of_run cfg2 traceS _ stateS (SReach.init c hc) (by injection h)

/-- C14, evaluated on the code.  The steps of `traceS` are `Set(1)` with its
notification and its send, `Remove(1)`, the scheduler that takes the signal
and finds the queue empty, and `Set(2)` with its notification.  They lead to
the reachable state `stateS`, where the item of key 2 is queued, while the
timer is stopped, no wake signal is buffered or about to be sent, no `Set` has
yet to notify, the scheduler is blocked in its `select`, and `hasNotified` is
still true: no step of the scheduler can be taken. -/
theorem C14_missed_wakeup :
    (NewCache Nat Nat cfg2).map (fun c => (System.init c).run traceS) = .ok (some (.ok stateS)) ∧
    SReach cfg2 stateS ∧
    stateS.c.queue.items = [1] ∧ stateS.c.itemOf 2 = some (mkItem 2 8 2 12 0) ∧
    stateS.awake = false ∧ stateS.hasNotified = true ∧ stateS.dead = true ∧
    stateS.enabled .recvTimer = false ∧ stateS.enabled .recvWaitItem = false ∧
    stateS.enabled (.timerFires 100) = false ∧ stateS.enabled (.handle 100) = false ∧
    (stateS.run [.Set 50 3 9, .notify, .Get 100 2]).map (fun r => r.map
      (fun s => (s.awake, s.c.queue.items, s.c.calls)))
      = some (.ok (false, [1, 2], [(1, 7, Removed)])) :=
  ⟨run_traceS, reach_stateS, rfl, rfl, rfl, rfl, rfl, rfl, rfl, rfl, rfl, rfl⟩

/-- C15.  In every state the cache and its scheduler reach, the channel
`waitItem` buffers at most one wake signal, and a signal that is buffered
excludes a call of `notifyExpiration` that is about to send: whenever such a
call stands at its send, the channel has room and the send can be taken. -/
theorem C15_wake_signal_coalesced (cfg : Config) (s : System K V) (h : SReach cfg s) :
    s.waitItem ≤ 1 ∧ s.waitItem + s.toSend ≤ 1 ∧
    (0 < s.toSend → s.waitItem = 0 ∧ s.enabled .send = true) := by
  have hs := SReach_inv cfg s h
  have hone := hs.one
  refine ⟨by omega, hone, fun hp => ⟨by omega, ?_⟩⟩
  simp only [System.enabled, Bool.and_eq_true, decide_eq_true_eq]
  omega

theorem run_traceT :
    (NewCache Nat Nat cfg2).map (fun c => (System.init c).run traceT) = .ok (some (.ok stateT)) :=
  rfl

theorem reach_stateT : SReach cfg2 stateT := by
  obtain ⟨c, hc⟩ : ∃ c, NewCache Nat Nat cfg2 = .ok c := ⟨_, NewCache_eq cfg2⟩
  have h := run_traceT
  rw [hc] at h
  simp only [Except.map] at h
  exact SReach_of_run cfg2 traceT _ stateT (SReach.init c hc) (by injection h)

/-- C15 after two calls of `Set` that inserted: one of them stands at its send,
which can be taken, and after it one signal is buffered for the two
insertions. -/
theorem C15_wake_signal_coalesced_witness :
    SReach cfg2 stateT ∧
    (stateT.waitItem ≤ 1 ∧ stateT.waitItem + stateT.toSend ≤ 1 ∧
      (0 < stateT.toSend → stateT.waitItem = 0 ∧ stateT.enabled .send = true)) ∧
    0 < stateT.toSend ∧
    (stateT.run [.send]).map (fun r => r.map (fun s => (s.waitItem, s.toSend, s.toNotify)))
      = some (.ok (1, 0, 0)) :=
  ⟨reach_stateT, C15_wake_signal_coalesced cfg2 stateT reach_stateT, by decide, rfl⟩

end SchedulerLemmas

end ttlcache
